import Mathlib

/-!
Omok (five-in-a-row): verification of the two search programs.

`Protype` embeds `src/protype.cpp` (bounded alpha-beta minimax over a global
board); `Protype3` embeds `src/protype3.cpp` (Monte Carlo tree search).

The global `board` of `protype.cpp` is threaded explicitly: every function
that writes it returns the board it leaves behind.
-/

set_option autoImplicit false
set_option maxRecDepth 100000

namespace Protype

abbrev SIZE : Nat := 15
abbrev MAX_DEPTH : Nat := 3

/-- Values of `enum Player`, stored in the `int` cells of the board. -/
abbrev EMPTY : Int := 0
abbrev HUMAN : Int := 1
abbrev COMPUTER : Int := 2

abbrev INT_MIN : Int := -2147483648
abbrev INT_MAX : Int := 2147483647

/-- The global `vector<vector<int>> board(SIZE, vector<int>(SIZE, EMPTY))`. -/
abbrev Board : Type := Fin SIZE → Fin SIZE → Int

/-- The read `board[i][j]`. An index outside the grid has no defined value in
the program; here it reads as `0`, and every read of the embedded functions is
guarded as in the source. -/
def rd (board : Board) (i j : Nat) : Int :=
  if h : i < SIZE ∧ j < SIZE then board ⟨i, h.1⟩ ⟨j, h.2⟩ else 0

/-- The write `board[i][j] = v`. -/
def wr (board : Board) (i j : Nat) (v : Int) : Board :=
  fun x y => if x.val = i ∧ y.val = j then v else board x y

/-- The function `checkWin(int player)`: both loops, the test
`board[i][j] == player`, and the four guarded direction tests. -/
def checkWin (board : Board) (player : Int) : Bool :=
  (List.range SIZE).any fun i =>
    (List.range SIZE).any fun j =>
      rd board i j == player &&
        ((decide (j ≤ SIZE - 5) && rd board i (j + 1) == player && rd board i (j + 2) == player &&
            rd board i (j + 3) == player && rd board i (j + 4) == player) ||
         (decide (i ≤ SIZE - 5) && rd board (i + 1) j == player && rd board (i + 2) j == player &&
            rd board (i + 3) j == player && rd board (i + 4) j == player) ||
         (decide (i ≤ SIZE - 5) && decide (j ≤ SIZE - 5) && rd board (i + 1) (j + 1) == player &&
            rd board (i + 2) (j + 2) == player && rd board (i + 3) (j + 3) == player &&
            rd board (i + 4) (j + 4) == player) ||
         (decide (i ≥ 4) && decide (j ≤ SIZE - 5) && rd board (i - 1) (j + 1) == player &&
            rd board (i - 2) (j + 2) == player && rd board (i - 3) (j + 3) == player &&
            rd board (i - 4) (j + 4) == player))

/-- The function `isBoardFull()`. -/
def isBoardFull (board : Board) : Bool :=
  !((List.range SIZE).any fun i => (List.range SIZE).any fun j => rd board i j == EMPTY)

/-- The function `evaluateBoard()`. -/
def evaluateBoard (board : Board) : Int :=
  if checkWin board COMPUTER then 1000
  else if checkWin board HUMAN then -1000
  else 0

/-- The inner `for j` loop of the maximizing branch of `minimax`, on row `i`.
The loop state is the global board and the locals `best` and `alpha`; `call`
is the recursive call `minimax(depth + 1, false, alpha, beta)` run on the
current board. `break` leaves this loop only. -/
def maxRow (call : Board → Int → Int → Int × Board) (beta : Int) (i : Nat) :
    List Nat → Board × Int × Int → Board × Int × Int
  | [], st => st
  | j :: js, (board, best, alpha) =>
    if rd board i j = EMPTY then
      let r := call (wr board i j COMPUTER) alpha beta
      let best1 := max best r.1
      let board1 := wr r.2 i j EMPTY
      let alpha1 := max alpha best1
      if beta ≤ alpha1 then (board1, best1, alpha1)
      else maxRow call beta i js (board1, best1, alpha1)
    else maxRow call beta i js (board, best, alpha)

/-- The inner `for j` loop of the minimizing branch of `minimax`, on row `i`.
The loop state is the global board and the locals `best` and `beta`. -/
def minRow (call : Board → Int → Int → Int × Board) (alpha : Int) (i : Nat) :
    List Nat → Board × Int × Int → Board × Int × Int
  | [], st => st
  | j :: js, (board, best, beta) =>
    if rd board i j = EMPTY then
      let r := call (wr board i j HUMAN) alpha beta
      let best1 := min best r.1
      let board1 := wr r.2 i j EMPTY
      let beta1 := min beta best1
      if beta1 ≤ alpha then (board1, best1, beta1)
      else minRow call alpha i js (board1, best1, beta1)
    else minRow call alpha i js (board, best, beta)

/-- The body of `minimax` with the recursive calls supplied as `callMin`
(`minimax(depth + 1, false, ., .)`) and `callMax` (`minimax(depth + 1, true, ., .)`).
The result is the returned score and the board left behind. -/
def minimaxBody (callMin callMax : Board → Int → Int → Int × Board)
    (board : Board) (depth : Nat) (isMaximizing : Bool) (alpha beta : Int) : Int × Board :=
  let score := evaluateBoard board
  if score = 1000 ∨ score = -1000 then (score, board)
  else if isBoardFull board then (0, board)
  else if depth ≥ MAX_DEPTH then (score, board)
  else if isMaximizing then
    let st := (List.range SIZE).foldl
      (fun st i => maxRow callMin beta i (List.range SIZE) st) (board, INT_MIN, alpha)
    (st.2.1, st.1)
  else
    let st := (List.range SIZE).foldl
      (fun st i => minRow callMax alpha i (List.range SIZE) st) (board, INT_MAX, beta)
    (st.2.1, st.1)

/-- The function `minimax` unrolled `fuel` levels deep. With no level left it
returns the static score; `minimax` below never gets there. -/
def minimaxAux : Nat → Board → Nat → Bool → Int → Int → Int × Board
  | 0, board, _, _, _, _ => (evaluateBoard board, board)
  | fuel + 1, board, depth, isMaximizing, alpha, beta =>
    minimaxBody (fun b a c => minimaxAux fuel b (depth + 1) false a c)
      (fun b a c => minimaxAux fuel b (depth + 1) true a c) board depth isMaximizing alpha beta

/-- The function `minimax(depth, isMaximizing, alpha, beta)` run on `board`: the
returned score and the board left behind. The recursion stops at
`depth >= MAX_DEPTH`, so `MAX_DEPTH - depth + 1` levels are enough
(`minimax_eq`). -/
def minimax (board : Board) (depth : Nat) (isMaximizing : Bool) (alpha beta : Int) : Int × Board :=
  minimaxAux (MAX_DEPTH - depth + 1) board depth isMaximizing alpha beta

/-- One iteration of the inner loop body of `findBestMove` at cell `(i, j)`;
the state is the global board and the locals `bestVal` and `bestMove`. -/
def findBestMoveStep (i j : Nat) (st : Board × Int × (Int × Int)) : Board × Int × (Int × Int) :=
  if rd st.1 i j = EMPTY then
    let r := minimax (wr st.1 i j COMPUTER) 0 false INT_MIN INT_MAX
    let board1 := wr r.2 i j EMPTY
    if r.1 > st.2.1 then (board1, r.1, ((i : Int), (j : Int)))
    else (board1, st.2.1, st.2.2)
  else st

/-- The function `findBestMove()` run on `board`: the returned pair and the
board left behind. -/
def findBestMove (board : Board) : (Int × Int) × Board :=
  let st := (List.range SIZE).foldl
    (fun st i => (List.range SIZE).foldl (fun st j => findBestMoveStep i j st) st)
    (board, INT_MIN, ((-1 : Int), (-1 : Int)))
  (st.2.2, st.1)

/-- The empty cells of a board in row-major order. -/
def emptyCells (board : Board) : List (Nat × Nat) :=
  (List.range SIZE).flatMap fun i =>
    ((List.range SIZE).filter fun j => rd board i j == EMPTY).map fun j => (i, j)

/-- Largest element of a list (`0` for the empty list). -/
def listMax : List Int → Int
  | [] => 0
  | v :: vs => vs.foldl max v

/-- Smallest element of a list (`0` for the empty list). -/
def listMin : List Int → Int
  | [] => 0
  | v :: vs => vs.foldl min v

/-- Spec side of the search: full depth-bounded minimax without pruning, with
`plies` levels left before the cutoff. The score is `+1000` when COMPUTER has
five in a row, otherwise `-1000` when HUMAN has, `0` on a full board or at the
cutoff, otherwise the maximum (COMPUTER to move) or minimum (HUMAN to move)
over all empty cells. -/
def fullMinimax : Nat → Board → Bool → Int
  | 0, board, _ =>
    if checkWin board COMPUTER then 1000 else if checkWin board HUMAN then -1000 else 0
  | plies + 1, board, isMaximizing =>
    if checkWin board COMPUTER then 1000
    else if checkWin board HUMAN then -1000
    else if isBoardFull board then 0
    else if isMaximizing then
      listMax ((emptyCells board).map fun c => fullMinimax plies (wr board c.1 c.2 COMPUTER) false)
    else
      listMin ((emptyCells board).map fun c => fullMinimax plies (wr board c.1 c.2 HUMAN) true)

/-- Spec side of the win test: the cell at integer coordinates `(x, y)` lies
inside the grid and holds `p`. -/
def cellIs (board : Board) (p : Int) (x y : Int) : Prop :=
  0 ≤ x ∧ x < SIZE ∧ 0 ≤ y ∧ y < SIZE ∧ rd board x.toNat y.toNat = p

/-- The four scan directions as (row step, column step): right, down,
down-right, up-right. -/
def directions : List (Int × Int) := [(0, 1), (1, 0), (1, 1), (-1, 1)]

/-- Spec side of the win test: some cell and some direction start five cells
that all lie inside the grid and all hold `p`. -/
def FiveInRow (board : Board) (p : Int) : Prop :=
  ∃ i j : Nat, ∃ d ∈ directions, ∀ k : Nat, k < 5 → cellIs board p (i + k * d.1) (j + k * d.2)

/-- How the result `r` of a search in the window `(a, c)` relates to the exact
value `v`: at or below `a` the value is at most `a`, at or above `c` the value is
at least `c`, and strictly inside the window the result is exact. -/
def Within (v r a c : Int) : Prop :=
  (r ≤ a → v ≤ a) ∧ (c ≤ r → c ≤ v) ∧ (a < r → r < c → r = v)

/-- The values `val` of the positions reached by placing `p` on the empty cells
of row `i` among the columns `js`, in column order. -/
def rowVals (val : Board → Int) (board : Board) (p : Int) (i : Nat) (js : List Nat) : List Int :=
  (js.filter fun j => rd board i j == EMPTY).map fun j => val (wr board i j p)

/-- The number `m` is the larger of `a` and `b`. -/
def IsMax (m a b : Int) : Prop := a ≤ m ∧ b ≤ m ∧ (m = a ∨ m = b)
/-- The number `m` is the smaller of `a` and `b`. -/
def IsMin (m a b : Int) : Prop := m ≤ a ∧ m ≤ b ∧ (m = a ∨ m = b)

/-- Loop invariant of the maximizing branch. `a0` is the `alpha` the call
received and `seen` the exact values of the empty cells scanned so far (those
skipped by `break` included). After a cutoff some value seen is at least
`beta`; before it every value seen is at most `alpha`, and `best` is one of
them once it exceeds `a0`. -/
def MaxInv (a0 beta : Int) (seen : List Int) (best alpha : Int) : Prop :=
  IsMax alpha a0 best ∧ (beta ≤ alpha → ∃ v ∈ seen, beta ≤ v) ∧
    (alpha < beta → (∀ v ∈ seen, v ≤ alpha) ∧ (a0 < best → best ∈ seen))

/-- Loop invariant of the minimizing branch, the mirror image of `MaxInv`. -/
def MinInv (alpha b0 : Int) (seen : List Int) (best beta : Int) : Prop :=
  IsMin beta b0 best ∧ (beta ≤ alpha → ∃ v ∈ seen, v ≤ alpha) ∧
    (alpha < beta → (∀ v ∈ seen, beta ≤ v) ∧ (best < b0 → best ∈ seen))

/-- The value `findBestMove` computes for the empty cell `(i, j)`. -/
def moveVal (board : Board) (i j : Nat) : Int :=
  (minimax (wr board i j COMPUTER) 0 false INT_MIN INT_MAX).1

/-- Row-major order on cells. -/
def cellLt (c d : Nat × Nat) : Prop := c.1 < d.1 ∨ (c.1 = d.1 ∧ c.2 < d.2)

/-- Loop invariant of `findBestMove`, with `seen` the empty cells scanned so
far: either none was seen and the locals still hold their initial values, or
`bestMove` is a cell seen whose value `bestVal` is strictly above every value
seen before it and at least every value seen after it. -/
def BestInv (board : Board) (seen : List (Nat × Nat)) (bestVal : Int) (bestMove : Int × Int) : Prop :=
  (seen = [] ∧ bestVal = INT_MIN ∧ bestMove = (-1, -1)) ∨
    ∃ pre c post, seen = pre ++ c :: post ∧ bestMove = ((c.1 : Int), (c.2 : Int)) ∧
      bestVal = moveVal board c.1 c.2 ∧
      (∀ x ∈ pre, moveVal board x.1 x.2 < moveVal board c.1 c.2) ∧
      (∀ x ∈ post, moveVal board x.1 x.2 ≤ moveVal board c.1 c.2)

/-- A board that is empty except for `p` on the cells `(7,3)..(7,7)`. -/
def rowBoard (p : Int) : Board :=
  fun x y => if x.val = 7 ∧ 3 ≤ y.val ∧ y.val ≤ 7 then p else EMPTY

/-- A board with HUMAN on `(7,3)..(7,6)` and `(7,8)`, and COMPUTER on `(7,7)`:
a run of four bridged by an opponent stone. -/
def bridgedBoard : Board :=
  fun x y =>
    if x.val = 7 ∧ 3 ≤ y.val ∧ y.val ≤ 6 then HUMAN
    else if x.val = 7 ∧ y.val = 7 then COMPUTER
    else if x.val = 7 ∧ y.val = 8 then HUMAN
    else EMPTY

/-- A full board without five in a row, except that the cells listed in `holes`
are empty: cell `(i, j)` holds HUMAN when `(i / 2 + j)` is even and COMPUTER
otherwise. -/
def patternBoard (holes : List (Nat × Nat)) : Board :=
  fun x y =>
    if (x.val, y.val) ∈ holes then EMPTY
    else if (x.val / 2 + y.val) % 2 = 0 then HUMAN else COMPUTER

/-- The maximizing inner loop `maxRow` with a record of the cells it tried: the
state is the loop state of `maxRow` and the list of cells `(i, j)` on which a
COMPUTER stone was placed and `minimax` was called, in order. -/
def maxRowTried (call : Board → Int → Int → Int × Board) (beta : Int) (i : Nat) :
    List Nat → (Board × Int × Int) × List (Nat × Nat) → (Board × Int × Int) × List (Nat × Nat)
  | [], st => st
  | j :: js, ((board, best, alpha), tried) =>
    if rd board i j = EMPTY then
      let r := call (wr board i j COMPUTER) alpha beta
      let best1 := max best r.1
      let board1 := wr r.2 i j EMPTY
      let alpha1 := max alpha best1
      if beta ≤ alpha1 then ((board1, best1, alpha1), tried ++ [(i, j)])
      else maxRowTried call beta i js ((board1, best1, alpha1), tried ++ [(i, j)])
    else maxRowTried call beta i js ((board, best, alpha), tried)

/-- The cells tried by the maximizing branch of `minimax(depth, true, alpha, beta)`
on `board`, in order, for a `depth` below `MAX_DEPTH` on a board that is neither
won nor full. -/
def triedByMax (board : Board) (depth : Nat) (alpha beta : Int) : List (Nat × Nat) :=
  ((List.range SIZE).foldl
    (fun st i => maxRowTried (fun b a c => minimax b (depth + 1) false a c) beta i
      (List.range SIZE) st)
    ((board, INT_MIN, alpha), [])).2

/-- How one pass of the `while (true)` loop of `main` ends. -/
inductive Outcome where
  | reprompt
  | humanWins
  | computerWins
  | draw
  | nextTurn
  | writeOutsideBoard
  deriving DecidableEq

/-- One pass of the `while (true)` loop of `main` on the pair `x y` read from
the input: how it ends and the board it leaves. The pass ends in
`writeOutsideBoard` when the pair returned by `findBestMove` is no index of the
board, so that `board[bestMove.first][bestMove.second] = COMPUTER` writes
outside it; the board returned is then the one before that write. -/
def turn (board : Board) (x y : Int) : Outcome × Board :=
  if x < 0 ∨ x ≥ SIZE ∨ y < 0 ∨ y ≥ SIZE ∨ rd board x.toNat y.toNat ≠ EMPTY then
    (Outcome.reprompt, board)
  else
    let board1 := wr board x.toNat y.toNat HUMAN
    if checkWin board1 HUMAN then (Outcome.humanWins, board1)
    else
      let found := findBestMove board1
      if 0 ≤ found.1.1 ∧ found.1.1 < SIZE ∧ 0 ≤ found.1.2 ∧ found.1.2 < SIZE then
        let board2 := wr found.2 found.1.1.toNat found.1.2.toNat COMPUTER
        if checkWin board2 COMPUTER then (Outcome.computerWins, board2)
        else if isBoardFull board2 then (Outcome.draw, board2)
        else (Outcome.nextTurn, board2)
      else (Outcome.writeOutsideBoard, found.2)

/-- One operand of a `&&` chain of `checkWin`: a guard on the loop indices, which
reads nothing, or the comparison `board[i][j] == player`. -/
inductive Test where
  | guard (holds : Bool)
  | read (i j : Int)

/-- A `&&` chain evaluated left to right, stopping at the first operand that is
false: its value and the cells read. -/
def evalTests (board : Board) (player : Int) : List Test → Bool × List (Int × Int)
  | [] => (true, [])
  | Test.guard holds :: ts => if holds then evalTests board player ts else (false, [])
  | Test.read i j :: ts =>
    if rd board i.toNat j.toNat = player then
      ((evalTests board player ts).1, (i, j) :: (evalTests board player ts).2)
    else (false, [(i, j)])

/-- The conditions of the four `if` statements of `checkWin` at cell `(i, j)`. -/
def cellTests (i j : Nat) : List (List Test) :=
  [ [Test.guard (decide (j ≤ SIZE - 5)), Test.read i (j + 1), Test.read i (j + 2),
      Test.read i (j + 3), Test.read i (j + 4)],
    [Test.guard (decide (i ≤ SIZE - 5)), Test.read (i + 1) j, Test.read (i + 2) j,
      Test.read (i + 3) j, Test.read (i + 4) j],
    [Test.guard (decide (i ≤ SIZE - 5)), Test.guard (decide (j ≤ SIZE - 5)),
      Test.read (i + 1) (j + 1), Test.read (i + 2) (j + 2), Test.read (i + 3) (j + 3),
      Test.read (i + 4) (j + 4)],
    [Test.guard (decide (i ≥ 4)), Test.guard (decide (j ≤ SIZE - 5)),
      Test.read ((i : Int) - 1) (j + 1), Test.read ((i : Int) - 2) (j + 2),
      Test.read ((i : Int) - 3) (j + 3), Test.read ((i : Int) - 4) (j + 4)] ]

/-- The `if` statements of one cell in order, stopping at the first whose
condition holds (`return true`): whether one held and the cells read. -/
def anyTests (board : Board) (player : Int) : List (List Test) → Bool × List (Int × Int)
  | [] => (false, [])
  | ts :: rest =>
    if (evalTests board player ts).1 then (true, (evalTests board player ts).2)
    else ((anyTests board player rest).1,
      (evalTests board player ts).2 ++ (anyTests board player rest).2)

/-- The body of the inner loop of `checkWin` at cell `(i, j)`: whether it
returns true and the cells it reads. -/
def cellReads (board : Board) (player : Int) (i j : Nat) : Bool × List (Int × Int) :=
  if rd board i j = player then
    ((anyTests board player (cellTests i j)).1,
      ((i : Int), (j : Int)) :: (anyTests board player (cellTests i j)).2)
  else (false, [((i : Int), (j : Int))])

/-- The loops of `checkWin` over the cells `cells`, stopping at the first cell
whose body returns true. -/
def scanReads (board : Board) (player : Int) : List (Nat × Nat) → Bool × List (Int × Int)
  | [] => (false, [])
  | c :: cs =>
    if (cellReads board player c.1 c.2).1 then (true, (cellReads board player c.1 c.2).2)
    else ((scanReads board player cs).1,
      (cellReads board player c.1 c.2).2 ++ (scanReads board player cs).2)

/-- All cells in the order of the two loops. -/
def allCells : List (Nat × Nat) :=
  (List.range SIZE).flatMap fun i => (List.range SIZE).map fun j => (i, j)

/-- The function `checkWin(player)` together with the cells it reads, in
order. -/
def checkWinReads (board : Board) (player : Int) : Bool × List (Int × Int) :=
  scanReads board player allCells

/-- The values a call of `minimax` can return. -/
def IsScore (v : Int) : Prop := v = -1000 ∨ v = 0 ∨ v = 1000

/-- The index pair `rc` is an index of the board. -/
def InBoard (rc : Int × Int) : Prop :=
  0 ≤ rc.1 ∧ rc.1 < SIZE ∧ 0 ≤ rc.2 ∧ rc.2 < SIZE

/-- Every read of the chain that is reached when the guards before it hold is
inside the board. -/
def Guarded : List Test → Prop
  | [] => True
  | Test.guard holds :: ts => holds = true → Guarded ts
  | Test.read i j :: ts => InBoard (i, j) ∧ Guarded ts

/-- The value of one operand of a `&&` chain. -/
def Test.value (board : Board) (player : Int) : Test → Bool
  | Test.guard holds => holds
  | Test.read i j => rd board i.toNat j.toNat == player

/-- The position used for C14: three empty cells, two in row 0 and one in
row 1. -/
def cutoffBoard : Board := patternBoard [(0, 0), (0, 1), (1, 0)]

/-- The position used for C15: only cell `(0, 0)` is empty, and a HUMAN stone
there makes no five. -/
def lastCellBoard : Board := patternBoard [(0, 0)]

end Protype

namespace Protype3

abbrev BOARD_SIZE : Nat := 15

/-- The type `enum class Player`. -/
inductive Player where
  | NONE
  | PLAYER1
  | PLAYER2
  deriving DecidableEq

/-- The member `std::vector<std::vector<Player>> board`, always
`BOARD_SIZE` by `BOARD_SIZE`. -/
abbrev Board : Type := Fin BOARD_SIZE → Fin BOARD_SIZE → Player

/-- The class `GameState`. -/
structure GameState where
  board : Board
  currentPlayer : Player

/-- The read `board[i][j]`. An index outside the grid has no defined value in
the program; here it reads as `NONE`, and every read of the embedded functions
is guarded as in the source. -/
def rd (board : Board) (i j : Nat) : Player :=
  if h : i < BOARD_SIZE ∧ j < BOARD_SIZE then board ⟨i, h.1⟩ ⟨j, h.2⟩ else Player.NONE

/-- The write `board[i][j] = v`. -/
def wr (board : Board) (i j : Nat) (v : Player) : Board :=
  fun x y => if x.val = i ∧ y.val = j then v else board x y

/-- The comparison `a == b` of two boards, cell by cell. -/
def boardEq (a b : Board) : Bool :=
  (List.range BOARD_SIZE).all fun i => (List.range BOARD_SIZE).all fun j => rd a i j == rd b i j

/-- The constructor `GameState()`: an empty board, PLAYER1 to move. -/
def GameState.new : GameState :=
  { board := fun _ _ => Player.NONE, currentPlayer := Player.PLAYER1 }

/-- The local `newState` of `GameState::getPossibleMoves` at the empty cell
`(i, j)`: a copy of the state with the mover's stone placed there and the turn
passed on. -/
def newState (s : GameState) (i j : Nat) : GameState :=
  { board := wr s.board i j s.currentPlayer,
    currentPlayer := if s.currentPlayer = Player.PLAYER1 then Player.PLAYER2 else Player.PLAYER1 }

/-- The method `GameState::getPossibleMoves`: both loops, with `moves.push_back`
as appending at the end. -/
def GameState.getPossibleMoves (s : GameState) : List GameState :=
  (List.range BOARD_SIZE).foldl
    (fun moves i =>
      (List.range BOARD_SIZE).foldl
        (fun moves j => if rd s.board i j = Player.NONE then moves ++ [newState s i j] else moves)
        moves)
    []

/-- The method `GameState::checkDirection(x, y, dx, dy)`. -/
def checkDirection (board : Board) (x y : Nat) (dx dy : Int) : Bool :=
  let start := rd board x y
  [1, 2, 3, 4].all fun (step : Nat) =>
    let nx : Int := (x : Int) + (step : Int) * dx
    let ny : Int := (y : Int) + (step : Int) * dy
    !(decide (nx < 0) || decide (ny < 0) || decide (nx ≥ (BOARD_SIZE : Int)) ||
        decide (ny ≥ (BOARD_SIZE : Int)) || rd board nx.toNat ny.toNat != start)

/-- The body of the inner loop of `GameState::checkWin` at cell `(i, j)`: the
player returned there, if any. -/
def scanCell (board : Board) (i j : Nat) : Option Player :=
  if rd board i j ≠ Player.NONE ∧
      (checkDirection board i j 1 0 || checkDirection board i j 0 1 ||
        checkDirection board i j 1 1 || checkDirection board i j 1 (-1)) = true then
    some (rd board i j)
  else none

/-- The method `GameState::checkWin`: the first cell in scan order at which the
loop body returns decides; `NONE` when there is none. -/
def GameState.checkWin (s : GameState) : Player :=
  ((List.range BOARD_SIZE).findSome? fun i =>
    (List.range BOARD_SIZE).findSome? fun j => scanCell s.board i j).getD Player.NONE

/-- The method `GameState::getWinner`. -/
def GameState.getWinner (s : GameState) : Player := s.checkWin

/-- The method `GameState::isTerminal`. -/
def GameState.isTerminal (s : GameState) : Bool :=
  s.checkWin != Player.NONE || s.getPossibleMoves.isEmpty

/-- Spec side of the win test: the cell at integer coordinates `(x, y)` lies
inside the grid and holds `p`. -/
def cellIs (board : Board) (p : Player) (x y : Int) : Prop :=
  0 ≤ x ∧ x < BOARD_SIZE ∧ 0 ≤ y ∧ y < BOARD_SIZE ∧ rd board x.toNat y.toNat = p

/-- The four line directions as (row step, column step): vertical, horizontal
and the two diagonals. -/
def lineDirections : List (Int × Int) := [(1, 0), (0, 1), (1, 1), (1, -1)]

/-- Spec side of the win test: from cell `(i, j)`, along one of the four lines,
five cells lie inside the grid and all hold `p`. -/
def FiveFrom (board : Board) (p : Player) (i j : Nat) : Prop :=
  ∃ d ∈ lineDirections, ∀ k : Nat, k < 5 → cellIs board p (i + k * d.1) (j + k * d.2)

/-- Spec side of the win test: player `p` has five in a row somewhere. -/
def HasFive (board : Board) (p : Player) : Prop :=
  ∃ i j : Nat, FiveFrom board p i j

/-- Row-major order on cells. -/
def cellLt (c d : Nat × Nat) : Prop := c.1 < d.1 ∨ (c.1 = d.1 ∧ c.2 < d.2)

/-- The empty cells of a board in row-major order. -/
def emptyCells (board : Board) : List (Nat × Nat) :=
  (List.range BOARD_SIZE).flatMap fun i =>
    ((List.range BOARD_SIZE).filter fun j => rd board i j == Player.NONE).map fun j => (i, j)

/-- The player other than `p`. -/
def otherPlayer : Player → Player
  | Player.PLAYER1 => Player.PLAYER2
  | Player.PLAYER2 => Player.PLAYER1
  | Player.NONE => Player.NONE

/-- Spec side of move generation: the successor of `s` for the empty cell `c`. -/
def successorAt (s : GameState) (c : Nat × Nat) : GameState :=
  { board := wr s.board c.1 c.2 s.currentPlayer, currentPlayer := otherPlayer s.currentPlayer }

/-- The class `Node`. A `Node*` is the index of the node in the list of the
nodes allocated so far; `nullptr` is `none`. -/
structure Node where
  state : GameState
  parent : Option Nat
  children : List Nat
  wins : Int
  visits : Int

/-- The nodes allocated by `new Node`, in allocation order. Nothing is freed
before `run` has chosen its result. -/
abbrev Nodes : Type := List Node

/-- The constructor `Node(state, parent)`. -/
def Node.new (state : GameState) (parent : Option Nat) : Node :=
  { state := state, parent := parent, children := [], wins := 0, visits := 0 }

/-- The node a non-null pointer `p` points to. Every pointer of the program was
returned by `new Node`, so `p` is an index into `nodes` (`TreeInv` below); the
fallback is never read. -/
def deref (nodes : Nodes) (p : Nat) : Node :=
  nodes.getD p (Node.new GameState.new none)

/-- The method `Node::isFullyExpanded`. -/
def Node.isFullyExpanded (n : Node) : Bool :=
  n.children.length == n.state.getPossibleMoves.length

/-- The test `uctValue > bestValue`; `none` is the initial value minus
infinity. -/
def exceeds (uctValue : Rat) : Option Rat → Bool
  | none => true
  | some bestValue => decide (uctValue > bestValue)

/-- The method `Node::bestChild` of the node `node`. The `double` expression of
the loop body is not modelled: `uct wins visits parentVisits` stands for its
value on a child with the given `wins` and `visits` under a parent with
`parentVisits`, taken to be an ordinary number. The fold state is
`(bestValue, bestNode)`. -/
def bestChild (uct : Int → Int → Int → Rat) (nodes : Nodes) (node : Nat) : Option Nat :=
  ((deref nodes node).children.foldl
    (fun (acc : Option Rat × Option Nat) child =>
      let uctValue :=
        uct (deref nodes child).wins (deref nodes child).visits (deref nodes node).visits
      if exceeds uctValue acc.1 then (some uctValue, some child) else acc)
    (none, none)).2

/-- The method `MCTS::expand`: the first move whose board no child has gets a
new node, appended to the children; the result is the nodes afterwards and the
returned pointer. -/
def expand (nodes : Nodes) (node : Nat) : Nodes × Option Nat :=
  let possibleMoves := (deref nodes node).state.getPossibleMoves
  match possibleMoves.find? (fun move =>
      !((deref nodes node).children.any fun child =>
        boardEq (deref nodes child).state.board move.board)) with
  | some move =>
    let childNode := nodes.length
    let nodes1 := nodes ++ [Node.new move (some node)]
    (nodes1.set node
      { deref nodes1 node with children := (deref nodes1 node).children ++ [childNode] },
      some childNode)
  | none => (nodes, none)

/-- The loop of `MCTS::treePolicy`, at most `fuel` rounds. The result is `none`
when the rounds run out or when the loop test dereferences the `nullptr` that
`bestChild` returned; otherwise it is the nodes afterwards and the returned
pointer. -/
def treePolicyLoop (uct : Int → Int → Int → Rat) : Nat → Nodes → Nat → Option (Nodes × Option Nat)
  | 0, _, _ => none
  | fuel + 1, nodes, node =>
    if !(deref nodes node).state.isTerminal then
      if !(deref nodes node).isFullyExpanded then some (expand nodes node)
      else
        match bestChild uct nodes node with
        | some child => treePolicyLoop uct fuel nodes child
        | none => none
    else some (nodes, some node)

/-- The method `MCTS::treePolicy`. Each round moves to a child, which was
allocated after its parent, so one round per node is enough. -/
def treePolicy (uct : Int → Int → Int → Rat) (nodes : Nodes) (node : Nat) :
    Option (Nodes × Option Nat) :=
  treePolicyLoop uct nodes.length nodes node

/-- The loop of `MCTS::defaultPolicy`, at most `fuel` rounds; `rand k` is the
value of the `k`-th call of `rand()`. The result is the returned winner and the
number of calls of `rand()` made so far, or `none` when the rounds run out or
the index is outside `possibleMoves`. -/
def defaultPolicyLoop (rand : Nat → Nat) : Nat → GameState → Nat → Option (Player × Nat)
  | 0, _, _ => none
  | fuel + 1, state, k =>
    if !state.isTerminal then
      let possibleMoves := state.getPossibleMoves
      match possibleMoves[rand k % possibleMoves.length]? with
      | some next => defaultPolicyLoop rand fuel next (k + 1)
      | none => none
    else some (state.getWinner, k)

/-- The method `MCTS::defaultPolicy`. Each round fills an empty cell, except that
a first round from a state whose `currentPlayer` is `NONE` leaves the board as
it is; so one round per empty cell, one more, and a last test are enough
(`defaultPolicy_total`). -/
def defaultPolicy (rand : Nat → Nat) (state : GameState) (k : Nat) : Option (Player × Nat) :=
  defaultPolicyLoop rand (state.getPossibleMoves.length + 2) state k

/-- The loop of `MCTS::backpropagate`, at most `fuel` rounds; `none` when the
rounds run out. The counters are counted here without bound;
`backpropagateIntLoop` below is the same loop with the `int` counters of `Node`,
and the two agree whenever no counter on the chain stands at `INT_MAX`
(`backpropagateIntLoop_eq`, `backpropagateIntLoop_refines`). -/
def backpropagateLoop : Nat → Nodes → Option Nat → Player → Option Nodes
  | 0, _, _, _ => none
  | _ + 1, nodes, none, _ => some nodes
  | fuel + 1, nodes, some node, result =>
    let n := deref nodes node
    let n1 := { n with visits := n.visits + 1 }
    let n2 := if n1.state.currentPlayer ≠ result then { n1 with wins := n1.wins + 1 } else n1
    backpropagateLoop fuel (nodes.set node n2) n2.parent result

/-- The method `MCTS::backpropagate`. A parent was allocated before its child,
so one round per node and the final test are enough. -/
def backpropagate (nodes : Nodes) (node : Option Nat) (result : Player) : Option Nodes :=
  backpropagateLoop (nodes.length + 1) nodes node result

/-- The largest value of the type `int` of the counters `Node::wins` and
`Node::visits`. -/
def INT_MAX : Int := 2147483647

/-- The increment `++` of an `int` counter holding `v`: the value afterwards, or
`none` at `INT_MAX`, where the signed overflow has no defined result. -/
def increment (v : Int) : Option Int :=
  if v < INT_MAX then some (v + 1) else none

/-- The loop of `MCTS::backpropagate` with `wins` and `visits` as the `int`
counters they are in `Node`, at most `fuel` rounds; `none` when `node->visits++`
or `node->wins++` overflows, or when the rounds run out. -/
def backpropagateIntLoop : Nat → Nodes → Option Nat → Player → Option Nodes
  | 0, _, _, _ => none
  | _ + 1, nodes, none, _ => some nodes
  | fuel + 1, nodes, some node, result =>
    let n := deref nodes node
    match increment n.visits with
    | none => none
    | some visits1 =>
      let n1 := { n with visits := visits1 }
      if n1.state.currentPlayer ≠ result then
        match increment n1.wins with
        | none => none
        | some wins1 =>
          backpropagateIntLoop fuel (nodes.set node { n1 with wins := wins1 }) n1.parent result
      else backpropagateIntLoop fuel (nodes.set node n1) n1.parent result

/-- The method `MCTS::backpropagate` with `int` counters. A parent was allocated
before its child, so one round per node and the final test are enough. -/
def backpropagateInt (nodes : Nodes) (node : Option Nat) (result : Player) : Option Nodes :=
  backpropagateIntLoop (nodes.length + 1) nodes node result

/-- One pass of the loop body of the `worker` lambda of `MCTS::run`, on the
nodes and the count of `rand()` calls; the root is node `0`. The result is
`none` when `treePolicy` returns `nullptr` (then `node->state` dereferences
it), when a loop above has no result, or when `iterations / 100` is zero (then
`completedIterations % (iterations / 100)` divides by zero). The progress
output is not modelled. -/
def workerStep (uct : Int → Int → Int → Rat) (rand : Nat → Nat) (iterations : Nat)
    (st : Nodes × Nat) : Option (Nodes × Nat) :=
  match treePolicy uct st.1 0 with
  | some (nodes1, some node) =>
    match defaultPolicy rand (deref nodes1 node).state st.2 with
    | some (result, k) =>
      match backpropagate nodes1 (some node) result with
      | some nodes2 => if iterations / 100 = 0 then none else some (nodes2, k)
      | none => none
    | none => none
  | _ => none

/-- Runs `step` `n` times, stopping at the first pass without a result. -/
def repeatStep {σ : Type} (step : σ → Option σ) : Nat → σ → Option σ
  | 0, st => some st
  | n + 1, st =>
    match step st with
    | some st1 => repeatStep step n st1
    | none => none

/-- The `numThreads` workers of `MCTS::run`, run one after another, each making
`iterations / numThreads` passes. -/
def runWorkers (uct : Int → Int → Int → Rat) (rand : Nat → Nat) (iterations numThreads : Nat)
    (st : Nodes × Nat) : Option (Nodes × Nat) :=
  repeatStep (repeatStep (workerStep uct rand iterations) (iterations / numThreads)) numThreads st

/-- The method `MCTS::run`: `none` when the workers have no result or when
`root->bestChild()` is `nullptr`, which `bestChild->state` dereferences. -/
def MCTS.run (uct : Int → Int → Int → Rat) (rand : Nat → Nat) (initialState : GameState)
    (iterations numThreads : Nat) : Option GameState :=
  match runWorkers uct rand iterations numThreads ([Node.new initialState none], 0) with
  | some (nodes, _) =>
    match bestChild uct nodes 0 with
    | some best => some (deref nodes best).state
    | none => none
  | none => none

/-- The parent chain: `OnChain nodes n m` says that `m` is `n` or an ancestor
of `n`. -/
inductive OnChain (nodes : Nodes) : Nat → Nat → Prop where
  | self (n : Nat) : OnChain nodes n n
  | up (n p m : Nat) : (deref nodes n).parent = some p → OnChain nodes p m → OnChain nodes n m

/-- Parents are allocated before their children. -/
def ParentsFirst (nodes : Nodes) : Prop :=
  ∀ n, n < nodes.length → ∀ p, (deref nodes n).parent = some p → p < n

/-- The statistics of `n` after a playout with result `result` passed through it. -/
def credited (n : Node) (result : Player) : Node :=
  { n with
    visits := n.visits + 1
    wins := if n.state.currentPlayer ≠ result then n.wins + 1 else n.wins }

/-- Invariant of the nodes built by `run`: parents are allocated before their
children, the children of a node point back to it and hold, in order, the first
successors of its state, a player is to move in every state, and
`0 <= wins <= visits`. -/
structure TreeInv (nodes : Nodes) : Prop where
  parentsFirst : ParentsFirst nodes
  childrenLater : ∀ n, n < nodes.length → ∀ c ∈ (deref nodes n).children,
    n < c ∧ c < nodes.length
  childParent : ∀ n, n < nodes.length → ∀ c ∈ (deref nodes n).children,
    (deref nodes c).parent = some n
  childStates : ∀ n, n < nodes.length →
    (deref nodes n).children.map (fun c => (deref nodes c).state) =
      (deref nodes n).state.getPossibleMoves.take (deref nodes n).children.length
  mover : ∀ n, n < nodes.length → (deref nodes n).state.currentPlayer ≠ Player.NONE
  counts : ∀ n, n < nodes.length → 0 ≤ (deref nodes n).wins ∧
    (deref nodes n).wins ≤ (deref nodes n).visits

/-- The nodes `nodes1` keep every node of `nodes` with its state, and its
children possibly followed by new ones. -/
def Extends (nodes nodes1 : Nodes) : Prop :=
  nodes.length ≤ nodes1.length ∧
    ∀ n, n < nodes.length → (deref nodes1 n).state = (deref nodes n).state ∧
      (deref nodes n).children <+: (deref nodes1 n).children

/-- The nodes after `expand` has allocated a node for `move` under node `n` and
pushed it onto the children of `n`. -/
def grow (nodes : Nodes) (n : Nat) (move : GameState) : Nodes :=
  (nodes ++ [Node.new move (some n)]).set n
    { deref nodes n with children := (deref nodes n).children ++ [nodes.length] }

/-- A full board without five in a row, except that the cells listed in `holes`
are empty: cell `(i, j)` holds PLAYER1 when `(i / 2 + j)` is even and PLAYER2
otherwise. -/
def patternBoard (holes : List (Nat × Nat)) : Board :=
  fun x y =>
    if (x.val, y.val) ∈ holes then Player.NONE
    else if (x.val / 2 + y.val) % 2 = 0 then Player.PLAYER1 else Player.PLAYER2

/-- A random source for concrete runs: `rand()` always returns `0`. -/
def zeroRand : Nat → Nat := fun _ => 0

/-- A position with two empty cells and PLAYER1 to move. -/
def twoHoleState : GameState :=
  { board := patternBoard [(0, 0), (0, 1)], currentPlayer := Player.PLAYER1 }

/-- The same position with `currentPlayer` set to `NONE`. -/
def noMoverState : GameState :=
  { board := patternBoard [(0, 0), (0, 1)], currentPlayer := Player.NONE }

/-- The full board without five in a row, as it stands after the human has
filled the last cell: PLAYER2 is to move. -/
def fullState : GameState :=
  { board := patternBoard [], currentPlayer := Player.PLAYER2 }

/-- A position in which PLAYER1 holds the cells `(7,3)..(7,7)` and nothing else
is on the board. -/
def fiveRowState : GameState :=
  { board := fun x y =>
      if x.val = 7 ∧ 3 ≤ y.val ∧ y.val ≤ 7 then Player.PLAYER1 else Player.NONE,
    currentPlayer := Player.PLAYER2 }

/-- A chain of three nodes: a root, its child and its grandchild. -/
def chainNodes : Nodes :=
  [ { state := twoHoleState, parent := none, children := [1], wins := 2, visits := 3 },
    { state := newState twoHoleState 0 0, parent := some 0, children := [2], wins := 1,
      visits := 2 },
    { state := newState (newState twoHoleState 0 0) 0 1, parent := some 1, children := [],
      wins := 0, visits := 1 } ]

/-- No increment of `backpropagate(n, result)` overflows: on the parent chain of
`n` every `visits` is below `INT_MAX`, and so is `wins` of every node whose
`currentPlayer` differs from `result`. -/
def NoOverflow (nodes : Nodes) (n : Nat) (result : Player) : Prop :=
  ∀ m, OnChain nodes n m → (deref nodes m).visits < INT_MAX ∧
    ((deref nodes m).state.currentPlayer ≠ result → (deref nodes m).wins < INT_MAX)

/-- A root whose `visits` counter holds `INT_MAX`. -/
def overflowNodes : Nodes :=
  [ { state := twoHoleState, parent := none, children := [], wins := 0, visits := 2147483647 } ]

/-- The index pair `rc` is an index of the board. -/
def InBoard (rc : Int × Int) : Prop :=
  0 ≤ rc.1 ∧ rc.1 < BOARD_SIZE ∧ 0 ≤ rc.2 ∧ rc.2 < BOARD_SIZE

/-- The loop of `GameState::checkDirection` over the steps `steps`, with the
cells it reads: the read `board[nx][ny]` is the last operand of the `||` chain,
reached only when the four comparisons before it are false. -/
def checkDirectionSteps (board : Board) (start : Player) (x y : Nat) (dx dy : Int) :
    List Nat → Bool × List (Int × Int)
  | [] => (true, [])
  | step :: steps =>
    let nx : Int := (x : Int) + (step : Int) * dx
    let ny : Int := (y : Int) + (step : Int) * dy
    if nx < 0 ∨ ny < 0 ∨ nx ≥ (BOARD_SIZE : Int) ∨ ny ≥ (BOARD_SIZE : Int) then (false, [])
    else if rd board nx.toNat ny.toNat ≠ start then (false, [(nx, ny)])
    else ((checkDirectionSteps board start x y dx dy steps).1,
      (nx, ny) :: (checkDirectionSteps board start x y dx dy steps).2)

/-- The method `GameState::checkDirection(x, y, dx, dy)` together with the cells
it reads, in order, the first being `board[x][y]`. -/
def checkDirectionReads (board : Board) (x y : Nat) (dx dy : Int) : Bool × List (Int × Int) :=
  ((checkDirectionSteps board (rd board x y) x y dx dy [1, 2, 3, 4]).1,
    ((x : Int), (y : Int)) ::
      (checkDirectionSteps board (rd board x y) x y dx dy [1, 2, 3, 4]).2)

/-- The read `board[x][y]` for `int` indices as they come from the input: there
is no value when an index is outside the vector. -/
def readCell (board : Board) (x y : Int) : Option Player :=
  if 0 ≤ x ∧ x < (BOARD_SIZE : Int) ∧ 0 ≤ y ∧ y < (BOARD_SIZE : Int) then
    some (rd board x.toNat y.toNat)
  else none

/-- The method `Gomoku::playerMove(x, y)` on the member `gameState`: the state
afterwards and whether "Invalid move. Try again." was printed. The result is
`none` when `board[x][y]` is outside the vector, which the method does not
test. -/
def Gomoku.playerMove (gameState : GameState) (x y : Int) : Option (GameState × Bool) :=
  match readCell gameState.board x y with
  | none => none
  | some cell =>
    if cell = Player.NONE then
      some ({ board := wr gameState.board x.toNat y.toNat Player.PLAYER1,
              currentPlayer := Player.PLAYER2 }, false)
    else some (gameState, true)

/-- The method `Gomoku::aiMove(numThreads)`; `none` when `run` has no result. -/
def Gomoku.aiMove (uct : Int → Int → Int → Rat) (rand : Nat → Nat) (gameState : GameState)
    (numThreads : Nat) : Option GameState :=
  match MCTS.run uct rand gameState 1000 numThreads with
  | some next => some { next with currentPlayer := Player.PLAYER1 }
  | none => none

/-- How one pass of the `while` loop of `main` ends. -/
inductive PassEnd where
  | player1Wins
  | aiWins
  | nextPass
  deriving DecidableEq

/-- One pass of the body of the `while (!game.isGameOver())` loop of `main` on
the pair `x y` read from the input: how it ends and the game state it leaves;
`none` when `playerMove` or `aiMove` has no result. -/
def mainPass (uct : Int → Int → Int → Rat) (rand : Nat → Nat) (numThreads : Nat)
    (gameState : GameState) (x y : Int) : Option (PassEnd × GameState) :=
  match Gomoku.playerMove gameState x y with
  | none => none
  | some (afterPlayer, _) =>
    if afterPlayer.getWinner ≠ Player.NONE then some (PassEnd.player1Wins, afterPlayer)
    else
      match Gomoku.aiMove uct rand afterPlayer numThreads with
      | none => none
      | some afterAi =>
        if afterAi.getWinner ≠ Player.NONE then some (PassEnd.aiWins, afterAi)
        else some (PassEnd.nextPass, afterAi)

/-- The number of empty cells of a board. -/
def emptyCount (board : Board) : Nat := (emptyCells board).length

/-- Spec side of the playout: `Playout rand s k final k1` says that picking the
successor number `rand() % size` from every non-terminal state, starting at `s`
with `k` calls of `rand()` made, leads to `final` with `k1` calls made. -/
inductive Playout (rand : Nat → Nat) : GameState → Nat → GameState → Nat → Prop where
  | done (s : GameState) (k : Nat) : Playout rand s k s k
  | step (s : GameState) (k : Nat) (next final : GameState) (k1 : Nat) :
      s.isTerminal = false →
      s.getPossibleMoves[rand k % s.getPossibleMoves.length]? = some next →
      Playout rand next (k + 1) final k1 → Playout rand s k final k1

/-- A position with one empty cell and `currentPlayer` set to `NONE`. -/
def oneHoleNoMover : GameState :=
  { board := patternBoard [(0, 0)], currentPlayer := Player.NONE }

/-- Two nodes: a root holding `noMoverState` and its first child. -/
def stuckNodes : Nodes :=
  [ { state := noMoverState, parent := none, children := [1], wins := 0, visits := 0 },
    Node.new (newState noMoverState 0 0) (some 0) ]

/-- Two nodes: a root holding `twoHoleState` and its first child. -/
def growingNodes : Nodes :=
  [ { state := twoHoleState, parent := none, children := [1], wins := 0, visits := 0 },
    Node.new (newState twoHoleState 0 0) (some 0) ]

/-- A position of a game in progress: PLAYER1 on `(7,7)`, PLAYER2 on `(7,8)`,
PLAYER1 to move. -/
def replayState : GameState :=
  { board := fun x y =>
      if x.val = 7 ∧ y.val = 7 then Player.PLAYER1
      else if x.val = 7 ∧ y.val = 8 then Player.PLAYER2
      else Player.NONE,
    currentPlayer := Player.PLAYER1 }

end Protype3

/-! ## Theorems about `protype.cpp` -/

namespace Protype

theorem rd_of_lt (board : Board) {i j : Nat} (hi : i < SIZE) (hj : j < SIZE) :
    rd board i j = board ⟨i, hi⟩ ⟨j, hj⟩ := by
  simp [rd, hi, hj]

theorem cellIs_cast (board : Board) (p : Int) (r c : Nat) :
    cellIs board p (r : Int) (c : Int) ↔ r < 15 ∧ c < 15 ∧ rd board r c = p := by
  simp only [cellIs, SIZE, Int.toNat_ofNat]
  constructor
  · rintro ⟨_, h1, _, h2, h3⟩
    exact ⟨by omega, by omega, h3⟩
  · rintro ⟨h1, h2, h3⟩
    exact ⟨by omega, by omega, by omega, by omega, h3⟩

theorem cellIs_of (board : Board) (p : Int) (x y : Int) (r c : Nat) (hx : x = r) (hy : y = c)
    (hr : r < 15) (hc : c < 15) (h : rd board r c = p) : cellIs board p x y := by
  subst hx hy
  exact (cellIs_cast board p r c).2 ⟨hr, hc, h⟩

theorem cellIs_rd (board : Board) (p : Int) (x y : Int) (r c : Nat) (h : cellIs board p x y)
    (hx : x = r) (hy : y = c) : r < 15 ∧ c < 15 ∧ rd board r c = p := by
  subst hx hy
  exact (cellIs_cast board p r c).1 h

theorem checkWin_iff (board : Board) (p : Int) :
    checkWin board p = true ↔ FiveInRow board p := by
  simp only [checkWin, FiveInRow, List.any_eq_true, List.mem_range, Bool.and_eq_true,
    Bool.or_eq_true, decide_eq_true_eq, beq_iff_eq, SIZE]
  constructor
  · rintro ⟨i, hi, j, hj, h0, h⟩
    rcases h with ((h | h) | h) | h
    · obtain ⟨⟨⟨⟨hg, h1⟩, h2⟩, h3⟩, h4⟩ := h
      refine ⟨i, j, (0, 1), by simp [directions], ?_⟩
      intro k hk
      interval_cases k
      · exact cellIs_of board p _ _ i j (by simp) (by simp) (by omega) (by omega) h0
      · exact cellIs_of board p _ _ i (j + 1) (by simp) (by simp) (by omega) (by omega) h1
      · exact cellIs_of board p _ _ i (j + 2) (by simp) (by simp) (by omega) (by omega) h2
      · exact cellIs_of board p _ _ i (j + 3) (by simp) (by simp) (by omega) (by omega) h3
      · exact cellIs_of board p _ _ i (j + 4) (by simp) (by simp) (by omega) (by omega) h4
    · obtain ⟨⟨⟨⟨hg, h1⟩, h2⟩, h3⟩, h4⟩ := h
      refine ⟨i, j, (1, 0), by simp [directions], ?_⟩
      intro k hk
      interval_cases k
      · exact cellIs_of board p _ _ i j (by simp) (by simp) (by omega) (by omega) h0
      · exact cellIs_of board p _ _ (i + 1) j (by simp) (by simp) (by omega) (by omega) h1
      · exact cellIs_of board p _ _ (i + 2) j (by simp) (by simp) (by omega) (by omega) h2
      · exact cellIs_of board p _ _ (i + 3) j (by simp) (by simp) (by omega) (by omega) h3
      · exact cellIs_of board p _ _ (i + 4) j (by simp) (by simp) (by omega) (by omega) h4
    · obtain ⟨⟨⟨⟨⟨hg, hg2⟩, h1⟩, h2⟩, h3⟩, h4⟩ := h
      refine ⟨i, j, (1, 1), by simp [directions], ?_⟩
      intro k hk
      interval_cases k
      · exact cellIs_of board p _ _ i j (by simp) (by simp) (by omega) (by omega) h0
      · exact cellIs_of board p _ _ (i + 1) (j + 1) (by simp) (by simp) (by omega) (by omega) h1
      · exact cellIs_of board p _ _ (i + 2) (j + 2) (by simp) (by simp) (by omega) (by omega) h2
      · exact cellIs_of board p _ _ (i + 3) (j + 3) (by simp) (by simp) (by omega) (by omega) h3
      · exact cellIs_of board p _ _ (i + 4) (j + 4) (by simp) (by simp) (by omega) (by omega) h4
    · obtain ⟨⟨⟨⟨⟨hg, hg2⟩, h1⟩, h2⟩, h3⟩, h4⟩ := h
      refine ⟨i, j, (-1, 1), by simp [directions], ?_⟩
      intro k hk
      interval_cases k
      · exact cellIs_of board p _ _ i j (by simp) (by simp) (by omega) (by omega) h0
      · exact cellIs_of board p _ _ (i - 1) (j + 1) (by push_cast; omega) (by simp)
          (by omega) (by omega) h1
      · exact cellIs_of board p _ _ (i - 2) (j + 2) (by push_cast; omega) (by simp)
          (by omega) (by omega) h2
      · exact cellIs_of board p _ _ (i - 3) (j + 3) (by push_cast; omega) (by simp)
          (by omega) (by omega) h3
      · exact cellIs_of board p _ _ (i - 4) (j + 4) (by push_cast; omega) (by simp)
          (by omega) (by omega) h4
  · rintro ⟨i, j, d, hd, h⟩
    have h0 := h 0 (by omega)
    have h1 := h 1 (by omega)
    have h2 := h 2 (by omega)
    have h3 := h 3 (by omega)
    have h4 := h 4 (by omega)
    simp only [directions, List.mem_cons, List.mem_singleton, List.not_mem_nil, or_false] at hd
    rcases hd with rfl | rfl | rfl | rfl
    · have e0 := cellIs_rd board p _ _ i j h0 (by simp) (by simp)
      have e1 := cellIs_rd board p _ _ i (j + 1) h1 (by simp) (by simp)
      have e2 := cellIs_rd board p _ _ i (j + 2) h2 (by simp) (by simp)
      have e3 := cellIs_rd board p _ _ i (j + 3) h3 (by simp) (by simp)
      have e4 := cellIs_rd board p _ _ i (j + 4) h4 (by simp) (by simp)
      exact ⟨i, e0.1, j, e0.2.1, e0.2.2,
        Or.inl (Or.inl (Or.inl ⟨⟨⟨⟨by omega, e1.2.2⟩, e2.2.2⟩, e3.2.2⟩, e4.2.2⟩))⟩
    · have e0 := cellIs_rd board p _ _ i j h0 (by simp) (by simp)
      have e1 := cellIs_rd board p _ _ (i + 1) j h1 (by simp) (by simp)
      have e2 := cellIs_rd board p _ _ (i + 2) j h2 (by simp) (by simp)
      have e3 := cellIs_rd board p _ _ (i + 3) j h3 (by simp) (by simp)
      have e4 := cellIs_rd board p _ _ (i + 4) j h4 (by simp) (by simp)
      exact ⟨i, e0.1, j, e0.2.1, e0.2.2,
        Or.inl (Or.inl (Or.inr ⟨⟨⟨⟨by omega, e1.2.2⟩, e2.2.2⟩, e3.2.2⟩, e4.2.2⟩))⟩
    · have e0 := cellIs_rd board p _ _ i j h0 (by simp) (by simp)
      have e1 := cellIs_rd board p _ _ (i + 1) (j + 1) h1 (by simp) (by simp)
      have e2 := cellIs_rd board p _ _ (i + 2) (j + 2) h2 (by simp) (by simp)
      have e3 := cellIs_rd board p _ _ (i + 3) (j + 3) h3 (by simp) (by simp)
      have e4 := cellIs_rd board p _ _ (i + 4) (j + 4) h4 (by simp) (by simp)
      exact ⟨i, e0.1, j, e0.2.1, e0.2.2,
        Or.inl (Or.inr ⟨⟨⟨⟨⟨by omega, by omega⟩, e1.2.2⟩, e2.2.2⟩, e3.2.2⟩, e4.2.2⟩)⟩
    · have g4 : (4 : Int) ≤ i := by
        have := h4.1
        push_cast at this
        omega
      have e0 := cellIs_rd board p _ _ i j h0 (by simp) (by simp)
      have e1 := cellIs_rd board p _ _ (i - 1) (j + 1) h1 (by push_cast; omega) (by simp)
      have e2 := cellIs_rd board p _ _ (i - 2) (j + 2) h2 (by push_cast; omega) (by simp)
      have e3 := cellIs_rd board p _ _ (i - 3) (j + 3) h3 (by push_cast; omega) (by simp)
      have e4 := cellIs_rd board p _ _ (i - 4) (j + 4) h4 (by push_cast; omega) (by simp)
      exact ⟨i, e0.1, j, e0.2.1, e0.2.2,
        Or.inr ⟨⟨⟨⟨⟨by omega, by omega⟩, e1.2.2⟩, e2.2.2⟩, e3.2.2⟩, e4.2.2⟩⟩

/-! ### The board is restored -/

theorem rd_wr (b : Board) (i j x y : Nat) (v : Int) :
    rd (wr b i j v) x y = if x = i ∧ y = j ∧ x < SIZE ∧ y < SIZE then v else rd b x y := by
  unfold rd wr
  by_cases h : x < SIZE ∧ y < SIZE
  · by_cases h2 : x = i ∧ y = j
    · obtain ⟨rfl, rfl⟩ := h2
      simp [h]
    · have h3 : ¬(x = i ∧ y = j ∧ x < SIZE ∧ y < SIZE) := fun h4 => h2 ⟨h4.1, h4.2.1⟩
      rw [if_neg h3]
      simp only [h, dif_pos, and_self, h2, if_false]
  · have h3 : ¬(x = i ∧ y = j ∧ x < SIZE ∧ y < SIZE) := fun h4 => h h4.2.2
    rw [if_neg h3]
    simp only [h, dif_neg, not_false_eq_true]

theorem wr_restore (b : Board) (i j : Nat) (v v0 : Int) (h : rd b i j = v0) :
    wr (wr b i j v) i j v0 = b := by
  funext x y
  simp only [wr]
  by_cases hxy : x.val = i ∧ y.val = j
  · simp only [hxy, and_self, if_true]
    obtain ⟨rfl, rfl⟩ := hxy
    rw [← h]
    simp [rd]
  · simp [hxy]

theorem maxRow_board (call : Board → Int → Int → Int × Board)
    (hcall : ∀ b a c, (call b a c).2 = b) (beta : Int) (i : Nat) :
    ∀ (js : List Nat) (st : Board × Int × Int), (maxRow call beta i js st).1 = st.1
  | [], _ => rfl
  | j :: js, (board, best, alpha) => by
    unfold maxRow
    by_cases h1 : rd board i j = EMPTY
    · simp only [h1, if_true, hcall]
      split_ifs
      · exact wr_restore _ _ _ _ _ h1
      · rw [maxRow_board call hcall beta i js]
        exact wr_restore _ _ _ _ _ h1
    · simp only [h1, if_false]
      exact maxRow_board call hcall beta i js _

theorem minRow_board (call : Board → Int → Int → Int × Board)
    (hcall : ∀ b a c, (call b a c).2 = b) (alpha : Int) (i : Nat) :
    ∀ (js : List Nat) (st : Board × Int × Int), (minRow call alpha i js st).1 = st.1
  | [], _ => rfl
  | j :: js, (board, best, beta) => by
    unfold minRow
    by_cases h1 : rd board i j = EMPTY
    · simp only [h1, if_true, hcall]
      split_ifs
      · exact wr_restore _ _ _ _ _ h1
      · rw [minRow_board call hcall alpha i js]
        exact wr_restore _ _ _ _ _ h1
    · simp only [h1, if_false]
      exact minRow_board call hcall alpha i js _

theorem foldl_fst_eq {σ τ ι : Type} (f : σ × τ → ι → σ × τ)
    (hf : ∀ st i, (f st i).1 = st.1) :
    ∀ (l : List ι) (st : σ × τ), (l.foldl f st).1 = st.1
  | [], _ => rfl
  | i :: l, st => by
    rw [List.foldl_cons, foldl_fst_eq f hf l, hf]

theorem minimaxBody_board (callMin callMax : Board → Int → Int → Int × Board)
    (hMin : ∀ b a c, (callMin b a c).2 = b) (hMax : ∀ b a c, (callMax b a c).2 = b)
    (board : Board) (depth : Nat) (isMaximizing : Bool) (alpha beta : Int) :
    (minimaxBody callMin callMax board depth isMaximizing alpha beta).2 = board := by
  unfold minimaxBody
  simp only
  split_ifs
  · rfl
  · rfl
  · rfl
  · exact foldl_fst_eq _ (fun st i => maxRow_board callMin hMin beta i _ st) _ _
  · exact foldl_fst_eq _ (fun st i => minRow_board callMax hMax alpha i _ st) _ _

theorem minimaxAux_board : ∀ (fuel : Nat) (board : Board) (depth : Nat) (isMaximizing : Bool)
    (alpha beta : Int), (minimaxAux fuel board depth isMaximizing alpha beta).2 = board
  | 0, _, _, _, _, _ => rfl
  | fuel + 1, board, depth, isMaximizing, alpha, beta => by
    rw [minimaxAux]
    exact minimaxBody_board _ _ (fun b a c => minimaxAux_board fuel b _ _ a c)
      (fun b a c => minimaxAux_board fuel b _ _ a c) board depth isMaximizing alpha beta

theorem minimax_board (board : Board) (depth : Nat) (isMaximizing : Bool) (alpha beta : Int) :
    (minimax board depth isMaximizing alpha beta).2 = board :=
  minimaxAux_board _ board depth isMaximizing alpha beta

theorem findBestMoveStep_board (i j : Nat) (st : Board × Int × (Int × Int)) :
    (findBestMoveStep i j st).1 = st.1 := by
  unfold findBestMoveStep
  by_cases h1 : rd st.1 i j = EMPTY
  · simp only [h1, if_true, minimax_board]
    split_ifs
    · exact wr_restore _ _ _ _ _ h1
    · exact wr_restore _ _ _ _ _ h1
  · simp only [h1, if_false]

theorem findBestMove_board (board : Board) : (findBestMove board).2 = board := by
  unfold findBestMove
  simp only
  exact foldl_fst_eq _
    (fun st i => foldl_fst_eq _ (fun st j => findBestMoveStep_board i j st) _ st) _ _

/-- The recursion equation of the source: `minimax` at `depth` is the body of
the function with the recursive calls being `minimax` at `depth + 1`. -/
theorem minimax_eq (board : Board) (depth : Nat) (isMaximizing : Bool) (alpha beta : Int) :
    minimax board depth isMaximizing alpha beta =
      minimaxBody (fun b a c => minimax b (depth + 1) false a c)
        (fun b a c => minimax b (depth + 1) true a c) board depth isMaximizing alpha beta := by
  unfold minimax
  rw [minimaxAux]
  by_cases hd : depth ≥ MAX_DEPTH
  · unfold minimaxBody
    simp only [hd, if_true]
  · have e : MAX_DEPTH - depth = MAX_DEPTH - (depth + 1) + 1 := by omega
    rw [e]

/-! ### Pruning does not change the value -/

theorem isMax_max (a b : Int) : IsMax (max a b) a b :=
  ⟨le_max_left a b, le_max_right a b, (max_choice a b)⟩

theorem isMin_min (a b : Int) : IsMin (min a b) a b :=
  ⟨min_le_left a b, min_le_right a b, (min_choice a b)⟩

theorem Within_self (v a c : Int) : Within v v a c := ⟨fun h => h, fun h => h, fun _ _ => rfl⟩

theorem MaxInv_step (a0 beta : Int) (seen : List Int) (best alpha v r best1 alpha1 : Int)
    (h : MaxInv a0 beta seen best alpha) (hw : alpha < beta → Within v r alpha beta)
    (hb : IsMax best1 best r) (ha : IsMax alpha1 alpha best1) :
    MaxInv a0 beta (seen ++ [v]) best1 alpha1 := by
  obtain ⟨⟨p1, p2, p3⟩, h2, h3⟩ := h
  obtain ⟨q1, q2, q3⟩ := hb
  obtain ⟨s1, s2, s3⟩ := ha
  have hI : IsMax alpha1 a0 best1 := by
    clear h2 h3 hw
    exact ⟨(by omega), (by omega), (by omega)⟩
  refine ⟨hI, ?_, ?_⟩
  · intro hc
    by_cases hcut : beta ≤ alpha
    · obtain ⟨w, hw1, hw2⟩ := h2 hcut
      exact ⟨w, List.mem_append_left _ hw1, hw2⟩
    · obtain ⟨w1, w2, w3⟩ := hw (by omega)
      exact ⟨v, by simp, w2 (by omega)⟩
  · intro hc
    have hlt : alpha < beta := by omega
    obtain ⟨w1, w2, w3⟩ := hw hlt
    obtain ⟨g1, g2⟩ := h3 hlt
    clear h2 h3 hw
    constructor
    · intro w hmem
      rcases List.mem_append.1 hmem with hm | hm
      · have := g1 w hm
        omega
      · simp only [List.mem_singleton] at hm
        subst hm
        by_cases hr : r ≤ alpha
        · have := w1 hr
          omega
        · have := w3 (by omega) (by omega)
          omega
    · intro hb
      by_cases hr : r ≤ best
      · have e : best1 = best := by omega
        rw [e]
        exact List.mem_append_left _ (g2 (by omega))
      · have e : best1 = r := by omega
        rw [e]
        have := w3 (by omega) (by omega)
        simp [this]

theorem MaxInv_mono (a0 beta : Int) (seen more : List Int) (best alpha : Int)
    (h : MaxInv a0 beta seen best alpha) (hc : beta ≤ alpha) :
    MaxInv a0 beta (seen ++ more) best alpha := by
  obtain ⟨h1, h2, h3⟩ := h
  refine ⟨h1, ?_, ?_⟩
  · intro _
    obtain ⟨w, hw1, hw2⟩ := h2 hc
    exact ⟨w, List.mem_append_left _ hw1, hw2⟩
  · intro h4
    omega

theorem MinInv_step (alpha b0 : Int) (seen : List Int) (best beta v r best1 beta1 : Int)
    (h : MinInv alpha b0 seen best beta) (hw : alpha < beta → Within v r alpha beta)
    (hb : IsMin best1 best r) (ha : IsMin beta1 beta best1) :
    MinInv alpha b0 (seen ++ [v]) best1 beta1 := by
  obtain ⟨⟨p1, p2, p3⟩, h2, h3⟩ := h
  obtain ⟨q1, q2, q3⟩ := hb
  obtain ⟨s1, s2, s3⟩ := ha
  have hI : IsMin beta1 b0 best1 := by
    clear h2 h3 hw
    exact ⟨(by omega), (by omega), (by omega)⟩
  refine ⟨hI, ?_, ?_⟩
  · intro hc
    by_cases hcut : beta ≤ alpha
    · obtain ⟨w, hw1, hw2⟩ := h2 hcut
      exact ⟨w, List.mem_append_left _ hw1, hw2⟩
    · obtain ⟨w1, w2, w3⟩ := hw (by omega)
      exact ⟨v, by simp, w1 (by omega)⟩
  · intro hc
    have hlt : alpha < beta := by omega
    obtain ⟨w1, w2, w3⟩ := hw hlt
    obtain ⟨g1, g2⟩ := h3 hlt
    clear h2 h3 hw
    constructor
    · intro w hmem
      rcases List.mem_append.1 hmem with hm | hm
      · have := g1 w hm
        omega
      · simp only [List.mem_singleton] at hm
        subst hm
        by_cases hr : beta ≤ r
        · have := w2 hr
          omega
        · have := w3 (by omega) (by omega)
          omega
    · intro hb
      by_cases hr : best ≤ r
      · have e : best1 = best := by omega
        rw [e]
        exact List.mem_append_left _ (g2 (by omega))
      · have e : best1 = r := by omega
        rw [e]
        have := w3 (by omega) (by omega)
        simp [this]

theorem MinInv_mono (alpha b0 : Int) (seen more : List Int) (best beta : Int)
    (h : MinInv alpha b0 seen best beta) (hc : beta ≤ alpha) :
    MinInv alpha b0 (seen ++ more) best beta := by
  obtain ⟨h1, h2, h3⟩ := h
  refine ⟨h1, ?_, ?_⟩
  · intro _
    obtain ⟨w, hw1, hw2⟩ := h2 hc
    exact ⟨w, List.mem_append_left _ hw1, hw2⟩
  · intro h4
    omega

theorem maxRow_inv (call : Board → Int → Int → Int × Board) (val : Board → Int) (board : Board)
    (a0 beta : Int) (ha0 : INT_MIN ≤ a0) (hbeta : beta ≤ INT_MAX)
    (hb : ∀ b a c, (call b a c).2 = b)
    (hv : ∀ b a c, INT_MIN ≤ a → c ≤ INT_MAX → a < c → Within (val b) (call b a c).1 a c)
    (i : Nat) :
    ∀ (js : List Nat) (seen : List Int) (best alpha : Int), MaxInv a0 beta seen best alpha →
      MaxInv a0 beta (seen ++ rowVals val board COMPUTER i js)
        (maxRow call beta i js (board, best, alpha)).2.1
        (maxRow call beta i js (board, best, alpha)).2.2
  | [], seen, best, alpha, h => by
    simpa [rowVals, maxRow] using h
  | j :: js, seen, best, alpha, h => by
    unfold maxRow
    by_cases h1 : rd board i j = EMPTY
    · have hrow : rowVals val board COMPUTER i (j :: js) =
          val (wr board i j COMPUTER) :: rowVals val board COMPUTER i js := by
        simp [rowVals, h1]
      have hstep := MaxInv_step a0 beta seen best alpha (val (wr board i j COMPUTER))
        (call (wr board i j COMPUTER) alpha beta).1 _ _ h
        (fun hlt => hv _ _ _ (by have := h.1.1; omega) hbeta hlt)
        (isMax_max _ _) (isMax_max _ _)
      have hrest : wr (call (wr board i j COMPUTER) alpha beta).2 i j EMPTY = board := by
        rw [hb]
        exact wr_restore _ _ _ _ _ h1
      simp only [h1, if_true, hrest]
      rw [hrow]
      have happ : seen ++ val (wr board i j COMPUTER) :: rowVals val board COMPUTER i js =
          (seen ++ [val (wr board i j COMPUTER)]) ++ rowVals val board COMPUTER i js := by
        simp
      rw [happ]
      split_ifs with h2
      · exact MaxInv_mono _ _ _ _ _ _ hstep h2
      · exact maxRow_inv call val board a0 beta ha0 hbeta hb hv i js _ _ _ hstep
    · have hrow : rowVals val board COMPUTER i (j :: js) = rowVals val board COMPUTER i js := by
        simp [rowVals, h1]
      simp only [h1, if_false]
      rw [hrow]
      exact maxRow_inv call val board a0 beta ha0 hbeta hb hv i js _ _ _ h

theorem minRow_inv (call : Board → Int → Int → Int × Board) (val : Board → Int) (board : Board)
    (alpha b0 : Int) (halpha : INT_MIN ≤ alpha) (hb0 : b0 ≤ INT_MAX)
    (hb : ∀ b a c, (call b a c).2 = b)
    (hv : ∀ b a c, INT_MIN ≤ a → c ≤ INT_MAX → a < c → Within (val b) (call b a c).1 a c)
    (i : Nat) :
    ∀ (js : List Nat) (seen : List Int) (best beta : Int), MinInv alpha b0 seen best beta →
      MinInv alpha b0 (seen ++ rowVals val board HUMAN i js)
        (minRow call alpha i js (board, best, beta)).2.1
        (minRow call alpha i js (board, best, beta)).2.2
  | [], seen, best, beta, h => by
    simpa [rowVals, minRow] using h
  | j :: js, seen, best, beta, h => by
    unfold minRow
    by_cases h1 : rd board i j = EMPTY
    · have hrow : rowVals val board HUMAN i (j :: js) =
          val (wr board i j HUMAN) :: rowVals val board HUMAN i js := by
        simp [rowVals, h1]
      have hstep := MinInv_step alpha b0 seen best beta (val (wr board i j HUMAN))
        (call (wr board i j HUMAN) alpha beta).1 _ _ h
        (fun hlt => hv _ _ _ halpha (by have := h.1.1; omega) hlt)
        (isMin_min _ _) (isMin_min _ _)
      have hrest : wr (call (wr board i j HUMAN) alpha beta).2 i j EMPTY = board := by
        rw [hb]
        exact wr_restore _ _ _ _ _ h1
      simp only [h1, if_true, hrest]
      rw [hrow]
      have happ : seen ++ val (wr board i j HUMAN) :: rowVals val board HUMAN i js =
          (seen ++ [val (wr board i j HUMAN)]) ++ rowVals val board HUMAN i js := by
        simp
      rw [happ]
      split_ifs with h2
      · exact MinInv_mono _ _ _ _ _ _ hstep h2
      · exact minRow_inv call val board alpha b0 halpha hb0 hb hv i js _ _ _ hstep
    · have hrow : rowVals val board HUMAN i (j :: js) = rowVals val board HUMAN i js := by
        simp [rowVals, h1]
      simp only [h1, if_false]
      rw [hrow]
      exact minRow_inv call val board alpha b0 halpha hb0 hb hv i js _ _ _ h

theorem maxRows_inv (call : Board → Int → Int → Int × Board) (val : Board → Int) (board : Board)
    (a0 beta : Int) (ha0 : INT_MIN ≤ a0) (hbeta : beta ≤ INT_MAX)
    (hb : ∀ b a c, (call b a c).2 = b)
    (hv : ∀ b a c, INT_MIN ≤ a → c ≤ INT_MAX → a < c → Within (val b) (call b a c).1 a c) :
    ∀ (rows : List Nat) (seen : List Int) (st : Board × Int × Int), st.1 = board →
      MaxInv a0 beta seen st.2.1 st.2.2 →
      MaxInv a0 beta
        (seen ++ rows.flatMap fun i => rowVals val board COMPUTER i (List.range SIZE))
        (rows.foldl (fun st i => maxRow call beta i (List.range SIZE) st) st).2.1
        (rows.foldl (fun st i => maxRow call beta i (List.range SIZE) st) st).2.2
  | [], seen, st, _, h => by
    simpa using h
  | i :: rows, seen, (b, best, alpha), hst, h => by
    simp only at hst
    subst hst
    rw [List.foldl_cons, List.flatMap_cons, ← List.append_assoc]
    have hrow := maxRow_inv call val b a0 beta ha0 hbeta hb hv i (List.range SIZE) seen best alpha h
    exact maxRows_inv call val b a0 beta ha0 hbeta hb hv rows _ _
      (maxRow_board call hb beta i _ _) hrow

theorem minRows_inv (call : Board → Int → Int → Int × Board) (val : Board → Int) (board : Board)
    (alpha b0 : Int) (halpha : INT_MIN ≤ alpha) (hb0 : b0 ≤ INT_MAX)
    (hb : ∀ b a c, (call b a c).2 = b)
    (hv : ∀ b a c, INT_MIN ≤ a → c ≤ INT_MAX → a < c → Within (val b) (call b a c).1 a c) :
    ∀ (rows : List Nat) (seen : List Int) (st : Board × Int × Int), st.1 = board →
      MinInv alpha b0 seen st.2.1 st.2.2 →
      MinInv alpha b0
        (seen ++ rows.flatMap fun i => rowVals val board HUMAN i (List.range SIZE))
        (rows.foldl (fun st i => minRow call alpha i (List.range SIZE) st) st).2.1
        (rows.foldl (fun st i => minRow call alpha i (List.range SIZE) st) st).2.2
  | [], seen, st, _, h => by
    simpa using h
  | i :: rows, seen, (b, best, beta), hst, h => by
    simp only at hst
    subst hst
    rw [List.foldl_cons, List.flatMap_cons, ← List.append_assoc]
    have hrow := minRow_inv call val b alpha b0 halpha hb0 hb hv i (List.range SIZE) seen best beta h
    exact minRows_inv call val b alpha b0 halpha hb0 hb hv rows _ _
      (minRow_board call hb alpha i _ _) hrow

theorem emptyCells_map (val : Board → Int) (board : Board) (p : Int) :
    ((emptyCells board).map fun c => val (wr board c.1 c.2 p)) =
      (List.range SIZE).flatMap fun i => rowVals val board p i (List.range SIZE) := by
  simp [emptyCells, rowVals, List.map_flatMap, Function.comp_def]

theorem emptyCells_ne_nil (board : Board) (h : isBoardFull board = false) :
    emptyCells board ≠ [] := by
  simp only [isBoardFull, Bool.not_eq_false', List.any_eq_true, List.mem_range, beq_iff_eq] at h
  obtain ⟨i, hi, j, hj, he⟩ := h
  have hm : (i, j) ∈ emptyCells board := by
    simp only [emptyCells, List.mem_flatMap, List.mem_range, List.mem_map, List.mem_filter,
      beq_iff_eq, Prod.mk.injEq]
    exact ⟨i, hi, j, ⟨hj, he⟩, rfl, rfl⟩
  exact List.ne_nil_of_mem hm

theorem foldl_max_ge (l : List Int) : ∀ (a : Int), a ≤ l.foldl max a ∧ ∀ v ∈ l, v ≤ l.foldl max a := by
  induction l with
  | nil => intro a; simp
  | cons x l ih =>
    intro a
    obtain ⟨h1, h2⟩ := ih (max a x)
    refine ⟨le_trans (le_max_left a x) h1, ?_⟩
    intro v hv
    rcases List.mem_cons.1 hv with rfl | hv
    · exact le_trans (le_max_right a v) h1
    · exact h2 v hv

theorem foldl_max_mem (l : List Int) : ∀ (a : Int), l.foldl max a = a ∨ l.foldl max a ∈ l := by
  induction l with
  | nil => intro a; simp
  | cons x l ih =>
    intro a
    rcases ih (max a x) with h | h
    · rcases max_choice a x with e | e
      · left; rw [List.foldl_cons, h, e]
      · right; rw [List.foldl_cons, h, e]; simp
    · right; rw [List.foldl_cons]; exact List.mem_cons_of_mem _ h

theorem foldl_min_le (l : List Int) : ∀ (a : Int), l.foldl min a ≤ a ∧ ∀ v ∈ l, l.foldl min a ≤ v := by
  induction l with
  | nil => intro a; simp
  | cons x l ih =>
    intro a
    obtain ⟨h1, h2⟩ := ih (min a x)
    refine ⟨le_trans h1 (min_le_left a x), ?_⟩
    intro v hv
    rcases List.mem_cons.1 hv with rfl | hv
    · exact le_trans h1 (min_le_right a v)
    · exact h2 v hv

theorem foldl_min_mem (l : List Int) : ∀ (a : Int), l.foldl min a = a ∨ l.foldl min a ∈ l := by
  induction l with
  | nil => intro a; simp
  | cons x l ih =>
    intro a
    rcases ih (min a x) with h | h
    · rcases min_choice a x with e | e
      · left; rw [List.foldl_cons, h, e]
      · right; rw [List.foldl_cons, h, e]; simp
    · right; rw [List.foldl_cons]; exact List.mem_cons_of_mem _ h

theorem listMax_mem (l : List Int) (h : l ≠ []) : listMax l ∈ l := by
  cases l with
  | nil => exact absurd rfl h
  | cons x l =>
    rcases foldl_max_mem l x with e | e
    · simp [listMax, e]
    · exact List.mem_cons_of_mem _ e

theorem le_listMax (l : List Int) (v : Int) (hv : v ∈ l) : v ≤ listMax l := by
  cases l with
  | nil => simp at hv
  | cons x l =>
    rcases List.mem_cons.1 hv with rfl | hv
    · exact (foldl_max_ge l v).1
    · exact (foldl_max_ge l x).2 v hv

theorem listMin_mem (l : List Int) (h : l ≠ []) : listMin l ∈ l := by
  cases l with
  | nil => exact absurd rfl h
  | cons x l =>
    rcases foldl_min_mem l x with e | e
    · simp [listMin, e]
    · exact List.mem_cons_of_mem _ e

theorem listMin_le (l : List Int) (v : Int) (hv : v ∈ l) : listMin l ≤ v := by
  cases l with
  | nil => simp at hv
  | cons x l =>
    rcases List.mem_cons.1 hv with rfl | hv
    · exact (foldl_min_le l v).1
    · exact (foldl_min_le l x).2 v hv

theorem MaxInv_within (a0 beta : Int) (hab : a0 < beta) (seen : List Int) (hne : seen ≠ [])
    (best alpha : Int) (h : MaxInv a0 beta seen best alpha) :
    Within (listMax seen) best a0 beta := by
  obtain ⟨⟨p1, p2, p3⟩, h2, h3⟩ := h
  have hm := listMax_mem seen hne
  refine ⟨?_, ?_, ?_⟩
  · intro hle
    have hlt : alpha < beta := by clear h2 h3; omega
    have := (h3 hlt).1 _ hm
    clear h2 h3
    omega
  · intro hge
    obtain ⟨w, hw1, hw2⟩ := h2 (by clear h2 h3; omega)
    exact le_trans hw2 (le_listMax seen w hw1)
  · intro hlo hhi
    have hlt : alpha < beta := by clear h2 h3; omega
    obtain ⟨g1, g2⟩ := h3 hlt
    have k1 := g1 _ hm
    have k2 := le_listMax seen best (g2 hlo)
    clear h2 h3
    omega

theorem MinInv_within (alpha b0 : Int) (hab : alpha < b0) (seen : List Int) (hne : seen ≠ [])
    (best beta : Int) (h : MinInv alpha b0 seen best beta) :
    Within (listMin seen) best alpha b0 := by
  obtain ⟨⟨p1, p2, p3⟩, h2, h3⟩ := h
  have hm := listMin_mem seen hne
  refine ⟨?_, ?_, ?_⟩
  · intro hle
    obtain ⟨w, hw1, hw2⟩ := h2 (by clear h2 h3; omega)
    exact le_trans (listMin_le seen w hw1) hw2
  · intro hge
    have hlt : alpha < beta := by clear h2 h3; omega
    have := (h3 hlt).1 _ hm
    clear h2 h3
    omega
  · intro hlo hhi
    have hlt : alpha < beta := by clear h2 h3; omega
    obtain ⟨g1, g2⟩ := h3 hlt
    have k1 := g1 _ hm
    have k2 := listMin_le seen best (g2 hhi)
    clear h2 h3
    omega

theorem evaluateBoard_cases (board : Board) :
    evaluateBoard board =
      if checkWin board COMPUTER then 1000 else if checkWin board HUMAN then -1000 else 0 := rfl

theorem minimaxBody_cutoff (callMin callMax : Board → Int → Int → Int × Board)
    (board : Board) (depth : Nat) (isMaximizing : Bool) (alpha beta : Int)
    (hd : depth ≥ MAX_DEPTH) :
    (minimaxBody callMin callMax board depth isMaximizing alpha beta).1 =
      fullMinimax 0 board isMaximizing := by
  unfold minimaxBody fullMinimax evaluateBoard
  by_cases h1 : checkWin board COMPUTER = true
  · simp [h1]
  · by_cases h2 : checkWin board HUMAN = true
    · simp [h1, h2]
    · by_cases h3 : isBoardFull board = true
      · simp [h1, h2, h3]
      · simp [h1, h2, h3, hd]

theorem minimaxBody_within (n : Nat) (callMin callMax : Board → Int → Int → Int × Board)
    (hbMin : ∀ b a c, (callMin b a c).2 = b) (hbMax : ∀ b a c, (callMax b a c).2 = b)
    (hvMin : ∀ b a c, INT_MIN ≤ a → c ≤ INT_MAX → a < c →
      Within (fullMinimax n b false) (callMin b a c).1 a c)
    (hvMax : ∀ b a c, INT_MIN ≤ a → c ≤ INT_MAX → a < c →
      Within (fullMinimax n b true) (callMax b a c).1 a c)
    (board : Board) (depth : Nat) (isMaximizing : Bool) (alpha beta : Int)
    (hd : depth < MAX_DEPTH) (ha : INT_MIN ≤ alpha) (hc : beta ≤ INT_MAX) (hac : alpha < beta) :
    Within (fullMinimax (n + 1) board isMaximizing)
      (minimaxBody callMin callMax board depth isMaximizing alpha beta).1 alpha beta := by
  have hd2 : ¬ depth ≥ MAX_DEPTH := by omega
  unfold minimaxBody fullMinimax evaluateBoard
  by_cases h1 : checkWin board COMPUTER = true
  · simp only [h1, if_true, true_or]
    exact Within_self _ _ _
  · by_cases h2 : checkWin board HUMAN = true
    · simp only [h1, h2, if_true, if_false, Bool.false_eq_true, or_true]
      exact Within_self _ _ _
    · by_cases h3 : isBoardFull board = true
      · simp only [h1, h2, h3, if_true, if_false, Bool.false_eq_true]
        norm_num
        exact Within_self _ _ _
      · simp only [h1, h2, h3, hd2, if_false, Bool.false_eq_true]
        norm_num
        have hne := emptyCells_ne_nil board (by simpa using h3)
        cases isMaximizing with
        | true =>
          simp only [if_true]
          rw [emptyCells_map (fun b => fullMinimax n b false) board COMPUTER]
          have hinit : MaxInv alpha beta [] INT_MIN alpha :=
            ⟨⟨le_refl _, ha, Or.inl rfl⟩, fun hcut => absurd hcut (by omega),
              fun _ => ⟨fun v hv => by simp at hv, fun hlt => absurd hlt (by omega)⟩⟩
          have hfin := maxRows_inv callMin (fun b => fullMinimax n b false) board alpha beta ha hc
            hbMin hvMin (List.range SIZE) [] (board, INT_MIN, alpha) rfl hinit
          rw [List.nil_append] at hfin
          refine MaxInv_within alpha beta hac _ ?_ _ _ hfin
          rw [← emptyCells_map (fun b => fullMinimax n b false) board COMPUTER]
          simpa using hne
        | false =>
          simp only [if_false, Bool.false_eq_true]
          rw [emptyCells_map (fun b => fullMinimax n b true) board HUMAN]
          have hinit : MinInv alpha beta [] INT_MAX beta :=
            ⟨⟨le_refl _, hc, Or.inl rfl⟩, fun hcut => absurd hcut (by omega),
              fun _ => ⟨fun v hv => by simp at hv, fun hlt => absurd hlt (by omega)⟩⟩
          have hfin := minRows_inv callMax (fun b => fullMinimax n b true) board alpha beta ha hc
            hbMax hvMax (List.range SIZE) [] (board, INT_MAX, beta) rfl hinit
          rw [List.nil_append] at hfin
          refine MinInv_within alpha beta hac _ ?_ _ _ hfin
          rw [← emptyCells_map (fun b => fullMinimax n b true) board HUMAN]
          simpa using hne

theorem minimaxAux_within : ∀ (n : Nat) (board : Board) (depth : Nat) (isMaximizing : Bool)
    (alpha beta : Int), depth + n = MAX_DEPTH → INT_MIN ≤ alpha → beta ≤ INT_MAX → alpha < beta →
    Within (fullMinimax n board isMaximizing)
      (minimaxAux (n + 1) board depth isMaximizing alpha beta).1 alpha beta
  | 0, board, depth, isMaximizing, alpha, beta, hd, _, _, _ => by
    rw [minimaxAux, minimaxBody_cutoff _ _ _ _ _ _ _ (by omega)]
    exact Within_self _ _ _
  | n + 1, board, depth, isMaximizing, alpha, beta, hd, ha, hc, hac => by
    rw [minimaxAux]
    exact minimaxBody_within n _ _
      (fun b a c => minimaxAux_board _ b _ _ a c) (fun b a c => minimaxAux_board _ b _ _ a c)
      (fun b a c h1 h2 h3 => minimaxAux_within n b (depth + 1) false a c (by omega) h1 h2 h3)
      (fun b a c h1 h2 h3 => minimaxAux_within n b (depth + 1) true a c (by omega) h1 h2 h3)
      board depth isMaximizing alpha beta (by omega) ha hc hac

theorem listMax_range (l : List Int) (h : ∀ v ∈ l, -1000 ≤ v ∧ v ≤ 1000) :
    -1000 ≤ listMax l ∧ listMax l ≤ 1000 := by
  cases l with
  | nil => simp [listMax]
  | cons x l => exact h _ (listMax_mem (x :: l) (by simp))

theorem listMin_range (l : List Int) (h : ∀ v ∈ l, -1000 ≤ v ∧ v ≤ 1000) :
    -1000 ≤ listMin l ∧ listMin l ≤ 1000 := by
  cases l with
  | nil => simp [listMin]
  | cons x l => exact h _ (listMin_mem (x :: l) (by simp))

theorem fullMinimax_range : ∀ (n : Nat) (board : Board) (isMaximizing : Bool),
    -1000 ≤ fullMinimax n board isMaximizing ∧ fullMinimax n board isMaximizing ≤ 1000
  | 0, board, isMaximizing => by
    unfold fullMinimax
    split_ifs <;> omega
  | n + 1, board, isMaximizing => by
    unfold fullMinimax
    split_ifs
    · omega
    · omega
    · omega
    · apply listMax_range
      intro v hv
      obtain ⟨c, _, rfl⟩ := List.mem_map.1 hv
      exact fullMinimax_range n _ _
    · apply listMin_range
      intro v hv
      obtain ⟨c, _, rfl⟩ := List.mem_map.1 hv
      exact fullMinimax_range n _ _

theorem minimax_eq_fullMinimax (board : Board) (d : Nat) (isMaximizing : Bool)
    (hd : d ≤ MAX_DEPTH) :
    (minimax board d isMaximizing INT_MIN INT_MAX).1 =
      fullMinimax (MAX_DEPTH - d) board isMaximizing := by
  have h := minimaxAux_within (MAX_DEPTH - d) board d isMaximizing INT_MIN INT_MAX (by omega)
    (le_refl _) (le_refl _) (by decide)
  have hr := fullMinimax_range (MAX_DEPTH - d) board isMaximizing
  obtain ⟨h1, h2, h3⟩ := h
  unfold minimax
  have k1 : INT_MIN < (minimaxAux (MAX_DEPTH - d + 1) board d isMaximizing INT_MIN INT_MAX).1 := by
    by_contra hcon
    have := h1 (not_lt.1 hcon)
    simp only [INT_MIN] at this
    omega
  have k2 : (minimaxAux (MAX_DEPTH - d + 1) board d isMaximizing INT_MIN INT_MAX).1 < INT_MAX := by
    by_contra hcon
    have := h2 (not_lt.1 hcon)
    simp only [INT_MAX] at this
    omega
  exact h3 k1 k2

/-! ### The move chosen by `findBestMove` -/

theorem moveVal_range (board : Board) (i j : Nat) :
    -1000 ≤ moveVal board i j ∧ moveVal board i j ≤ 1000 := by
  unfold moveVal
  rw [minimax_eq_fullMinimax _ 0 false (by decide)]
  exact fullMinimax_range _ _ _

theorem BestInv_step (board : Board) (seen : List (Nat × Nat)) (bestVal : Int)
    (bestMove : Int × Int) (i j : Nat) (h : BestInv board seen bestVal bestMove) :
    BestInv board (seen ++ [(i, j)])
      (if moveVal board i j > bestVal then moveVal board i j else bestVal)
      (if moveVal board i j > bestVal then ((i : Int), (j : Int)) else bestMove) := by
  have hr := moveVal_range board i j
  rcases h with ⟨h1, h2, h3⟩ | ⟨pre, c, post, h1, h2, h3, h4, h5⟩
  · subst h1 h2 h3
    have hgt : moveVal board i j > INT_MIN := by
      simp only [INT_MIN]
      omega
    simp only [hgt, if_true]
    exact Or.inr ⟨[], (i, j), [], rfl, rfl, rfl, by simp, by simp⟩
  · subst h1 h2 h3
    right
    by_cases hgt : moveVal board i j > moveVal board c.1 c.2
    · simp only [hgt, if_true]
      refine ⟨pre ++ c :: post, (i, j), [], by simp, rfl, rfl, ?_, by simp⟩
      intro x hx
      change moveVal board x.1 x.2 < moveVal board i j
      rcases List.mem_append.1 hx with hx | hx
      · have := h4 x hx
        omega
      · rcases List.mem_cons.1 hx with rfl | hx
        · exact hgt
        · have := h5 x hx
          omega
    · simp only [hgt, if_false]
      refine ⟨pre, c, post ++ [(i, j)], by simp, rfl, rfl, h4, ?_⟩
      intro x hx
      rcases List.mem_append.1 hx with hx | hx
      · exact h5 x hx
      · simp only [List.mem_singleton] at hx
        subst hx
        change moveVal board i j ≤ moveVal board c.1 c.2
        omega

theorem findBestMove_row_inv (board : Board) (i : Nat) :
    ∀ (js : List Nat) (seen : List (Nat × Nat)) (st : Board × Int × (Int × Int)), st.1 = board →
      BestInv board seen st.2.1 st.2.2 →
      BestInv board (seen ++ (js.filter fun j => rd board i j == EMPTY).map fun j => (i, j))
        (js.foldl (fun st j => findBestMoveStep i j st) st).2.1
        (js.foldl (fun st j => findBestMoveStep i j st) st).2.2
  | [], seen, st, _, h => by
    simpa using h
  | j :: js, seen, (b, bestVal, bestMove), hst, h => by
    simp only at hst
    subst hst
    rw [List.foldl_cons]
    have hb := findBestMoveStep_board i j (b, bestVal, bestMove)
    by_cases h1 : rd b i j = EMPTY
    · have hstep := BestInv_step b seen bestVal bestMove i j h
      have hfil : ((j :: js).filter fun j => rd b i j == EMPTY).map (fun j => (i, j)) =
          (i, j) :: (js.filter fun j => rd b i j == EMPTY).map (fun j => (i, j)) := by
        simp [h1]
      rw [hfil]
      have happ : ∀ rest : List (Nat × Nat), seen ++ (i, j) :: rest = (seen ++ [(i, j)]) ++ rest := by
        intro rest
        simp
      rw [happ]
      refine findBestMove_row_inv b i js _ _ hb ?_
      unfold findBestMoveStep
      simp only [h1, if_true]
      unfold moveVal at hstep
      split_ifs with h2
      · simpa [h2] using hstep
      · simpa [h2] using hstep
    · have hfil : ((j :: js).filter fun j => rd b i j == EMPTY).map (fun j => (i, j)) =
          (js.filter fun j => rd b i j == EMPTY).map (fun j => (i, j)) := by
        simp [h1]
      rw [hfil]
      refine findBestMove_row_inv b i js _ _ hb ?_
      unfold findBestMoveStep
      simp only [h1, if_false]
      exact h

theorem findBestMove_rows_inv (board : Board) :
    ∀ (rows : List Nat) (seen : List (Nat × Nat)) (st : Board × Int × (Int × Int)), st.1 = board →
      BestInv board seen st.2.1 st.2.2 →
      BestInv board
        (seen ++ rows.flatMap fun i =>
          ((List.range SIZE).filter fun j => rd board i j == EMPTY).map fun j => (i, j))
        (rows.foldl (fun st i => (List.range SIZE).foldl (fun st j => findBestMoveStep i j st) st)
          st).2.1
        (rows.foldl (fun st i => (List.range SIZE).foldl (fun st j => findBestMoveStep i j st) st)
          st).2.2
  | [], seen, st, _, h => by
    simpa using h
  | i :: rows, seen, st, hst, h => by
    rw [List.foldl_cons, List.flatMap_cons, ← List.append_assoc]
    refine findBestMove_rows_inv board rows _ _ ?_
      (findBestMove_row_inv board i (List.range SIZE) seen st hst h)
    rw [foldl_fst_eq _ (fun st j => findBestMoveStep_board i j st), hst]

theorem emptyCells_sorted (board : Board) : (emptyCells board).Pairwise cellLt := by
  unfold emptyCells
  rw [List.pairwise_flatMap]
  constructor
  · intro i _
    rw [List.pairwise_map]
    refine List.Pairwise.imp ?_ (List.Pairwise.filter _ (List.pairwise_lt_range SIZE))
    intro a b hab
    exact Or.inr ⟨rfl, hab⟩
  · refine List.Pairwise.imp ?_ (List.pairwise_lt_range SIZE)
    intro a b hab x hx y hy
    obtain ⟨_, _, rfl⟩ := List.mem_map.1 hx
    obtain ⟨_, _, rfl⟩ := List.mem_map.1 hy
    exact Or.inl hab

theorem mem_emptyCells (board : Board) (c : Nat × Nat) :
    c ∈ emptyCells board ↔ c.1 < SIZE ∧ c.2 < SIZE ∧ rd board c.1 c.2 = EMPTY := by
  obtain ⟨i, j⟩ := c
  simp only [emptyCells, List.mem_flatMap, List.mem_range, List.mem_map, List.mem_filter,
    beq_iff_eq, Prod.mk.injEq]
  constructor
  · rintro ⟨a, ha, b, ⟨hb, he⟩, rfl, rfl⟩
    exact ⟨ha, hb, he⟩
  · rintro ⟨ha, hb, he⟩
    exact ⟨i, ha, j, ⟨hb, he⟩, rfl, rfl⟩

theorem findBestMove_first_max (board : Board) (hfull : isBoardFull board = false) :
    ∃ i j : Nat, (findBestMove board).1 = ((i : Int), (j : Int)) ∧
      i < SIZE ∧ j < SIZE ∧ rd board i j = EMPTY ∧
      ∀ x y : Nat, x < SIZE → y < SIZE → rd board x y = EMPTY →
        moveVal board x y ≤ moveVal board i j ∧
        (moveVal board x y = moveVal board i j → (i, j) = (x, y) ∨ cellLt (i, j) (x, y)) := by
  have hinv := findBestMove_rows_inv board (List.range SIZE) []
    (board, INT_MIN, ((-1 : Int), (-1 : Int))) rfl (Or.inl ⟨rfl, rfl, rfl⟩)
  rw [List.nil_append] at hinv
  have hne := emptyCells_ne_nil board hfull
  have hsorted := emptyCells_sorted board
  have hcells : ((List.range SIZE).flatMap fun i =>
      ((List.range SIZE).filter fun j => rd board i j == EMPTY).map fun j => (i, j)) =
      emptyCells board := rfl
  rw [hcells] at hinv
  unfold findBestMove
  simp only []
  rcases hinv with ⟨h1, _, _⟩ | ⟨pre, ⟨ci, cj⟩, post, h1, h2, _, h4, h5⟩
  · exact absurd h1 hne
  · have hc : (ci, cj) ∈ emptyCells board := by
      rw [h1]
      simp
    obtain ⟨hc1, hc2, hc3⟩ := (mem_emptyCells board (ci, cj)).1 hc
    refine ⟨ci, cj, h2, hc1, hc2, hc3, ?_⟩
    intro x y hx hy hxy
    have hmem : (x, y) ∈ emptyCells board := (mem_emptyCells board (x, y)).2 ⟨hx, hy, hxy⟩
    rw [h1] at hmem hsorted
    rcases List.mem_append.1 hmem with hm | hm
    · have k := h4 _ hm
      simp only at k
      exact ⟨le_of_lt k, fun he => absurd he (ne_of_lt k)⟩
    · rcases List.mem_cons.1 hm with he | hm
      · obtain ⟨rfl, rfl⟩ := Prod.mk.inj he
        exact ⟨le_refl _, fun _ => Or.inl rfl⟩
      · have k := h5 _ hm
        simp only at k
        refine ⟨k, fun _ => Or.inr ?_⟩
        have hp := (List.pairwise_append.1 hsorted).2.1
        exact (List.pairwise_cons.1 hp).1 _ hm

theorem emptyCells_eq_nil (board : Board) (h : isBoardFull board = true) :
    emptyCells board = [] := by
  rw [List.eq_nil_iff_forall_not_mem]
  intro c hc
  obtain ⟨h1, h2, h3⟩ := (mem_emptyCells board c).1 hc
  have hfalse : isBoardFull board = false := by
    simp only [isBoardFull, Bool.not_eq_false', List.any_eq_true, List.mem_range, beq_iff_eq]
    exact ⟨c.1, h1, c.2, h2, h3⟩
  rw [h] at hfalse
  exact absurd hfalse (by decide)

theorem findBestMove_full (board : Board) (hfull : isBoardFull board = true) :
    (findBestMove board).1 = (-1, -1) := by
  have hinv := findBestMove_rows_inv board (List.range SIZE) []
    (board, INT_MIN, ((-1 : Int), (-1 : Int))) rfl (Or.inl ⟨rfl, rfl, rfl⟩)
  rw [List.nil_append] at hinv
  have hcells : ((List.range SIZE).flatMap fun i =>
      ((List.range SIZE).filter fun j => rd board i j == EMPTY).map fun j => (i, j)) =
      emptyCells board := rfl
  rw [hcells, emptyCells_eq_nil board hfull] at hinv
  unfold findBestMove
  simp only []
  rcases hinv with ⟨_, _, h3⟩ | ⟨pre, c, post, h1, _⟩
  · exact h3
  · simp at h1

/-! ### The claims about `protype.cpp` -/

/-- C1: `checkWin(p)` is true exactly when some cell and one of the directions
right, down, down-right, up-right start five cells inside the board that all
hold `p`; in particular it is true whenever `(7,3)..(7,7)` all hold `p`, and it
is false for HUMAN on a run of four bridged by a COMPUTER stone. -/
theorem C1_checkWin_five_in_row :
    (∀ (board : Board) (p : Int), checkWin board p = true ↔ FiveInRow board p) ∧
    (∀ (board : Board) (p : Int), (∀ k : Nat, k < 5 → rd board 7 (3 + k) = p) →
      checkWin board p = true) ∧
    checkWin bridgedBoard HUMAN = false := by
  refine ⟨checkWin_iff, ?_, by decide⟩
  intro board p h
  rw [checkWin_iff]
  refine ⟨7, 3, (0, 1), by simp [directions], ?_⟩
  intro k hk
  exact cellIs_of board p _ _ 7 (3 + k) (by simp) (by simp) (by omega) (by omega) (h k hk)

/-- Witness of C1 on the board whose only stones are HUMAN on `(7,3)..(7,7)`. -/
theorem C1_checkWin_five_in_row_witness :
    (∀ k : Nat, k < 5 → rd (rowBoard HUMAN) 7 (3 + k) = HUMAN) ∧
    checkWin (rowBoard HUMAN) HUMAN = true :=
  ⟨by decide, C1_checkWin_five_in_row.2.1 (rowBoard HUMAN) HUMAN (by decide)⟩

/-- C3: for every board, every depth `d ≤ MAX_DEPTH` and either side to move,
`minimax(d, isMaximizing, INT_MIN, INT_MAX)` returns the value of full unpruned
minimax with the same cutoff and scoring. -/
theorem C3_pruning_keeps_value (board : Board) (d : Nat) (isMaximizing : Bool)
    (hd : d ≤ MAX_DEPTH) :
    (minimax board d isMaximizing INT_MIN INT_MAX).1 =
      fullMinimax (MAX_DEPTH - d) board isMaximizing :=
  minimax_eq_fullMinimax board d isMaximizing hd

/-- Witness of C3 at the root of a position with four empty cells. -/
theorem C3_pruning_keeps_value_witness :
    0 ≤ MAX_DEPTH ∧
    (minimax (patternBoard [(0, 0), (0, 1), (3, 4), (9, 9)]) 0 true INT_MIN INT_MAX).1 =
      fullMinimax (MAX_DEPTH - 0) (patternBoard [(0, 0), (0, 1), (3, 4), (9, 9)]) true :=
  ⟨by decide, C3_pruning_keeps_value _ 0 true (by decide)⟩

/-- C4: on a board with an empty cell `findBestMove` returns an empty cell whose
value is maximal among the empty cells, and every other empty cell with that
value comes after it in row-major order. -/
theorem C4_findBestMove_first_maximum (board : Board) (hfull : isBoardFull board = false) :
    ∃ i j : Nat, (findBestMove board).1 = ((i : Int), (j : Int)) ∧
      i < SIZE ∧ j < SIZE ∧ rd board i j = EMPTY ∧
      ∀ x y : Nat, x < SIZE → y < SIZE → rd board x y = EMPTY →
        moveVal board x y ≤ moveVal board i j ∧
        (moveVal board x y = moveVal board i j → (i, j) = (x, y) ∨ cellLt (i, j) (x, y)) :=
  findBestMove_first_max board hfull

/-- Witness of C4 on a position with three empty cells. -/
theorem C4_findBestMove_first_maximum_witness :
    isBoardFull (patternBoard [(0, 1), (3, 4), (9, 9)]) = false ∧
    ∃ i j : Nat, (findBestMove (patternBoard [(0, 1), (3, 4), (9, 9)])).1 = ((i : Int), (j : Int)) ∧
      i < SIZE ∧ j < SIZE ∧ rd (patternBoard [(0, 1), (3, 4), (9, 9)]) i j = EMPTY ∧
      ∀ x y : Nat, x < SIZE → y < SIZE → rd (patternBoard [(0, 1), (3, 4), (9, 9)]) x y = EMPTY →
        moveVal (patternBoard [(0, 1), (3, 4), (9, 9)]) x y ≤
          moveVal (patternBoard [(0, 1), (3, 4), (9, 9)]) i j ∧
        (moveVal (patternBoard [(0, 1), (3, 4), (9, 9)]) x y =
          moveVal (patternBoard [(0, 1), (3, 4), (9, 9)]) i j →
            (i, j) = (x, y) ∨ cellLt (i, j) (x, y)) :=
  ⟨by decide, C4_findBestMove_first_maximum _ (by decide)⟩

/-- C5: `minimax` leaves the board exactly as it found it, for every depth, side
and window, and so does `findBestMove`. -/
theorem C5_search_restores_board (board : Board) (depth : Nat) (isMaximizing : Bool)
    (alpha beta : Int) :
    (minimax board depth isMaximizing alpha beta).2 = board ∧ (findBestMove board).2 = board :=
  ⟨minimax_board board depth isMaximizing alpha beta, findBestMove_board board⟩

/-- C6: on a board without an empty cell `findBestMove` returns the pair
`(-1, -1)` it started with, which is not the coordinates of any cell. -/
theorem C6_findBestMove_no_legal_move (board : Board) (hfull : isBoardFull board = true) :
    (findBestMove board).1 = (-1, -1) ∧
      ∀ i j : Nat, (findBestMove board).1 ≠ ((i : Int), (j : Int)) := by
  have h := findBestMove_full board hfull
  refine ⟨h, ?_⟩
  intro i j hij
  rw [h] at hij
  have := congrArg Prod.fst hij
  simp only at this
  omega

/-- Witness of C6 on a full board without five in a row. -/
theorem C6_findBestMove_no_legal_move_witness :
    isBoardFull (patternBoard []) = true ∧
    ((findBestMove (patternBoard [])).1 = (-1, -1) ∧
      ∀ i j : Nat, (findBestMove (patternBoard [])).1 ≠ ((i : Int), (j : Int))) :=
  ⟨by decide, C6_findBestMove_no_legal_move _ (by decide)⟩

/-! ### Full boards and the scores of `minimax` -/

theorem isBoardFull_iff (board : Board) :
    isBoardFull board = true ↔ ∀ x y : Fin SIZE, board x y ≠ EMPTY := by
  simp only [isBoardFull, Bool.not_eq_true', List.any_eq_false, List.mem_range, beq_iff_eq,
    List.any_eq_true, not_exists, not_and]
  constructor
  · intro h x y
    have := h x.val x.isLt y.val y.isLt
    rw [rd_of_lt board x.isLt y.isLt] at this
    exact this
  · intro h i hi j hj
    rw [rd_of_lt board hi hj]
    exact h _ _

theorem isScore_evaluateBoard (board : Board) : IsScore (evaluateBoard board) := by
  unfold evaluateBoard IsScore
  split_ifs <;> simp

theorem isScore_max (a b : Int) (ha : IsScore a) (hb : IsScore b) : IsScore (max a b) := by
  rcases max_choice a b with h | h <;> rw [h] <;> assumption

theorem isScore_min (a b : Int) (ha : IsScore a) (hb : IsScore b) : IsScore (min a b) := by
  rcases min_choice a b with h | h <;> rw [h] <;> assumption

theorem max_INT_MIN (r : Int) (hr : IsScore r) : max INT_MIN r = r := by
  apply max_eq_right
  rcases hr with h | h | h <;> rw [h] <;> decide

theorem min_INT_MAX (r : Int) (hr : IsScore r) : min INT_MAX r = r := by
  apply min_eq_right
  rcases hr with h | h | h <;> rw [h] <;> decide

theorem maxRow_score (call : Board → Int → Int → Int × Board)
    (hb : ∀ b a c, (call b a c).2 = b) (hs : ∀ b a c, IsScore (call b a c).1)
    (board : Board) (beta : Int) (i : Nat) :
    ∀ (js : List Nat) (best alpha : Int), best = INT_MIN ∨ IsScore best →
      (best = INT_MIN ∧ (∀ j ∈ js, rd board i j ≠ EMPTY) ∧
        (maxRow call beta i js (board, best, alpha)).2.1 = INT_MIN) ∨
      IsScore (maxRow call beta i js (board, best, alpha)).2.1
  | [], best, alpha, h => by
    rcases h with h | h
    · exact Or.inl ⟨h, by simp, h⟩
    · exact Or.inr h
  | j :: js, best, alpha, h => by
    unfold maxRow
    by_cases h1 : rd board i j = EMPTY
    · right
      have hrest : wr (call (wr board i j COMPUTER) alpha beta).2 i j EMPTY = board := by
        rw [hb]
        exact wr_restore _ _ _ _ _ h1
      have hbest : IsScore (max best (call (wr board i j COMPUTER) alpha beta).1) := by
        rcases h with h | h
        · rw [h, max_INT_MIN _ (hs _ _ _)]
          exact hs _ _ _
        · exact isScore_max _ _ h (hs _ _ _)
      simp only [h1, if_true, hrest]
      split_ifs
      · exact hbest
      · rcases maxRow_score call hb hs board beta i js _ _ (Or.inr hbest) with ⟨h2, _⟩ | h2
        · rw [h2] at hbest
          rcases hbest with h3 | h3 | h3 <;> simp [INT_MIN] at h3
        · exact h2
    · simp only [h1, if_false]
      rcases maxRow_score call hb hs board beta i js best alpha h with ⟨h2, h3, h4⟩ | h2
      · refine Or.inl ⟨h2, ?_, h4⟩
        intro x hx
        rcases List.mem_cons.1 hx with rfl | hx
        · exact h1
        · exact h3 x hx
      · exact Or.inr h2

theorem minRow_score (call : Board → Int → Int → Int × Board)
    (hb : ∀ b a c, (call b a c).2 = b) (hs : ∀ b a c, IsScore (call b a c).1)
    (board : Board) (alpha : Int) (i : Nat) :
    ∀ (js : List Nat) (best beta : Int), best = INT_MAX ∨ IsScore best →
      (best = INT_MAX ∧ (∀ j ∈ js, rd board i j ≠ EMPTY) ∧
        (minRow call alpha i js (board, best, beta)).2.1 = INT_MAX) ∨
      IsScore (minRow call alpha i js (board, best, beta)).2.1
  | [], best, beta, h => by
    rcases h with h | h
    · exact Or.inl ⟨h, by simp, h⟩
    · exact Or.inr h
  | j :: js, best, beta, h => by
    unfold minRow
    by_cases h1 : rd board i j = EMPTY
    · right
      have hrest : wr (call (wr board i j HUMAN) alpha beta).2 i j EMPTY = board := by
        rw [hb]
        exact wr_restore _ _ _ _ _ h1
      have hbest : IsScore (min best (call (wr board i j HUMAN) alpha beta).1) := by
        rcases h with h | h
        · rw [h, min_INT_MAX _ (hs _ _ _)]
          exact hs _ _ _
        · exact isScore_min _ _ h (hs _ _ _)
      simp only [h1, if_true, hrest]
      split_ifs
      · exact hbest
      · rcases minRow_score call hb hs board alpha i js _ _ (Or.inr hbest) with ⟨h2, _⟩ | h2
        · rw [h2] at hbest
          rcases hbest with h3 | h3 | h3 <;> simp [INT_MAX] at h3
        · exact h2
    · simp only [h1, if_false]
      rcases minRow_score call hb hs board alpha i js best beta h with ⟨h2, h3, h4⟩ | h2
      · refine Or.inl ⟨h2, ?_, h4⟩
        intro x hx
        rcases List.mem_cons.1 hx with rfl | hx
        · exact h1
        · exact h3 x hx
      · exact Or.inr h2

theorem maxRows_score (call : Board → Int → Int → Int × Board)
    (hb : ∀ b a c, (call b a c).2 = b) (hs : ∀ b a c, IsScore (call b a c).1)
    (board : Board) (beta : Int) :
    ∀ (rows : List Nat) (st : Board × Int × Int), st.1 = board →
      st.2.1 = INT_MIN ∨ IsScore st.2.1 →
      (st.2.1 = INT_MIN ∧ (∀ i ∈ rows, ∀ j ∈ List.range SIZE, rd board i j ≠ EMPTY) ∧
        (rows.foldl (fun st i => maxRow call beta i (List.range SIZE) st) st).2.1 = INT_MIN) ∨
      IsScore (rows.foldl (fun st i => maxRow call beta i (List.range SIZE) st) st).2.1
  | [], st, _, h => by
    rcases h with h | h
    · exact Or.inl ⟨h, by simp, h⟩
    · exact Or.inr h
  | i :: rows, (b, best, alpha), hst, h => by
    simp only at hst h
    subst hst
    rw [List.foldl_cons]
    have hboard := maxRow_board call hb beta i (List.range SIZE) (b, best, alpha)
    rcases maxRow_score call hb hs b beta i (List.range SIZE) best alpha h with
      ⟨h2, h3, h4⟩ | h2
    · rcases maxRows_score call hb hs b beta rows _ hboard (Or.inl h4) with ⟨_, h6, h7⟩ | h5
      · refine Or.inl ⟨h2, ?_, h7⟩
        intro x hx
        rcases List.mem_cons.1 hx with rfl | hx
        · exact h3
        · exact h6 x hx
      · exact Or.inr h5
    · rcases maxRows_score call hb hs b beta rows _ hboard (Or.inr h2) with ⟨h5, _, _⟩ | h5
      · rw [h5] at h2
        rcases h2 with h3 | h3 | h3 <;> simp [INT_MIN] at h3
      · exact Or.inr h5

theorem minRows_score (call : Board → Int → Int → Int × Board)
    (hb : ∀ b a c, (call b a c).2 = b) (hs : ∀ b a c, IsScore (call b a c).1)
    (board : Board) (alpha : Int) :
    ∀ (rows : List Nat) (st : Board × Int × Int), st.1 = board →
      st.2.1 = INT_MAX ∨ IsScore st.2.1 →
      (st.2.1 = INT_MAX ∧ (∀ i ∈ rows, ∀ j ∈ List.range SIZE, rd board i j ≠ EMPTY) ∧
        (rows.foldl (fun st i => minRow call alpha i (List.range SIZE) st) st).2.1 = INT_MAX) ∨
      IsScore (rows.foldl (fun st i => minRow call alpha i (List.range SIZE) st) st).2.1
  | [], st, _, h => by
    rcases h with h | h
    · exact Or.inl ⟨h, by simp, h⟩
    · exact Or.inr h
  | i :: rows, (b, best, beta), hst, h => by
    simp only at hst h
    subst hst
    rw [List.foldl_cons]
    have hboard := minRow_board call hb alpha i (List.range SIZE) (b, best, beta)
    rcases minRow_score call hb hs b alpha i (List.range SIZE) best beta h with
      ⟨h2, h3, h4⟩ | h2
    · rcases minRows_score call hb hs b alpha rows _ hboard (Or.inl h4) with ⟨_, h6, h7⟩ | h5
      · refine Or.inl ⟨h2, ?_, h7⟩
        intro x hx
        rcases List.mem_cons.1 hx with rfl | hx
        · exact h3
        · exact h6 x hx
      · exact Or.inr h5
    · rcases minRows_score call hb hs b alpha rows _ hboard (Or.inr h2) with ⟨h5, _, _⟩ | h5
      · rw [h5] at h2
        rcases h2 with h3 | h3 | h3 <;> simp [INT_MAX] at h3
      · exact Or.inr h5

theorem minimaxBody_score (callMin callMax : Board → Int → Int → Int × Board)
    (hbMin : ∀ b a c, (callMin b a c).2 = b) (hbMax : ∀ b a c, (callMax b a c).2 = b)
    (hsMin : ∀ b a c, IsScore (callMin b a c).1) (hsMax : ∀ b a c, IsScore (callMax b a c).1)
    (board : Board) (depth : Nat) (isMaximizing : Bool) (alpha beta : Int) :
    IsScore (minimaxBody callMin callMax board depth isMaximizing alpha beta).1 := by
  have hev := isScore_evaluateBoard board
  unfold minimaxBody
  simp only
  split_ifs with h1 h2 h3 h4
  · exact hev
  · exact Or.inr (Or.inl rfl)
  · exact hev
  · have hfull : isBoardFull board = false := by simpa using h2
    simp only [isBoardFull, Bool.not_eq_false', List.any_eq_true, List.mem_range, beq_iff_eq]
      at hfull
    obtain ⟨i, hi, j, hj, he⟩ := hfull
    rcases maxRows_score callMin hbMin hsMin board beta (List.range SIZE) (board, INT_MIN, alpha)
      rfl (Or.inl rfl) with ⟨_, h5, _⟩ | h5
    · exact absurd he (h5 i (List.mem_range.2 hi) j (List.mem_range.2 hj))
    · exact h5
  · have hfull : isBoardFull board = false := by simpa using h2
    simp only [isBoardFull, Bool.not_eq_false', List.any_eq_true, List.mem_range, beq_iff_eq]
      at hfull
    obtain ⟨i, hi, j, hj, he⟩ := hfull
    rcases minRows_score callMax hbMax hsMax board alpha (List.range SIZE) (board, INT_MAX, beta)
      rfl (Or.inl rfl) with ⟨_, h5, _⟩ | h5
    · exact absurd he (h5 i (List.mem_range.2 hi) j (List.mem_range.2 hj))
    · exact h5

theorem minimaxAux_score : ∀ (fuel : Nat) (board : Board) (depth : Nat) (isMaximizing : Bool)
    (alpha beta : Int), IsScore (minimaxAux fuel board depth isMaximizing alpha beta).1
  | 0, board, _, _, _, _ => isScore_evaluateBoard board
  | fuel + 1, board, depth, isMaximizing, alpha, beta => by
    rw [minimaxAux]
    exact minimaxBody_score _ _ (fun b a c => minimaxAux_board fuel b _ _ a c)
      (fun b a c => minimaxAux_board fuel b _ _ a c)
      (fun b a c => minimaxAux_score fuel b _ _ a c)
      (fun b a c => minimaxAux_score fuel b _ _ a c) board depth isMaximizing alpha beta

theorem minimax_score (board : Board) (depth : Nat) (isMaximizing : Bool) (alpha beta : Int) :
    IsScore (minimax board depth isMaximizing alpha beta).1 :=
  minimaxAux_score _ board depth isMaximizing alpha beta

/-! ### The cells tried by a maximizing node -/

theorem maxRowTried_fst (call : Board → Int → Int → Int × Board) (beta : Int) (i : Nat) :
    ∀ (js : List Nat) (st : (Board × Int × Int) × List (Nat × Nat)),
      (maxRowTried call beta i js st).1 = maxRow call beta i js st.1
  | [], _ => rfl
  | j :: js, ((board, best, alpha), tried) => by
    unfold maxRowTried maxRow
    by_cases h1 : rd board i j = EMPTY
    · simp only [h1, if_true]
      split_ifs
      · rfl
      · exact maxRowTried_fst call beta i js _
    · simp only [h1, if_false]
      exact maxRowTried_fst call beta i js _

theorem maxRowsTried_fst (call : Board → Int → Int → Int × Board) (beta : Int) :
    ∀ (rows : List Nat) (st : (Board × Int × Int) × List (Nat × Nat)),
      (rows.foldl (fun st i => maxRowTried call beta i (List.range SIZE) st) st).1 =
        rows.foldl (fun st i => maxRow call beta i (List.range SIZE) st) st.1
  | [], _ => rfl
  | i :: rows, st => by
    rw [List.foldl_cons, List.foldl_cons, maxRowsTried_fst call beta rows, maxRowTried_fst]

/-- The record `triedByMax` belongs to the loop that `minimax` runs: the score
`minimax` returns at a maximizing node is the `best` of the recorded loop. -/
theorem minimax_eq_tried (board : Board) (depth : Nat) (alpha beta : Int)
    (hc : checkWin board COMPUTER = false) (hh : checkWin board HUMAN = false)
    (hf : isBoardFull board = false) (hd : depth < MAX_DEPTH) :
    (minimax board depth true alpha beta).1 =
      ((List.range SIZE).foldl
        (fun st i => maxRowTried (fun b a c => minimax b (depth + 1) false a c) beta i
          (List.range SIZE) st)
        ((board, INT_MIN, alpha), [])).1.2.1 := by
  have hd2 : ¬ depth ≥ MAX_DEPTH := by omega
  rw [minimax_eq, maxRowsTried_fst]
  unfold minimaxBody evaluateBoard
  simp [hc, hh, hf, hd2]

/-! ### The cells read by `checkWin` -/

theorem evalTests_inBoard (board : Board) (player : Int) :
    ∀ ts : List Test, Guarded ts → ∀ rc ∈ (evalTests board player ts).2, InBoard rc
  | [], _, rc, h => by simp [evalTests] at h
  | Test.guard holds :: ts, hg, rc, h => by
    unfold evalTests at h
    by_cases hh : holds = true
    · rw [if_pos hh] at h
      exact evalTests_inBoard board player ts (hg hh) rc h
    · rw [if_neg hh] at h
      simp at h
  | Test.read i j :: ts, hg, rc, h => by
    unfold evalTests at h
    obtain ⟨h1, h2⟩ := hg
    split_ifs at h
    · rcases List.mem_cons.1 h with rfl | h
      · exact h1
      · exact evalTests_inBoard board player ts h2 rc h
    · simp only [List.mem_singleton] at h
      rw [h]
      exact h1

theorem anyTests_inBoard (board : Board) (player : Int) :
    ∀ tss : List (List Test), (∀ ts ∈ tss, Guarded ts) →
      ∀ rc ∈ (anyTests board player tss).2, InBoard rc
  | [], _, rc, h => by simp [anyTests] at h
  | ts :: rest, hg, rc, h => by
    unfold anyTests at h
    have h1 := evalTests_inBoard board player ts (hg ts (List.mem_cons_self _ _))
    split_ifs at h
    · exact h1 rc h
    · rcases List.mem_append.1 h with h | h
      · exact h1 rc h
      · exact anyTests_inBoard board player rest
          (fun t ht => hg t (List.mem_cons_of_mem _ ht)) rc h

theorem cellTests_guarded (i j : Nat) (hi : i < SIZE) (hj : j < SIZE) :
    ∀ ts ∈ cellTests i j, Guarded ts := by
  have hi2 : i < 15 := hi
  have hj2 : j < 15 := hj
  intro ts hts
  simp only [cellTests, List.mem_cons, List.mem_singleton, List.not_mem_nil, or_false] at hts
  rcases hts with rfl | rfl | rfl | rfl
  · simp only [Guarded, InBoard, decide_eq_true_eq, SIZE, and_true]
    intro h
    push_cast
    omega
  · simp only [Guarded, InBoard, decide_eq_true_eq, SIZE, and_true]
    intro h
    push_cast
    omega
  · simp only [Guarded, InBoard, decide_eq_true_eq, SIZE, and_true]
    intro h1 h2
    push_cast
    omega
  · simp only [Guarded, InBoard, decide_eq_true_eq, SIZE, and_true]
    intro h1 h2
    push_cast
    omega

theorem cellReads_inBoard (board : Board) (player : Int) (i j : Nat) (hi : i < SIZE)
    (hj : j < SIZE) : ∀ rc ∈ (cellReads board player i j).2, InBoard rc := by
  have hi2 : i < 15 := hi
  have hj2 : j < 15 := hj
  have hself : InBoard ((i : Int), (j : Int)) := by
    simp only [InBoard, SIZE]
    push_cast
    omega
  intro rc h
  unfold cellReads at h
  split_ifs at h
  · rcases List.mem_cons.1 h with rfl | h
    · exact hself
    · exact anyTests_inBoard board player _ (cellTests_guarded i j hi hj) rc h
  · simp only [List.mem_singleton] at h
    rw [h]
    exact hself

theorem scanReads_inBoard (board : Board) (player : Int) :
    ∀ cells : List (Nat × Nat), (∀ c ∈ cells, c.1 < SIZE ∧ c.2 < SIZE) →
      ∀ rc ∈ (scanReads board player cells).2, InBoard rc
  | [], _, rc, h => by simp [scanReads] at h
  | c :: cs, hc, rc, h => by
    unfold scanReads at h
    have h1 := cellReads_inBoard board player c.1 c.2 (hc c (List.mem_cons_self _ _)).1
      (hc c (List.mem_cons_self _ _)).2
    split_ifs at h
    · exact h1 rc h
    · rcases List.mem_append.1 h with h | h
      · exact h1 rc h
      · exact scanReads_inBoard board player cs
          (fun d hd => hc d (List.mem_cons_of_mem _ hd)) rc h

theorem mem_allCells (c : Nat × Nat) (h : c ∈ allCells) : c.1 < SIZE ∧ c.2 < SIZE := by
  simp only [allCells, List.mem_flatMap, List.mem_range, List.mem_map] at h
  obtain ⟨i, hi, j, hj, rfl⟩ := h
  exact ⟨hi, hj⟩

theorem checkWinReads_inBoard (board : Board) (player : Int) :
    ∀ rc ∈ (checkWinReads board player).2, InBoard rc :=
  scanReads_inBoard board player allCells (fun c hc => mem_allCells c hc)

theorem evalTests_value (board : Board) (player : Int) :
    ∀ ts : List Test, (evalTests board player ts).1 = ts.all (Test.value board player)
  | [] => rfl
  | Test.guard holds :: ts => by
    unfold evalTests
    rw [List.all_cons]
    by_cases hh : holds = true
    · rw [if_pos hh, evalTests_value board player ts]
      simp [Test.value, hh]
    · rw [if_neg hh]
      simp [Test.value, hh]
  | Test.read i j :: ts => by
    unfold evalTests
    rw [List.all_cons]
    by_cases hh : rd board i.toNat j.toNat = player
    · rw [if_pos hh, evalTests_value board player ts]
      simp [Test.value, hh]
    · rw [if_neg hh]
      simp [Test.value, hh]

theorem anyTests_value (board : Board) (player : Int) :
    ∀ tss : List (List Test),
      (anyTests board player tss).1 = tss.any fun ts => (evalTests board player ts).1
  | [] => rfl
  | ts :: rest => by
    unfold anyTests
    rw [List.any_cons]
    by_cases hh : (evalTests board player ts).1 = true
    · rw [if_pos hh, hh]
      rfl
    · rw [if_neg hh, anyTests_value board player rest]
      simp [hh]

theorem scanReads_value (board : Board) (player : Int) :
    ∀ cells : List (Nat × Nat),
      (scanReads board player cells).1 = cells.any fun c => (cellReads board player c.1 c.2).1
  | [] => rfl
  | c :: cs => by
    unfold scanReads
    rw [List.any_cons]
    by_cases hh : (cellReads board player c.1 c.2).1 = true
    · rw [if_pos hh, hh]
      rfl
    · rw [if_neg hh, scanReads_value board player cs]
      simp [hh]

theorem cellReads_value (board : Board) (player : Int) (i j : Nat) :
    (cellReads board player i j).1 =
      (rd board i j == player &&
        ((decide (j ≤ SIZE - 5) && rd board i (j + 1) == player && rd board i (j + 2) == player &&
            rd board i (j + 3) == player && rd board i (j + 4) == player) ||
         (decide (i ≤ SIZE - 5) && rd board (i + 1) j == player && rd board (i + 2) j == player &&
            rd board (i + 3) j == player && rd board (i + 4) j == player) ||
         (decide (i ≤ SIZE - 5) && decide (j ≤ SIZE - 5) && rd board (i + 1) (j + 1) == player &&
            rd board (i + 2) (j + 2) == player && rd board (i + 3) (j + 3) == player &&
            rd board (i + 4) (j + 4) == player) ||
         (decide (i ≥ 4) && decide (j ≤ SIZE - 5) && rd board (i - 1) (j + 1) == player &&
            rd board (i - 2) (j + 2) == player && rd board (i - 3) (j + 3) == player &&
            rd board (i - 4) (j + 4) == player))) := by
  have a0 : ((i : Int)).toNat = i := by omega
  have a1 : ((i : Int) + 1).toNat = i + 1 := by omega
  have a2 : ((i : Int) + 2).toNat = i + 2 := by omega
  have a3 : ((i : Int) + 3).toNat = i + 3 := by omega
  have a4 : ((i : Int) + 4).toNat = i + 4 := by omega
  have b0 : ((j : Int)).toNat = j := by omega
  have b1 : ((j : Int) + 1).toNat = j + 1 := by omega
  have b2 : ((j : Int) + 2).toNat = j + 2 := by omega
  have b3 : ((j : Int) + 3).toNat = j + 3 := by omega
  have b4 : ((j : Int) + 4).toNat = j + 4 := by omega
  have c1 : ((i : Int) - 1).toNat = i - 1 := by omega
  have c2 : ((i : Int) - 2).toNat = i - 2 := by omega
  have c3 : ((i : Int) - 3).toNat = i - 3 := by omega
  have c4 : ((i : Int) - 4).toNat = i - 4 := by omega
  have hany : (anyTests board player (cellTests i j)).1 =
      ((decide (j ≤ SIZE - 5) && rd board i (j + 1) == player && rd board i (j + 2) == player &&
            rd board i (j + 3) == player && rd board i (j + 4) == player) ||
         (decide (i ≤ SIZE - 5) && rd board (i + 1) j == player && rd board (i + 2) j == player &&
            rd board (i + 3) j == player && rd board (i + 4) j == player) ||
         (decide (i ≤ SIZE - 5) && decide (j ≤ SIZE - 5) && rd board (i + 1) (j + 1) == player &&
            rd board (i + 2) (j + 2) == player && rd board (i + 3) (j + 3) == player &&
            rd board (i + 4) (j + 4) == player) ||
         (decide (i ≥ 4) && decide (j ≤ SIZE - 5) && rd board (i - 1) (j + 1) == player &&
            rd board (i - 2) (j + 2) == player && rd board (i - 3) (j + 3) == player &&
            rd board (i - 4) (j + 4) == player)) := by
    rw [anyTests_value]
    simp only [cellTests, List.any_cons, List.any_nil, evalTests_value, List.all_cons,
      List.all_nil, Test.value, a0, a1, a2, a3, a4, b0, b1, b2, b3, b4, c1, c2, c3, c4,
      Bool.and_true, Bool.or_false, Bool.and_assoc, Bool.or_assoc]
  unfold cellReads
  by_cases h : rd board i j = player
  · rw [if_pos h, hany]
    simp [h]
  · rw [if_neg h]
    simp [h]

theorem any_map_pair {α β : Type} (f : α → β) (p : β → Bool) :
    ∀ l : List α, (l.map f).any p = l.any fun x => p (f x)
  | [] => rfl
  | x :: l => by
    rw [List.map_cons, List.any_cons, List.any_cons, any_map_pair f p l]

theorem checkWinReads_value (board : Board) (player : Int) :
    (checkWinReads board player).1 = checkWin board player := by
  unfold checkWinReads checkWin allCells
  rw [scanReads_value]
  simp only [List.any_flatMap, any_map_pair, cellReads_value]

/-! ### One pass of the game loop -/

/-- When the human's stone fills the last empty cell without making five, the
pass calls `findBestMove` on the full board, gets `(-1, -1)` and writes outside
the board. -/
theorem turn_on_last_cell (board : Board) (x y : Nat) (hx : x < SIZE) (hy : y < SIZE)
    (he : rd board x y = EMPTY) (hw : checkWin (wr board x y HUMAN) HUMAN = false)
    (hf : isBoardFull (wr board x y HUMAN) = true) :
    (turn board x y).1 = Outcome.writeOutsideBoard := by
  have hx2 : x < 15 := hx
  have hy2 : y < 15 := hy
  have hcond : ¬((x : Int) < 0 ∨ (x : Int) ≥ SIZE ∨ (y : Int) < 0 ∨ (y : Int) ≥ SIZE ∨
      rd board (x : Int).toNat (y : Int).toNat ≠ EMPTY) := by
    simp only [Int.toNat_ofNat, he, ne_eq, not_true_eq_false, or_false, SIZE]
    push_cast
    omega
  have hbest := findBestMove_full _ hf
  unfold turn
  rw [if_neg hcond]
  simp only [Int.toNat_ofNat, hw, Bool.false_eq_true, if_false, hbest]
  rw [if_neg (by omega)]

/-! ### The claims about `protype.cpp`, continued -/

/-- C14 at the failing input: at the maximizing node on `cutoffBoard` with
window `(INT_MIN, 0)`, the first empty cell `(0,0)` returns 0, so `alpha`
becomes 0 and `beta <= alpha` holds; the empty cell `(0,1)` of the same row is
skipped, but the empty cell `(1,0)` of the next row is still tried. -/
theorem C14_cutoff_tries_later_row :
    checkWin cutoffBoard COMPUTER = false ∧ checkWin cutoffBoard HUMAN = false ∧
    isBoardFull cutoffBoard = false ∧
    emptyCells cutoffBoard = [(0, 0), (0, 1), (1, 0)] ∧
    (minimax (wr cutoffBoard 0 0 COMPUTER) 3 false INT_MIN 0).1 = 0 ∧
    triedByMax cutoffBoard 2 INT_MIN 0 = [(0, 0), (1, 0)] := by
  refine ⟨by decide, by decide, by decide, by decide, by decide, by decide⟩

/-- C15 at the failing input: on `lastCellBoard` the human enters `0 0`, the
last empty cell, without making five; the pass still calls `findBestMove`, on
the full board, which returns `(-1, -1)`, and the write of the computer stone
falls outside the board. -/
theorem C15_last_cell_writes_outside :
    isBoardFull lastCellBoard = false ∧
    checkWin (wr lastCellBoard 0 0 HUMAN) HUMAN = false ∧
    isBoardFull (wr lastCellBoard 0 0 HUMAN) = true ∧
    (findBestMove (wr lastCellBoard 0 0 HUMAN)).1 = (-1, -1) ∧
    (turn lastCellBoard 0 0).1 = Outcome.writeOutsideBoard := by
  have hw : checkWin (wr lastCellBoard 0 0 HUMAN) HUMAN = false := by decide
  have hf : isBoardFull (wr lastCellBoard 0 0 HUMAN) = true := by decide
  exact ⟨by decide, hw, hf, findBestMove_full _ hf,
    turn_on_last_cell lastCellBoard 0 0 (by decide) (by decide) (by decide) hw hf⟩

/-- C19: on a board with an empty cell `findBestMove` returns the indices of an
empty cell and not `(-1, -1)`; every value `minimax` returns is one of -1000, 0,
1000 and so above `INT_MIN`. -/
theorem C19_findBestMove_returns_empty_cell (board : Board)
    (hempty : ∃ x y : Fin SIZE, board x y = EMPTY) :
    (∃ i j : Nat, (findBestMove board).1 = ((i : Int), (j : Int)) ∧ i < SIZE ∧ j < SIZE ∧
      rd board i j = EMPTY) ∧
    (findBestMove board).1 ≠ (-1, -1) ∧
    ∀ (b : Board) (depth : Nat) (isMaximizing : Bool) (alpha beta : Int),
      IsScore (minimax b depth isMaximizing alpha beta).1 ∧
      INT_MIN < (minimax b depth isMaximizing alpha beta).1 := by
  have hfull : isBoardFull board = false := by
    cases h : isBoardFull board with
    | false => rfl
    | true =>
      obtain ⟨x, y, hxy⟩ := hempty
      exact absurd hxy ((isBoardFull_iff board).1 h x y)
  obtain ⟨i, j, h1, h2, h3, h4, _⟩ := findBestMove_first_max board hfull
  refine ⟨⟨i, j, h1, h2, h3, h4⟩, ?_, ?_⟩
  · rw [h1]
    intro he
    have := congrArg Prod.fst he
    simp only at this
    omega
  · intro b depth isMaximizing alpha beta
    have hs := minimax_score b depth isMaximizing alpha beta
    refine ⟨hs, ?_⟩
    rcases hs with h | h | h <;> rw [h] <;> decide

/-- Witness of C19 on a position with three empty cells. -/
theorem C19_findBestMove_returns_empty_cell_witness :
    (∃ x y : Fin SIZE, cutoffBoard x y = EMPTY) ∧
    (findBestMove cutoffBoard).1 ≠ (-1, -1) :=
  ⟨⟨0, 0, by decide⟩,
    (C19_findBestMove_returns_empty_cell cutoffBoard ⟨0, 0, by decide⟩).2.1⟩

end Protype

/-! ## Theorems about `protype3.cpp` -/

namespace Protype3
open Player

theorem foldl_push_filter {α β : Type} (c : α → Prop) [DecidablePred c] (f : α → β) :
    ∀ (l : List α) (init : List β),
      l.foldl (fun acc x => if c x then acc ++ [f x] else acc) init =
        init ++ (l.filter fun x => decide (c x)).map f
  | [], init => by simp
  | x :: l, init => by
    rw [List.foldl_cons, foldl_push_filter c f l]
    by_cases h : c x
    · simp [h]
    · simp [h]

theorem foldl_append_flatMap {α β : Type} (g : α → List β) :
    ∀ (l : List α) (init : List β),
      l.foldl (fun acc x => acc ++ g x) init = init ++ l.flatMap g
  | [], init => by simp
  | x :: l, init => by
    rw [List.foldl_cons, foldl_append_flatMap g l]
    simp

theorem getPossibleMoves_eq (s : GameState) :
    s.getPossibleMoves = (emptyCells s.board).map fun c => newState s c.1 c.2 := by
  unfold GameState.getPossibleMoves emptyCells
  have hrow : ∀ (i : Nat) (moves : List GameState),
      (List.range BOARD_SIZE).foldl
        (fun moves j => if rd s.board i j = Player.NONE then moves ++ [newState s i j] else moves)
        moves =
      moves ++ ((List.range BOARD_SIZE).filter fun j => rd s.board i j == Player.NONE).map
        fun j => newState s i j := by
    intro i moves
    rw [foldl_push_filter (fun j => rd s.board i j = Player.NONE)]
    rfl
  simp only [hrow]
  rw [foldl_append_flatMap]
  simp [List.map_flatMap, Function.comp_def]

theorem rd_wr3 (b : Board) (i j x y : Nat) (v : Player) :
    rd (wr b i j v) x y =
      if x = i ∧ y = j ∧ x < BOARD_SIZE ∧ y < BOARD_SIZE then v else rd b x y := by
  unfold rd wr
  by_cases h : x < BOARD_SIZE ∧ y < BOARD_SIZE
  · by_cases h2 : x = i ∧ y = j
    · obtain ⟨rfl, rfl⟩ := h2
      simp [h]
    · have h3 : ¬(x = i ∧ y = j ∧ x < BOARD_SIZE ∧ y < BOARD_SIZE) := fun h4 => h2 ⟨h4.1, h4.2.1⟩
      rw [if_neg h3]
      simp only [h, dif_pos, and_self, h2, if_false]
  · have h3 : ¬(x = i ∧ y = j ∧ x < BOARD_SIZE ∧ y < BOARD_SIZE) := fun h4 => h h4.2.2
    rw [if_neg h3]
    simp only [h, dif_neg, not_false_eq_true]

theorem mem_emptyCells3 (board : Board) (c : Nat × Nat) :
    c ∈ emptyCells board ↔ c.1 < BOARD_SIZE ∧ c.2 < BOARD_SIZE ∧ rd board c.1 c.2 = NONE := by
  obtain ⟨i, j⟩ := c
  simp only [emptyCells, List.mem_flatMap, List.mem_range, List.mem_map, List.mem_filter,
    beq_iff_eq, Prod.mk.injEq]
  constructor
  · rintro ⟨a, ha, b, ⟨hb, he⟩, rfl, rfl⟩
    exact ⟨ha, hb, he⟩
  · rintro ⟨ha, hb, he⟩
    exact ⟨i, ha, j, ⟨hb, he⟩, rfl, rfl⟩

theorem emptyCells_sorted3 (board : Board) : (emptyCells board).Pairwise cellLt := by
  unfold emptyCells
  rw [List.pairwise_flatMap]
  constructor
  · intro i _
    rw [List.pairwise_map]
    refine List.Pairwise.imp ?_ (List.Pairwise.filter _ (List.pairwise_lt_range BOARD_SIZE))
    intro a b hab
    exact Or.inr ⟨rfl, hab⟩
  · refine List.Pairwise.imp ?_ (List.pairwise_lt_range BOARD_SIZE)
    intro a b hab x hx y hy
    obtain ⟨_, _, rfl⟩ := List.mem_map.1 hx
    obtain ⟨_, _, rfl⟩ := List.mem_map.1 hy
    exact Or.inl hab

theorem newState_eq_successorAt (s : GameState)
    (hp : s.currentPlayer = PLAYER1 ∨ s.currentPlayer = PLAYER2) (c : Nat × Nat) :
    newState s c.1 c.2 = successorAt s c := by
  unfold newState successorAt
  rcases hp with h | h <;> simp [h, otherPlayer]

theorem newState_board_ne (s : GameState) (hp : s.currentPlayer ≠ NONE) (c d : Nat × Nat)
    (hc : c ∈ emptyCells s.board) (hcd : c ≠ d) :
    (newState s c.1 c.2).board ≠ (newState s d.1 d.2).board := by
  obtain ⟨hc1, hc2, hc3⟩ := (mem_emptyCells3 s.board c).1 hc
  intro heq
  have h1 : rd (newState s c.1 c.2).board c.1 c.2 = s.currentPlayer := by
    simp [newState, rd_wr3, hc1, hc2]
  have h2 : rd (newState s d.1 d.2).board c.1 c.2 = NONE := by
    have hne : ¬(c.1 = d.1 ∧ c.2 = d.2 ∧ c.1 < BOARD_SIZE ∧ c.2 < BOARD_SIZE) := by
      rintro ⟨e1, e2, _⟩
      exact hcd (Prod.ext e1 e2)
    simp only [newState, rd_wr3, if_neg hne]
    exact hc3
  rw [heq, h2] at h1
  exact hp h1.symm

theorem getPossibleMoves_pairwise (s : GameState) (hp : s.currentPlayer ≠ NONE) :
    s.getPossibleMoves.Pairwise (fun a b => a.board ≠ b.board) := by
  rw [getPossibleMoves_eq, List.pairwise_map]
  have hs := emptyCells_sorted3 s.board
  refine List.Pairwise.imp_of_mem ?_ hs
  intro c d hc _ hcd
  apply newState_board_ne s hp c d hc
  rintro rfl
  rcases hcd with h | ⟨_, h⟩ <;> omega

theorem getPossibleMoves_spec (s : GameState)
    (hp : s.currentPlayer = PLAYER1 ∨ s.currentPlayer = PLAYER2) :
    s.getPossibleMoves = (emptyCells s.board).map (successorAt s) ∧
    (emptyCells s.board).Pairwise cellLt ∧
    (∀ c : Nat × Nat, c ∈ emptyCells s.board ↔
      c.1 < BOARD_SIZE ∧ c.2 < BOARD_SIZE ∧ rd s.board c.1 c.2 = NONE) ∧
    s.getPossibleMoves.length = (emptyCells s.board).length ∧
    s.getPossibleMoves.Pairwise (fun a b => a.board ≠ b.board) ∧
    (∀ c ∈ emptyCells s.board,
      (successorAt s c).currentPlayer = otherPlayer s.currentPlayer ∧
      (successorAt s c).currentPlayer ≠ s.currentPlayer ∧
      rd (successorAt s c).board c.1 c.2 = s.currentPlayer ∧
      ∀ x y : Nat, (x, y) ≠ c → rd (successorAt s c).board x y = rd s.board x y) := by
  have hne : s.currentPlayer ≠ NONE := by
    rcases hp with h | h <;> simp [h]
  have heq : s.getPossibleMoves = (emptyCells s.board).map (successorAt s) := by
    rw [getPossibleMoves_eq]
    exact List.map_congr_left (fun c _ => newState_eq_successorAt s hp c)
  refine ⟨heq, emptyCells_sorted3 s.board, mem_emptyCells3 s.board, ?_,
    getPossibleMoves_pairwise s hne, ?_⟩
  · rw [heq, List.length_map]
  · intro c hc
    obtain ⟨hc1, hc2, _⟩ := (mem_emptyCells3 s.board c).1 hc
    refine ⟨rfl, ?_, ?_, ?_⟩
    · rcases hp with h | h <;> simp [successorAt, h, otherPlayer]
    · simp [successorAt, rd_wr3, hc1, hc2]
    · intro x y hxy
      have hne2 : ¬(x = c.1 ∧ y = c.2 ∧ x < BOARD_SIZE ∧ y < BOARD_SIZE) := by
        rintro ⟨e1, e2, _⟩
        exact hxy (Prod.ext e1 e2)
      simp only [successorAt, rd_wr3, if_neg hne2]

theorem checkDirection_iff (board : Board) (x y : Nat) (dx dy : Int) :
    checkDirection board x y dx dy = true ↔
      ∀ k : Nat, 1 ≤ k → k < 5 →
        cellIs board (rd board x y) ((x : Int) + (k : Int) * dx) ((y : Int) + (k : Int) * dy) := by
  unfold checkDirection cellIs
  simp only [List.all_cons, List.all_nil, Bool.and_true, Bool.and_eq_true, Bool.not_eq_true',
    Bool.or_eq_false_iff, decide_eq_false_iff_not, bne_eq_false_iff_eq, not_lt, ge_iff_le, not_le]
  constructor
  · rintro ⟨h1, h2, h3, h4⟩ k hk1 hk5
    have e : k = 1 ∨ k = 2 ∨ k = 3 ∨ k = 4 := by omega
    rcases e with rfl | rfl | rfl | rfl
    · obtain ⟨⟨⟨⟨a, b⟩, c⟩, d⟩, e⟩ := h1
      exact ⟨a, c, b, d, e⟩
    · obtain ⟨⟨⟨⟨a, b⟩, c⟩, d⟩, e⟩ := h2
      exact ⟨a, c, b, d, e⟩
    · obtain ⟨⟨⟨⟨a, b⟩, c⟩, d⟩, e⟩ := h3
      exact ⟨a, c, b, d, e⟩
    · obtain ⟨⟨⟨⟨a, b⟩, c⟩, d⟩, e⟩ := h4
      exact ⟨a, c, b, d, e⟩
  · intro h
    have g : ∀ k : Nat, 1 ≤ k → k < 5 → _ := h
    refine ⟨?_, ?_, ?_, ?_⟩
    · obtain ⟨a, c, b, d, e⟩ := h 1 (by omega) (by omega)
      exact ⟨⟨⟨⟨a, b⟩, c⟩, d⟩, e⟩
    · obtain ⟨a, c, b, d, e⟩ := h 2 (by omega) (by omega)
      exact ⟨⟨⟨⟨a, b⟩, c⟩, d⟩, e⟩
    · obtain ⟨a, c, b, d, e⟩ := h 3 (by omega) (by omega)
      exact ⟨⟨⟨⟨a, b⟩, c⟩, d⟩, e⟩
    · obtain ⟨a, c, b, d, e⟩ := h 4 (by omega) (by omega)
      exact ⟨⟨⟨⟨a, b⟩, c⟩, d⟩, e⟩

theorem fiveFrom_cell (board : Board) (p : Player) (i j : Nat) (h : FiveFrom board p i j) :
    i < BOARD_SIZE ∧ j < BOARD_SIZE ∧ rd board i j = p := by
  obtain ⟨d, _, hk⟩ := h
  obtain ⟨_, h2, _, h4, h5⟩ := hk 0 (by omega)
  simp only [Nat.cast_zero, zero_mul, add_zero, Int.toNat_ofNat] at h2 h4 h5
  exact ⟨by omega, by omega, h5⟩

theorem fiveFrom_iff (board : Board) (i j : Nat) (hi : i < BOARD_SIZE) (hj : j < BOARD_SIZE) :
    FiveFrom board (rd board i j) i j ↔
      (checkDirection board i j 1 0 || checkDirection board i j 0 1 ||
        checkDirection board i j 1 1 || checkDirection board i j 1 (-1)) = true := by
  have h0 : ∀ d : Int × Int,
      cellIs board (rd board i j) ((i : Int) + ((0 : Nat) : Int) * d.1)
        ((j : Int) + ((0 : Nat) : Int) * d.2) := by
    intro d
    have hi2 : i < 15 := hi
    have hj2 : j < 15 := hj
    refine ⟨by simp, by simp; omega, by simp, by simp; omega, by simp⟩
  have hstep : ∀ d : Int × Int,
      (∀ k : Nat, k < 5 → cellIs board (rd board i j) ((i : Int) + (k : Int) * d.1)
        ((j : Int) + (k : Int) * d.2)) ↔ checkDirection board i j d.1 d.2 = true := by
    intro d
    rw [checkDirection_iff]
    constructor
    · intro h k _ hk
      exact h k hk
    · intro h k hk
      by_cases hk0 : k = 0
      · subst hk0
        exact h0 d
      · exact h k (by omega) hk
  simp only [FiveFrom, lineDirections, List.mem_cons, List.mem_singleton, List.not_mem_nil,
    or_false, Bool.or_eq_true]
  constructor
  · rintro ⟨d, hd, h⟩
    have := (hstep d).1 h
    rcases hd with rfl | rfl | rfl | rfl
    · exact Or.inl (Or.inl (Or.inl this))
    · exact Or.inl (Or.inl (Or.inr this))
    · exact Or.inl (Or.inr this)
    · exact Or.inr this
  · rintro (((h | h) | h) | h)
    · exact ⟨(1, 0), Or.inl rfl, (hstep (1, 0)).2 h⟩
    · exact ⟨(0, 1), Or.inr (Or.inl rfl), (hstep (0, 1)).2 h⟩
    · exact ⟨(1, 1), Or.inr (Or.inr (Or.inl rfl)), (hstep (1, 1)).2 h⟩
    · exact ⟨(1, -1), Or.inr (Or.inr (Or.inr rfl)), (hstep (1, -1)).2 h⟩

theorem scanCell_eq_some (board : Board) (i j : Nat) (hi : i < BOARD_SIZE) (hj : j < BOARD_SIZE)
    (p : Player) :
    scanCell board i j = some p ↔ p ≠ NONE ∧ rd board i j = p ∧ FiveFrom board p i j := by
  unfold scanCell
  have hf := fiveFrom_iff board i j hi hj
  by_cases hc : rd board i j ≠ NONE ∧
      (checkDirection board i j 1 0 || checkDirection board i j 0 1 ||
        checkDirection board i j 1 1 || checkDirection board i j 1 (-1)) = true
  · rw [if_pos hc]
    constructor
    · intro h
      have e : rd board i j = p := Option.some.inj h
      subst e
      exact ⟨hc.1, rfl, hf.2 hc.2⟩
    · rintro ⟨_, h2, _⟩
      rw [h2]
  · rw [if_neg hc]
    constructor
    · intro h
      cases h
    · rintro ⟨h1, h2, h3⟩
      subst h2
      exact absurd ⟨h1, hf.1 h3⟩ hc

theorem scanCell_eq_none (board : Board) (i j : Nat) (hi : i < BOARD_SIZE) (hj : j < BOARD_SIZE) :
    scanCell board i j = none ↔ rd board i j = NONE ∨ ¬FiveFrom board (rd board i j) i j := by
  cases h : scanCell board i j with
  | none =>
    simp only [true_iff]
    by_cases h1 : rd board i j = NONE
    · exact Or.inl h1
    · refine Or.inr (fun h2 => ?_)
      have := (scanCell_eq_some board i j hi hj (rd board i j)).2 ⟨h1, rfl, h2⟩
      rw [h] at this
      cases this
  | some p =>
    obtain ⟨h1, h2, h3⟩ := (scanCell_eq_some board i j hi hj p).1 h
    subst h2
    constructor
    · intro hh
      cases hh
    · rintro (hh | hh)
      · exact absurd hh h1
      · exact absurd h3 hh

theorem findSome_range_eq_some {β : Type} (f : Nat → Option β) (b : β) :
    ∀ n : Nat, (List.range n).findSome? f = some b ↔
      ∃ i, i < n ∧ f i = some b ∧ ∀ k, k < i → f k = none := by
  intro n
  induction n with
  | zero => simp
  | succ n ih =>
    rw [List.range_succ, List.findSome?_append]
    cases hpre : (List.range n).findSome? f with
    | some v =>
      simp only [Option.or_some]
      rw [hpre] at ih
      constructor
      · intro h
        obtain ⟨i, hi, h1, h2⟩ := ih.1 h
        exact ⟨i, by omega, h1, h2⟩
      · rintro ⟨i, hi, h1, h2⟩
        by_cases hin : i < n
        · exact ih.2 ⟨i, hin, h1, h2⟩
        · have hi2 : i = n := by omega
          subst hi2
          have hnone : (List.range i).findSome? f = none :=
            List.findSome?_eq_none_iff.2 (fun x hx => h2 x (List.mem_range.1 hx))
          rw [hnone] at hpre
          cases hpre
    | none =>
      have hall : ∀ k, k < n → f k = none := fun k hk =>
        List.findSome?_eq_none_iff.1 hpre k (List.mem_range.2 hk)
      have hone : (Option.none : Option β).or ([n].findSome? f) = f n := by
        cases hfn : f n <;> simp [List.findSome?, hfn]
      rw [hone]
      constructor
      · intro h
        exact ⟨n, by omega, h, hall⟩
      · rintro ⟨i, hi, h1, _⟩
        by_cases hin : i < n
        · rw [hall i hin] at h1
          cases h1
        · have hi2 : i = n := by omega
          subst hi2
          rw [h1]

theorem checkWin_cases (s : GameState) :
    (s.checkWin = NONE ∧
      ∀ i j, i < BOARD_SIZE → j < BOARD_SIZE → scanCell s.board i j = none) ∨
    (s.checkWin ≠ NONE ∧ ∃ i j, i < BOARD_SIZE ∧ j < BOARD_SIZE ∧
      scanCell s.board i j = some s.checkWin ∧
      ∀ x y, x < BOARD_SIZE → y < BOARD_SIZE → cellLt (x, y) (i, j) →
        scanCell s.board x y = none) := by
  unfold GameState.checkWin
  cases h : (List.range BOARD_SIZE).findSome? fun i =>
      (List.range BOARD_SIZE).findSome? fun j => scanCell s.board i j with
  | none =>
    left
    refine ⟨rfl, ?_⟩
    intro i j hi hj
    have h1 := List.findSome?_eq_none_iff.1 h i (List.mem_range.2 hi)
    exact List.findSome?_eq_none_iff.1 h1 j (List.mem_range.2 hj)
  | some p =>
    right
    obtain ⟨i, hi, h1, h2⟩ := (findSome_range_eq_some _ p BOARD_SIZE).1 h
    obtain ⟨j, hj, h3, h4⟩ := (findSome_range_eq_some _ p BOARD_SIZE).1 h1
    have hp := ((scanCell_eq_some s.board i j hi hj p).1 h3).1
    refine ⟨hp, i, j, hi, hj, h3, ?_⟩
    intro x y hx hy hlt
    rcases hlt with hlt | ⟨he, hlt⟩
    · exact List.findSome?_eq_none_iff.1 (h2 x hlt) y (List.mem_range.2 hy)
    · simp only at he hlt
      subst he
      exact h4 y hlt

theorem hasFive_scan (board : Board) (p : Player) (hp : p ≠ NONE) :
    HasFive board p ↔
      ∃ i j, i < BOARD_SIZE ∧ j < BOARD_SIZE ∧ scanCell board i j = some p := by
  constructor
  · rintro ⟨i, j, h⟩
    obtain ⟨hi, hj, hr⟩ := fiveFrom_cell board p i j h
    exact ⟨i, j, hi, hj, (scanCell_eq_some board i j hi hj p).2 ⟨hp, hr, h⟩⟩
  · rintro ⟨i, j, hi, hj, h⟩
    exact ⟨i, j, ((scanCell_eq_some board i j hi hj p).1 h).2.2⟩

theorem getWinner_spec (s : GameState) :
    (s.getWinner = NONE ↔ ¬HasFive s.board PLAYER1 ∧ ¬HasFive s.board PLAYER2) ∧
    (s.getWinner ≠ NONE → HasFive s.board s.getWinner) ∧
    (s.getWinner ≠ NONE → ∃ i j, i < BOARD_SIZE ∧ j < BOARD_SIZE ∧
      rd s.board i j = s.getWinner ∧ FiveFrom s.board s.getWinner i j ∧
      ∀ x y, x < BOARD_SIZE → y < BOARD_SIZE → cellLt (x, y) (i, j) →
        rd s.board x y = NONE ∨ ¬FiveFrom s.board (rd s.board x y) x y) := by
  unfold GameState.getWinner
  have hfirst : s.checkWin ≠ NONE → ∃ i j, i < BOARD_SIZE ∧ j < BOARD_SIZE ∧
      rd s.board i j = s.checkWin ∧ FiveFrom s.board s.checkWin i j ∧
      ∀ x y, x < BOARD_SIZE → y < BOARD_SIZE → cellLt (x, y) (i, j) →
        rd s.board x y = NONE ∨ ¬FiveFrom s.board (rd s.board x y) x y := by
    intro hne
    rcases checkWin_cases s with ⟨h, _⟩ | ⟨_, i, j, hi, hj, h1, h2⟩
    · exact absurd h hne
    · obtain ⟨_, h3, h4⟩ := (scanCell_eq_some s.board i j hi hj _).1 h1
      exact ⟨i, j, hi, hj, h3, h4, fun x y hx hy hlt =>
        (scanCell_eq_none s.board x y hx hy).1 (h2 x y hx hy hlt)⟩
  refine ⟨?_, ?_, hfirst⟩
  · constructor
    · intro h
      rcases checkWin_cases s with ⟨_, hall⟩ | ⟨hne, _⟩
      · constructor
        · intro hf
          obtain ⟨i, j, hi, hj, hs⟩ := (hasFive_scan s.board PLAYER1 (by simp)).1 hf
          rw [hall i j hi hj] at hs
          cases hs
        · intro hf
          obtain ⟨i, j, hi, hj, hs⟩ := (hasFive_scan s.board PLAYER2 (by simp)).1 hf
          rw [hall i j hi hj] at hs
          cases hs
      · exact absurd h hne
    · rintro ⟨h1, h2⟩
      by_contra hne
      obtain ⟨i, j, _, _, _, hf, _⟩ := hfirst hne
      cases hw : s.checkWin with
      | NONE => exact hne hw
      | PLAYER1 => rw [hw] at hf; exact h1 ⟨i, j, hf⟩
      | PLAYER2 => rw [hw] at hf; exact h2 ⟨i, j, hf⟩
  · intro hne
    obtain ⟨i, j, _, _, _, hf, _⟩ := hfirst hne
    exact ⟨i, j, hf⟩

/-! ### The search tree -/

theorem deref_set (nodes : Nodes) (n m : Nat) (x : Node) :
    deref (nodes.set n x) m = if m = n ∧ n < nodes.length then x else deref nodes m := by
  unfold deref
  simp only [List.getD_eq_getElem?_getD, List.getElem?_set]
  by_cases h : n = m
  · subst h
    by_cases h2 : n < nodes.length
    · simp [h2]
    · have h3 : nodes[n]? = none := List.getElem?_eq_none (by omega)
      simp [h2, h3]
  · have h3 : ¬(m = n ∧ n < nodes.length) := fun h4 => h h4.1.symm
    simp [h, h3]

theorem deref_set_self (nodes : Nodes) (n : Nat) (x : Node) (h : n < nodes.length) :
    deref (nodes.set n x) n = x := by
  rw [deref_set]
  simp [h]

theorem deref_set_ne (nodes : Nodes) (n m : Nat) (x : Node) (h : m ≠ n) :
    deref (nodes.set n x) m = deref nodes m := by
  rw [deref_set]
  simp [h]

theorem onChain_le (nodes : Nodes) (hpf : ParentsFirst nodes) (n m : Nat)
    (h : OnChain nodes n m) : n < nodes.length → m ≤ n := by
  induction h with
  | self n => intro _; exact le_refl _
  | up n p m hp _ ih =>
    intro hn
    have hlt := hpf n hn p hp
    have := ih (by omega)
    omega

theorem onChain_congr (nodes nodes1 : Nodes)
    (hp : ∀ k, (deref nodes1 k).parent = (deref nodes k).parent) (a b : Nat) :
    OnChain nodes1 a b ↔ OnChain nodes a b := by
  constructor
  · intro h
    induction h with
    | self n => exact OnChain.self n
    | up n p m h1 _ ih => exact OnChain.up n p m (by rw [← hp]; exact h1) ih
  · intro h
    induction h with
    | self n => exact OnChain.self n
    | up n p m h1 _ ih => exact OnChain.up n p m (by rw [hp]; exact h1) ih

theorem backpropagateLoop_some (fuel : Nat) (nodes : Nodes) (n : Nat) (result : Player) :
    backpropagateLoop (fuel + 1) nodes (some n) result =
      backpropagateLoop fuel (nodes.set n (credited (deref nodes n) result))
        (deref nodes n).parent result := by
  rw [backpropagateLoop]
  unfold credited
  by_cases h : (deref nodes n).state.currentPlayer ≠ result
  · simp [h]
  · simp [h]

theorem backpropagateLoop_spec : ∀ (fuel : Nat) (nodes : Nodes) (n : Nat) (result : Player),
    ParentsFirst nodes → n < nodes.length → n + 2 ≤ fuel →
    ∃ nodes1, backpropagateLoop fuel nodes (some n) result = some nodes1 ∧
      nodes1.length = nodes.length ∧
      ∀ m, (OnChain nodes n m → deref nodes1 m = credited (deref nodes m) result) ∧
        (¬OnChain nodes n m → deref nodes1 m = deref nodes m)
  | 0, _, _, _, _, _, hf => by omega
  | fuel + 1, nodes, n, result, hpf, hn, hf => by
    rw [backpropagateLoop_some]
    have hparents : ∀ k, (deref (nodes.set n (credited (deref nodes n) result)) k).parent =
        (deref nodes k).parent := by
      intro k
      rw [deref_set]
      split_ifs with h
      · rw [h.1]
        rfl
      · rfl
    cases hp : (deref nodes n).parent with
    | none =>
      obtain ⟨f, rfl⟩ : ∃ f, fuel = f + 1 := ⟨fuel - 1, by omega⟩
      refine ⟨_, by rw [backpropagateLoop], by simp, ?_⟩
      intro m
      constructor
      · intro hc
        cases hc with
        | self _ => exact deref_set_self nodes n _ hn
        | up _ p _ h1 _ => rw [hp] at h1; cases h1
      · intro hc
        have hne : m ≠ n := fun h => hc (by rw [h]; exact OnChain.self n)
        exact deref_set_ne nodes n m _ hne
    | some p =>
      have hlt := hpf n hn p hp
      have hpf1 : ParentsFirst (nodes.set n (credited (deref nodes n) result)) := by
        intro k hk q hq
        rw [hparents] at hq
        exact hpf k (by simpa using hk) q hq
      obtain ⟨nodes1, h1, h2, h3⟩ := backpropagateLoop_spec fuel
        (nodes.set n (credited (deref nodes n) result)) p result hpf1
        (by simp; omega) (by omega)
      refine ⟨nodes1, h1, by simpa using h2, ?_⟩
      intro m
      have hcong := onChain_congr nodes (nodes.set n (credited (deref nodes n) result)) hparents p m
      by_cases hmn : m = n
      · subst hmn
        refine ⟨fun _ => ?_, fun hc => absurd (OnChain.self m) hc⟩
        have hnot : ¬OnChain (nodes.set m (credited (deref nodes m) result)) p m := by
          rw [hcong]
          intro hc
          have := onChain_le nodes hpf p m hc (by omega)
          omega
        rw [(h3 m).2 hnot]
        exact deref_set_self nodes m _ hn
      · have hiff : OnChain nodes n m ↔ OnChain nodes p m := by
          constructor
          · intro hc
            cases hc with
            | self _ => exact absurd rfl hmn
            | up _ q _ hq hrest =>
              rw [hp] at hq
              cases hq
              exact hrest
          · intro hc
            exact OnChain.up n p m hp hc
        constructor
        · intro hc
          rw [(h3 m).1 (hcong.2 (hiff.1 hc)), deref_set_ne nodes n m _ hmn]
        · intro hc
          rw [(h3 m).2 (fun h => hc (hiff.2 (hcong.1 h))), deref_set_ne nodes n m _ hmn]

theorem backpropagate_spec (nodes : Nodes) (n : Nat) (result : Player)
    (hpf : ParentsFirst nodes) (hn : n < nodes.length) :
    ∃ nodes1, backpropagate nodes (some n) result = some nodes1 ∧
      nodes1.length = nodes.length ∧
      ∀ m, (OnChain nodes n m → deref nodes1 m = credited (deref nodes m) result) ∧
        (¬OnChain nodes n m → deref nodes1 m = deref nodes m) :=
  backpropagateLoop_spec (nodes.length + 1) nodes n result hpf hn (by omega)

theorem boardEq_iff (a b : Board) : boardEq a b = true ↔ a = b := by
  constructor
  · intro h
    funext x y
    simp only [boardEq, List.all_eq_true, List.mem_range, beq_iff_eq] at h
    have := h x.val x.isLt y.val y.isLt
    simpa [rd] using this
  · rintro rfl
    simp [boardEq]

theorem find_of_split {α : Type} (p : α → Bool) (pre post : List α) (a : α)
    (hpre : ∀ x ∈ pre, p x = false) (ha : p a = true) :
    (pre ++ a :: post).find? p = some a := by
  have hnone : pre.find? p = none := by
    rw [List.find?_eq_none]
    intro x hx
    rw [hpre x hx]
    simp
  rw [List.find?_append, hnone, Option.none_or, List.find?_cons_of_pos _ ha]

theorem find_first_new (moves : List GameState)
    (hpw : moves.Pairwise (fun a b => a.board ≠ b.board)) (k : Nat) (hk : k < moves.length) :
    moves.find? (fun m => !((moves.take k).any fun s => boardEq s.board m.board)) =
      some (moves[k]) := by
  have hsplit : moves.take k ++ moves[k] :: moves.drop (k + 1) = moves := by
    rw [← List.drop_eq_getElem_cons hk, List.take_append_drop]
  have hpw2 := hpw
  rw [← hsplit] at hpw2
  obtain ⟨_, _, hcross⟩ := List.pairwise_append.1 hpw2
  have key := find_of_split
    (fun m => !((moves.take k).any fun s => boardEq s.board m.board))
    (moves.take k) (moves.drop (k + 1)) moves[k]
    (by
      intro x hx
      have hany : ((moves.take k).any fun s => boardEq s.board x.board) = true :=
        List.any_eq_true.2 ⟨x, hx, (boardEq_iff _ _).2 rfl⟩
      simp only [hany, Bool.not_true])
    (by
      simp only [Bool.not_eq_true', List.any_eq_false]
      intro s hs hb
      exact hcross s hs moves[k] (List.mem_cons_self _ _) ((boardEq_iff _ _).1 hb))
  rw [hsplit] at key
  exact key

theorem bestChild_fold_or (f : Nat → Rat) :
    ∀ (l : List Nat) (acc : Option Rat × Option Nat),
      (l.foldl (fun (acc : Option Rat × Option Nat) child =>
          if exceeds (f child) acc.1 then (some (f child), some child) else acc) acc).2 = acc.2 ∨
        ∃ c ∈ l, (l.foldl (fun (acc : Option Rat × Option Nat) child =>
          if exceeds (f child) acc.1 then (some (f child), some child) else acc) acc).2 = some c
  | [], acc => Or.inl rfl
  | x :: l, acc => by
    rw [List.foldl_cons]
    rcases bestChild_fold_or f l
        (if exceeds (f x) acc.1 then (some (f x), some x) else acc) with h | ⟨c, hc, h⟩
    · by_cases he : exceeds (f x) acc.1 = true
      · right
        refine ⟨x, List.mem_cons_self _ _, ?_⟩
        rw [h, if_pos he]
      · left
        rw [h, if_neg he]
    · exact Or.inr ⟨c, List.mem_cons_of_mem _ hc, h⟩

theorem bestChild_spec (uct : Int → Int → Int → Rat) (nodes : Nodes) (n : Nat) :
    ((deref nodes n).children = [] ∧ bestChild uct nodes n = none) ∨
      ∃ c ∈ (deref nodes n).children, bestChild uct nodes n = some c := by
  unfold bestChild
  cases hch : (deref nodes n).children with
  | nil => exact Or.inl ⟨rfl, rfl⟩
  | cons x l =>
    right
    simp only [List.foldl_cons, exceeds, if_true]
    rcases bestChild_fold_or
        (fun child => uct (deref nodes child).wins (deref nodes child).visits (deref nodes n).visits)
        l (some (uct (deref nodes x).wins (deref nodes x).visits (deref nodes n).visits), some x)
      with h | ⟨c, hc, h⟩
    · exact ⟨x, List.mem_cons_self _ _, h⟩
    · exact ⟨c, List.mem_cons_of_mem _ hc, h⟩

theorem deref_append (nodes : Nodes) (x : Node) (m : Nat) :
    deref (nodes ++ [x]) m = if m = nodes.length then x else deref nodes m := by
  unfold deref
  simp only [List.getD_eq_getElem?_getD]
  by_cases h1 : m < nodes.length
  · rw [List.getElem?_append_left h1, if_neg (by omega)]
  · rw [List.getElem?_append_right (by omega)]
    by_cases h2 : m = nodes.length
    · subst h2
      simp
    · have h3 : nodes[m]? = none := List.getElem?_eq_none (by omega)
      have h4 : ([x] : List Node)[m - nodes.length]? = none :=
        List.getElem?_eq_none (by simp; omega)
      rw [if_neg h2, h3, h4]

theorem any_map_state {α β : Type} (f : α → β) (p : β → Bool) :
    ∀ l : List α, (l.map f).any p = l.any fun x => p (f x)
  | [] => rfl
  | x :: l => by
    rw [List.map_cons, List.any_cons, List.any_cons, any_map_state f p l]

theorem expand_eq (nodes : Nodes) (hinv : TreeInv nodes) (n : Nat) (hn : n < nodes.length)
    (hnf : (deref nodes n).isFullyExpanded = false) :
    ∃ (hk : (deref nodes n).children.length < (deref nodes n).state.getPossibleMoves.length),
      expand nodes n =
        ((nodes ++ [Node.new ((deref nodes n).state.getPossibleMoves[(deref nodes n).children.length])
              (some n)]).set n
          { deref (nodes ++ [Node.new
                ((deref nodes n).state.getPossibleMoves[(deref nodes n).children.length])
                (some n)]) n with
            children := (deref (nodes ++ [Node.new
                ((deref nodes n).state.getPossibleMoves[(deref nodes n).children.length])
                (some n)]) n).children ++ [nodes.length] },
          some nodes.length) := by
  have hcs := hinv.childStates n hn
  have hlen := congrArg List.length hcs
  simp only [List.length_map, List.length_take] at hlen
  have hne : (deref nodes n).children.length ≠ (deref nodes n).state.getPossibleMoves.length := by
    simpa [Node.isFullyExpanded] using hnf
  have hk : (deref nodes n).children.length < (deref nodes n).state.getPossibleMoves.length := by
    omega
  refine ⟨hk, ?_⟩
  have hpred : (fun move : GameState =>
      !((deref nodes n).children.any fun child =>
        boardEq (deref nodes child).state.board move.board)) =
      fun move => !(((deref nodes n).state.getPossibleMoves.take
        (deref nodes n).children.length).any fun s => boardEq s.board move.board) := by
    funext move
    rw [← hcs, any_map_state]
  have hfind := find_first_new (deref nodes n).state.getPossibleMoves
    (getPossibleMoves_pairwise _ (hinv.mover n hn)) _ hk
  unfold expand
  simp only [hpred, hfind]

theorem deref_grow (nodes : Nodes) (n : Nat) (hn : n < nodes.length) (move : GameState)
    (m : Nat) :
    deref (grow nodes n move) m =
      if m = n then { deref nodes n with children := (deref nodes n).children ++ [nodes.length] }
      else if m = nodes.length then Node.new move (some n)
      else deref nodes m := by
  unfold grow
  rw [deref_set, deref_append]
  by_cases h : m = n
  · subst h
    simp
    omega
  · simp [h]

theorem expand_grow (nodes : Nodes) (hinv : TreeInv nodes) (n : Nat) (hn : n < nodes.length)
    (hnf : (deref nodes n).isFullyExpanded = false) :
    ∃ (hk : (deref nodes n).children.length < (deref nodes n).state.getPossibleMoves.length),
      expand nodes n =
        (grow nodes n ((deref nodes n).state.getPossibleMoves[(deref nodes n).children.length]),
          some nodes.length) := by
  obtain ⟨hk, h⟩ := expand_eq nodes hinv n hn hnf
  refine ⟨hk, ?_⟩
  rw [h]
  unfold grow
  rw [deref_append, if_neg (by omega)]

theorem length_grow (nodes : Nodes) (n : Nat) (move : GameState) :
    (grow nodes n move).length = nodes.length + 1 := by
  simp [grow]

theorem grow_state (nodes : Nodes) (n : Nat) (hn : n < nodes.length) (move : GameState)
    (m : Nat) (hm : m < nodes.length) :
    (deref (grow nodes n move) m).state = (deref nodes m).state := by
  rw [deref_grow nodes n hn]
  split_ifs with h1 h2
  · rw [h1]
  · omega
  · rfl

theorem grow_parent (nodes : Nodes) (n : Nat) (hn : n < nodes.length) (move : GameState)
    (m : Nat) (hm : m < nodes.length) :
    (deref (grow nodes n move) m).parent = (deref nodes m).parent := by
  rw [deref_grow nodes n hn]
  split_ifs with h1 h2
  · rw [h1]
  · omega
  · rfl

theorem newState_mover (s : GameState) (i j : Nat) : (newState s i j).currentPlayer ≠ NONE := by
  unfold newState
  simp only
  split_ifs <;> simp

theorem getPossibleMoves_mover (s m : GameState) (hm : m ∈ s.getPossibleMoves) :
    m.currentPlayer ≠ NONE := by
  rw [getPossibleMoves_eq] at hm
  obtain ⟨c, _, rfl⟩ := List.mem_map.1 hm
  exact newState_mover s c.1 c.2

theorem grow_inv (nodes : Nodes) (hinv : TreeInv nodes) (n : Nat) (hn : n < nodes.length)
    (hk : (deref nodes n).children.length < (deref nodes n).state.getPossibleMoves.length) :
    TreeInv (grow nodes n
      ((deref nodes n).state.getPossibleMoves[(deref nodes n).children.length])) := by
  have hd := deref_grow nodes n hn
    ((deref nodes n).state.getPossibleMoves[(deref nodes n).children.length])
  have hst := grow_state nodes n hn
    ((deref nodes n).state.getPossibleMoves[(deref nodes n).children.length])
  constructor
  · intro m hm p hp
    rw [length_grow] at hm
    rw [hd] at hp
    split_ifs at hp with h1 h2
    · subst h1
      exact hinv.parentsFirst m hn p hp
    · simp only [Node.new, Option.some.injEq] at hp
      omega
    · exact hinv.parentsFirst m (by omega) p hp
  · intro m hm c hc
    rw [length_grow] at hm ⊢
    rw [hd] at hc
    split_ifs at hc with h1 h2
    · subst h1
      rcases List.mem_append.1 hc with hc | hc
      · have := hinv.childrenLater m hn c hc
        omega
      · simp only [List.mem_singleton] at hc
        omega
    · simp [Node.new] at hc
    · have := hinv.childrenLater m (by omega) c hc
      omega
  · intro m hm c hc
    rw [length_grow] at hm
    rw [hd] at hc
    split_ifs at hc with h1 h2
    · subst h1
      rcases List.mem_append.1 hc with hc | hc
      · have h3 := hinv.childrenLater m hn c hc
        rw [grow_parent nodes m hn _ c (by omega)]
        exact hinv.childParent m hn c hc
      · simp only [List.mem_singleton] at hc
        subst hc
        rw [hd, if_neg (by omega), if_pos rfl]
        rfl
    · simp [Node.new] at hc
    · have h3 := hinv.childrenLater m (by omega) c hc
      rw [grow_parent nodes n hn _ c (by omega)]
      exact hinv.childParent m (by omega) c hc
  · intro m hm
    rw [length_grow] at hm
    rw [hd]
    split_ifs with h1 h2
    · subst h1
      simp only [List.map_append, List.map_cons, List.map_nil, List.length_append,
        List.length_singleton]
      have h5 : (deref nodes m).children.map
          (fun c => (deref (grow nodes m
            ((deref nodes m).state.getPossibleMoves[(deref nodes m).children.length])) c).state) =
          (deref nodes m).children.map (fun c => (deref nodes c).state) := by
        apply List.map_congr_left
        intro c hc
        exact hst c (hinv.childrenLater m hn c hc).2
      rw [h5, hinv.childStates m hn, hd, if_neg (by omega), if_pos rfl]
      simp only [Node.new]
      rw [List.take_succ, List.getElem?_eq_getElem hk]
      rfl
    · simp [Node.new]
    · have hm2 : m < nodes.length := by omega
      have h5 : (deref nodes m).children.map
          (fun c => (deref (grow nodes n
            ((deref nodes n).state.getPossibleMoves[(deref nodes n).children.length])) c).state) =
          (deref nodes m).children.map (fun c => (deref nodes c).state) := by
        apply List.map_congr_left
        intro c hc
        exact hst c (hinv.childrenLater m hm2 c hc).2
      rw [h5]
      exact hinv.childStates m hm2
  · intro m hm
    rw [length_grow] at hm
    rw [hd]
    split_ifs with h1 h2
    · subst h1
      exact hinv.mover m hn
    · exact getPossibleMoves_mover _ _ (List.getElem_mem _)
    · exact hinv.mover m (by omega)
  · intro m hm
    rw [length_grow] at hm
    rw [hd]
    split_ifs with h1 h2
    · subst h1
      exact hinv.counts m hn
    · simp [Node.new]
    · exact hinv.counts m (by omega)

theorem grow_extends (nodes : Nodes) (n : Nat) (hn : n < nodes.length) (move : GameState) :
    Extends nodes (grow nodes n move) := by
  refine ⟨by rw [length_grow]; omega, ?_⟩
  intro m hm
  refine ⟨grow_state nodes n hn move m hm, ?_⟩
  rw [deref_grow nodes n hn]
  split_ifs with h1 h2
  · subst h1
    exact List.prefix_append _ _
  · omega
  · exact List.prefix_refl _

theorem extends_refl (nodes : Nodes) : Extends nodes nodes :=
  ⟨le_refl _, fun _ _ => ⟨rfl, List.prefix_refl _⟩⟩

theorem extends_trans (a b c : Nodes) (hab : Extends a b) (hbc : Extends b c) : Extends a c := by
  refine ⟨le_trans hab.1 hbc.1, ?_⟩
  intro n hn
  obtain ⟨h1, h2⟩ := hab.2 n hn
  obtain ⟨h3, h4⟩ := hbc.2 n (lt_of_lt_of_le hn hab.1)
  exact ⟨h3.trans h1, List.IsPrefix.trans h2 h4⟩

theorem extends_children_ne_nil (a b : Nodes) (hab : Extends a b) (n : Nat) (hn : n < a.length)
    (h : (deref a n).children ≠ []) : (deref b n).children ≠ [] := by
  obtain ⟨t, ht⟩ := (hab.2 n hn).2
  intro hb
  rw [hb] at ht
  exact h (List.append_eq_nil.1 ht).1

theorem not_terminal_moves (s : GameState) (h : s.isTerminal = false) :
    s.getPossibleMoves ≠ [] := by
  unfold GameState.isTerminal at h
  simp only [Bool.or_eq_false_iff] at h
  intro he
  rw [he] at h
  simp at h

theorem treePolicyLoop_spec (uct : Int → Int → Int → Rat) :
    ∀ (fuel : Nat) (nodes : Nodes) (n : Nat), TreeInv nodes → n < nodes.length →
      nodes.length - n ≤ fuel →
      ∃ nodes1 node1, treePolicyLoop uct fuel nodes n = some (nodes1, some node1) ∧
        TreeInv nodes1 ∧ Extends nodes nodes1 ∧ node1 < nodes1.length
  | 0, nodes, n, _, hn, hf => by omega
  | fuel + 1, nodes, n, hinv, hn, hf => by
    rw [treePolicyLoop]
    by_cases hterm : (deref nodes n).state.isTerminal = true
    · simp only [hterm, Bool.not_true, Bool.false_eq_true, if_false]
      exact ⟨nodes, n, rfl, hinv, extends_refl nodes, hn⟩
    · have hterm2 : (deref nodes n).state.isTerminal = false := by simpa using hterm
      simp only [hterm2, Bool.not_false, if_true]
      by_cases hfull : (deref nodes n).isFullyExpanded = true
      · simp only [hfull, Bool.not_true, Bool.false_eq_true, if_false]
        rcases bestChild_spec uct nodes n with ⟨hnil, _⟩ | ⟨c, hc, hbest⟩
        · exfalso
          have hmoves := not_terminal_moves _ hterm2
          simp only [Node.isFullyExpanded, beq_iff_eq, hnil, List.length_nil] at hfull
          exact hmoves (List.length_eq_zero.1 hfull.symm)
        · rw [hbest]
          have hlater := hinv.childrenLater n hn c hc
          exact treePolicyLoop_spec uct fuel nodes c hinv hlater.2 (by omega)
      · have hfull2 : (deref nodes n).isFullyExpanded = false := by simpa using hfull
        simp only [hfull2, Bool.not_false, if_true]
        obtain ⟨hk, he⟩ := expand_grow nodes hinv n hn hfull2
        rw [he]
        exact ⟨_, _, rfl, grow_inv nodes hinv n hn hk, grow_extends nodes n hn _,
          by rw [length_grow]; omega⟩

theorem treePolicy_root (uct : Int → Int → Int → Rat) (nodes : Nodes) (hinv : TreeInv nodes)
    (h0 : 0 < nodes.length) (hterm : (deref nodes 0).state.isTerminal = false) :
    ∃ nodes1 node1, treePolicy uct nodes 0 = some (nodes1, some node1) ∧
      TreeInv nodes1 ∧ Extends nodes nodes1 ∧ node1 < nodes1.length ∧
      (deref nodes1 0).children ≠ [] := by
  obtain ⟨nodes1, node1, h1, h2, h3, h4⟩ :=
    treePolicyLoop_spec uct nodes.length nodes 0 hinv h0 (by omega)
  refine ⟨nodes1, node1, h1, h2, h3, h4, ?_⟩
  by_cases hch : (deref nodes 0).children = []
  · have hmoves := not_terminal_moves _ hterm
    have hfull : (deref nodes 0).isFullyExpanded = false := by
      simp only [Node.isFullyExpanded, hch, List.length_nil, beq_eq_false_iff_ne, ne_eq]
      intro he
      exact hmoves (List.length_eq_zero.1 he.symm)
    obtain ⟨f, hf⟩ : ∃ f, nodes.length = f + 1 := ⟨nodes.length - 1, by omega⟩
    obtain ⟨hk, he⟩ := expand_grow nodes hinv 0 h0 hfull
    rw [hf, treePolicyLoop] at h1
    simp only [hterm, hfull, Bool.not_false, if_true, he, Option.some.injEq, Prod.mk.injEq] at h1
    obtain ⟨h5, _⟩ := h1
    rw [← h5, deref_grow nodes 0 h0, if_pos rfl]
    simp
  · exact extends_children_ne_nil nodes nodes1 h3 0 h0 hch

theorem emptyCells_nodup (board : Board) : (emptyCells board).Nodup := by
  refine List.Pairwise.imp ?_ (emptyCells_sorted3 board)
  intro a b hab he
  subst he
  rcases hab with h | ⟨_, h⟩ <;> omega

theorem emptyCells_length_lt (s : GameState) (hp : s.currentPlayer ≠ NONE) (c : Nat × Nat)
    (hc : c ∈ emptyCells s.board) :
    (emptyCells (newState s c.1 c.2).board).length < (emptyCells s.board).length := by
  obtain ⟨hc1, hc2, hc3⟩ := (mem_emptyCells3 s.board c).1 hc
  have hnot : c ∉ emptyCells (newState s c.1 c.2).board := by
    intro h
    have := ((mem_emptyCells3 _ c).1 h).2.2
    simp only [newState, rd_wr3, hc1, hc2, and_self, if_true] at this
    exact hp this
  have hsub : (c :: emptyCells (newState s c.1 c.2).board) ⊆ emptyCells s.board := by
    intro d hd
    rcases List.mem_cons.1 hd with rfl | hd
    · exact hc
    · obtain ⟨h1, h2, h3⟩ := (mem_emptyCells3 _ d).1 hd
      refine (mem_emptyCells3 _ d).2 ⟨h1, h2, ?_⟩
      simp only [newState, rd_wr3] at h3
      split_ifs at h3 with h4
      · exact absurd h3 hp
      · exact h3
  have hnd : (c :: emptyCells (newState s c.1 c.2).board).Nodup :=
    List.nodup_cons.2 ⟨hnot, emptyCells_nodup _⟩
  have := (List.subperm_of_subset hnd hsub).length_le
  simp only [List.length_cons] at this
  omega

theorem getPossibleMoves_length_lt (s next : GameState) (hp : s.currentPlayer ≠ NONE)
    (hn : next ∈ s.getPossibleMoves) :
    next.getPossibleMoves.length < s.getPossibleMoves.length := by
  rw [getPossibleMoves_eq s] at hn
  obtain ⟨c, hc, rfl⟩ := List.mem_map.1 hn
  rw [getPossibleMoves_eq, getPossibleMoves_eq s, List.length_map, List.length_map]
  exact emptyCells_length_lt s hp c hc

theorem defaultPolicyLoop_some (rand : Nat → Nat) :
    ∀ (fuel : Nat) (state : GameState) (k : Nat), state.currentPlayer ≠ NONE →
      state.getPossibleMoves.length < fuel →
      ∃ result k1, defaultPolicyLoop rand fuel state k = some (result, k1)
  | 0, _, _, _, hf => by omega
  | fuel + 1, state, k, hp, hf => by
    rw [defaultPolicyLoop]
    by_cases hterm : state.isTerminal = true
    · simp only [hterm, Bool.not_true, Bool.false_eq_true, if_false]
      exact ⟨_, _, rfl⟩
    · have hterm2 : state.isTerminal = false := by simpa using hterm
      simp only [hterm2, Bool.not_false, if_true]
      have hmoves := not_terminal_moves _ hterm2
      have hpos : 0 < state.getPossibleMoves.length := List.length_pos.2 hmoves
      have hidx : rand k % state.getPossibleMoves.length < state.getPossibleMoves.length :=
        Nat.mod_lt _ hpos
      rw [List.getElem?_eq_getElem hidx]
      simp only
      have hmem : state.getPossibleMoves[rand k % state.getPossibleMoves.length] ∈
          state.getPossibleMoves := List.getElem_mem _
      have hlt := getPossibleMoves_length_lt state _ hp hmem
      exact defaultPolicyLoop_some rand fuel _ (k + 1) (getPossibleMoves_mover _ _ hmem)
        (by omega)

theorem defaultPolicy_some (rand : Nat → Nat) (state : GameState) (k : Nat)
    (hp : state.currentPlayer ≠ NONE) :
    ∃ result k1, defaultPolicy rand state k = some (result, k1) :=
  defaultPolicyLoop_some rand _ state k hp (by omega)

theorem treeInv_of_same (nodes nodes1 : Nodes) (hlen : nodes1.length = nodes.length)
    (hstate : ∀ m, (deref nodes1 m).state = (deref nodes m).state)
    (hparent : ∀ m, (deref nodes1 m).parent = (deref nodes m).parent)
    (hchildren : ∀ m, (deref nodes1 m).children = (deref nodes m).children)
    (hcounts : ∀ m, m < nodes.length → 0 ≤ (deref nodes1 m).wins ∧
      (deref nodes1 m).wins ≤ (deref nodes1 m).visits)
    (hinv : TreeInv nodes) : TreeInv nodes1 := by
  constructor
  · intro m hm p hp
    rw [hparent] at hp
    exact hinv.parentsFirst m (by omega) p hp
  · intro m hm c hc
    rw [hchildren] at hc
    rw [hlen]
    exact hinv.childrenLater m (by omega) c hc
  · intro m hm c hc
    rw [hchildren] at hc
    rw [hparent]
    exact hinv.childParent m (by omega) c hc
  · intro m hm
    rw [hchildren, hstate]
    simp only [hstate]
    exact hinv.childStates m (by omega)
  · intro m hm
    rw [hstate]
    exact hinv.mover m (by omega)
  · intro m hm
    exact hcounts m (by omega)

theorem backpropagate_inv (nodes : Nodes) (n : Nat) (result : Player) (hinv : TreeInv nodes)
    (hn : n < nodes.length) :
    ∃ nodes1, backpropagate nodes (some n) result = some nodes1 ∧ TreeInv nodes1 ∧
      Extends nodes nodes1 := by
  obtain ⟨nodes1, h1, h2, h3⟩ := backpropagate_spec nodes n result hinv.parentsFirst hn
  have hcases : ∀ m, deref nodes1 m = credited (deref nodes m) result ∨
      deref nodes1 m = deref nodes m := by
    intro m
    by_cases hc : OnChain nodes n m
    · exact Or.inl ((h3 m).1 hc)
    · exact Or.inr ((h3 m).2 hc)
  have hstate : ∀ m, (deref nodes1 m).state = (deref nodes m).state := by
    intro m
    rcases hcases m with h | h
    · rw [h]
      rfl
    · rw [h]
  have hparent : ∀ m, (deref nodes1 m).parent = (deref nodes m).parent := by
    intro m
    rcases hcases m with h | h
    · rw [h]
      rfl
    · rw [h]
  have hchildren : ∀ m, (deref nodes1 m).children = (deref nodes m).children := by
    intro m
    rcases hcases m with h | h
    · rw [h]
      rfl
    · rw [h]
  refine ⟨nodes1, h1, treeInv_of_same nodes nodes1 h2 hstate hparent hchildren ?_ hinv, ?_⟩
  · intro m hm
    have hc := hinv.counts m hm
    rcases hcases m with h | h
    · rw [h]
      simp only [credited]
      split_ifs <;> omega
    · rw [h]
      exact hc
  · refine ⟨by omega, fun m _ => ⟨hstate m, ?_⟩⟩
    rw [hchildren]

/-- What every pass of the worker loop keeps: the invariant, a root that holds
the state `run` was called with, and (after the first pass) a child of the
root. -/
theorem workerStep_spec (uct : Int → Int → Int → Rat) (rand : Nat → Nat) (iterations : Nat)
    (hit : 100 ≤ iterations) (s : GameState) (hs : s.isTerminal = false)
    (nodes : Nodes) (k : Nat) (hinv : TreeInv nodes) (h0 : 0 < nodes.length)
    (hroot : (deref nodes 0).state = s) :
    ∃ nodes1 k1, workerStep uct rand iterations (nodes, k) = some (nodes1, k1) ∧
      TreeInv nodes1 ∧ 0 < nodes1.length ∧ (deref nodes1 0).state = s ∧
      (deref nodes1 0).children ≠ [] := by
  obtain ⟨nodesA, node, hA, hinvA, hextA, hnodeA, hchA⟩ :=
    treePolicy_root uct nodes hinv h0 (by rw [hroot]; exact hs)
  obtain ⟨result, k1, hD⟩ :=
    defaultPolicy_some rand (deref nodesA node).state k (hinvA.mover node hnodeA)
  obtain ⟨nodesB, hB, hinvB, hextB⟩ := backpropagate_inv nodesA node result hinvA hnodeA
  have h0A : 0 < nodesA.length := lt_of_lt_of_le h0 hextA.1
  have hdiv : ¬ iterations / 100 = 0 := by omega
  refine ⟨nodesB, k1, ?_, hinvB, lt_of_lt_of_le h0A hextB.1, ?_, ?_⟩
  · unfold workerStep
    simp only [hA, hD, hB, if_neg hdiv]
  · rw [(hextB.2 0 h0A).1, (hextA.2 0 h0).1, hroot]
  · exact extends_children_ne_nil nodesA nodesB hextB 0 h0A hchA

theorem repeatStep_inv {σ : Type} (step : σ → Option σ) (P : σ → Prop)
    (hstep : ∀ st, P st → ∃ st1, step st = some st1 ∧ P st1) :
    ∀ (n : Nat) (st : σ), P st → ∃ st1, repeatStep step n st = some st1 ∧ P st1
  | 0, st, h => ⟨st, rfl, h⟩
  | n + 1, st, h => by
    obtain ⟨st1, h1, h2⟩ := hstep st h
    rw [repeatStep, h1]
    exact repeatStep_inv step P hstep n st1 h2

theorem repeatStep_pos {σ : Type} (step : σ → Option σ) (P Q : σ → Prop)
    (hstep : ∀ st, P st → ∃ st1, step st = some st1 ∧ P st1 ∧ Q st1)
    (n : Nat) (hn : 0 < n) (st : σ) (h : P st) :
    ∃ st1, repeatStep step n st = some st1 ∧ P st1 ∧ Q st1 := by
  obtain ⟨m, rfl⟩ : ∃ m, n = m + 1 := ⟨n - 1, by omega⟩
  obtain ⟨st1, h1, h2, h3⟩ := hstep st h
  rw [repeatStep, h1]
  exact repeatStep_inv step (fun x => P x ∧ Q x)
    (fun x hx => hstep x hx.1) m st1 ⟨h2, h3⟩

theorem root_inv (s : GameState) (hp : s.currentPlayer ≠ NONE) :
    TreeInv [Node.new s none] := by
  have hd : ∀ m, m < 1 → deref [Node.new s none] m = Node.new s none := by
    intro m hm
    have : m = 0 := by omega
    subst this
    rfl
  constructor
  · intro m hm p hp2
    rw [hd m (by simpa using hm)] at hp2
    cases hp2
  · intro m hm c hc
    rw [hd m (by simpa using hm)] at hc
    simp [Node.new] at hc
  · intro m hm c hc
    rw [hd m (by simpa using hm)] at hc
    simp [Node.new] at hc
  · intro m hm
    rw [hd m (by simpa using hm)]
    simp [Node.new]
  · intro m hm
    rw [hd m (by simpa using hm)]
    exact hp
  · intro m hm
    rw [hd m (by simpa using hm)]
    simp [Node.new]

theorem run_spec (uct : Int → Int → Int → Rat) (rand : Nat → Nat) (s : GameState)
    (iterations numThreads : Nat) (hs : s.isTerminal = false) (hp : s.currentPlayer ≠ NONE)
    (hthreads : 1 ≤ numThreads) (hit : max 100 numThreads ≤ iterations) :
    ∃ next, MCTS.run uct rand s iterations numThreads = some next ∧
      next ∈ s.getPossibleMoves := by
  have hit1 : 100 ≤ iterations := le_trans (le_max_left _ _) hit
  have hit2 : numThreads ≤ iterations := le_trans (le_max_right _ _) hit
  have hper : 0 < iterations / numThreads := Nat.div_pos hit2 hthreads
  let P : Nodes × Nat → Prop := fun st =>
    TreeInv st.1 ∧ 0 < st.1.length ∧ (deref st.1 0).state = s
  let Q : Nodes × Nat → Prop := fun st => (deref st.1 0).children ≠ []
  have hstep : ∀ st, P st → ∃ st1, workerStep uct rand iterations st = some st1 ∧ P st1 ∧ Q st1 := by
    rintro ⟨nodes, k⟩ ⟨h1, h2, h3⟩
    obtain ⟨nodes1, k1, g1, g2, g3, g4, g5⟩ :=
      workerStep_spec uct rand iterations hit1 s hs nodes k h1 h2 h3
    exact ⟨(nodes1, k1), g1, ⟨g2, g3, g4⟩, g5⟩
  have hworker : ∀ st, P st →
      ∃ st1, repeatStep (workerStep uct rand iterations) (iterations / numThreads) st = some st1 ∧
        P st1 ∧ Q st1 :=
    fun st h => repeatStep_pos _ P Q hstep _ hper st h
  have hinit : P ([Node.new s none], 0) := ⟨root_inv s hp, by simp, rfl⟩
  obtain ⟨⟨nodes, k⟩, hrun, ⟨hinv, h0, hroot⟩, hch⟩ :=
    repeatStep_pos _ P Q hworker numThreads (by omega) _ hinit
  have hrun2 : runWorkers uct rand iterations numThreads ([Node.new s none], 0) =
      some (nodes, k) := hrun
  rcases bestChild_spec uct nodes 0 with ⟨hnil, _⟩ | ⟨c, hc, hbest⟩
  · exact absurd hnil hch
  · refine ⟨(deref nodes c).state, ?_, ?_⟩
    · unfold MCTS.run
      rw [hrun2]
      simp only [hbest]
    · have hcs := hinv.childStates 0 h0
      rw [hroot] at hcs
      have hmem : (deref nodes c).state ∈
          (deref nodes 0).children.map (fun c => (deref nodes c).state) :=
        List.mem_map.2 ⟨c, hc, rfl⟩
      rw [hcs] at hmem
      exact List.mem_of_mem_take hmem

theorem onChain_root (nodes : Nodes) (hpf : ParentsFirst nodes) :
    ∀ n, n < nodes.length → ∃ root, OnChain nodes n root ∧ (deref nodes root).parent = none := by
  intro n
  induction n using Nat.strong_induction_on with
  | _ n ih =>
    intro hn
    cases hp : (deref nodes n).parent with
    | none => exact ⟨n, OnChain.self n, hp⟩
    | some p =>
      have hlt := hpf n hn p hp
      obtain ⟨root, h1, h2⟩ := ih p hlt (by omega)
      exact ⟨root, OnChain.up n p root hp h1, h2⟩

theorem workerStep_terminal (uct : Int → Int → Int → Rat) (rand : Nat → Nat) (iterations : Nat)
    (hit : 100 ≤ iterations) (nd : Node) (k : Nat) (hterm : nd.state.isTerminal = true)
    (hpar : nd.parent = none) :
    workerStep uct rand iterations ([nd], k) =
      some ([credited nd nd.state.getWinner], k) := by
  have hd : deref [nd] 0 = nd := rfl
  have hdiv : ¬ iterations / 100 = 0 := by omega
  have h1 : treePolicy uct [nd] 0 = some ([nd], some 0) := by
    unfold treePolicy
    simp only [List.length_singleton]
    rw [treePolicyLoop]
    simp [hd, hterm]
  have h2 : defaultPolicy rand nd.state k = some (nd.state.getWinner, k) := by
    unfold defaultPolicy
    rw [defaultPolicyLoop]
    simp [hterm]
  have h3 : backpropagate [nd] (some 0) nd.state.getWinner =
      some [credited nd nd.state.getWinner] := by
    unfold backpropagate
    simp only [List.length_singleton]
    rw [backpropagateLoop_some, hd, hpar, backpropagateLoop]
    rfl
  unfold workerStep
  simp only [h1, hd, h2, h3, if_neg hdiv]

theorem repeatStep_count {σ : Type} (step : σ → Option σ) (P : σ → Prop) (f : σ → Int)
    (d : Int) (hstep : ∀ st, P st → ∃ st1, step st = some st1 ∧ P st1 ∧ f st1 = f st + d) :
    ∀ (n : Nat) (st : σ), P st →
      ∃ st1, repeatStep step n st = some st1 ∧ P st1 ∧ f st1 = f st + n * d
  | 0, st, h => ⟨st, rfl, h, by simp⟩
  | n + 1, st, h => by
    obtain ⟨st1, h1, h2, h3⟩ := hstep st h
    obtain ⟨st2, g1, g2, g3⟩ := repeatStep_count step P f d hstep n st1 h2
    refine ⟨st2, ?_, g2, ?_⟩
    · rw [repeatStep, h1]
      exact g1
    · rw [g3, h3]
      push_cast
      ring

theorem runWorkers_terminal (uct : Int → Int → Int → Rat) (rand : Nat → Nat) (s : GameState)
    (iterations numThreads : Nat) (hs : s.isTerminal = true) (hit : 100 ≤ iterations) :
    ∃ root k, runWorkers uct rand iterations numThreads ([Node.new s none], 0) = some ([root], k) ∧
      root.state = s ∧ root.children = [] ∧
      root.visits = (numThreads : Int) * ((iterations / numThreads : Nat) : Int) ∧
      bestChild uct [root] 0 = none ∧
      MCTS.run uct rand s iterations numThreads = none := by
  let P : Nodes × Nat → Prop := fun st =>
    ∃ nd, st.1 = [nd] ∧ nd.state = s ∧ nd.children = [] ∧ nd.parent = none
  let f : Nodes × Nat → Int := fun st => (deref st.1 0).visits
  have hstep : ∀ st, P st →
      ∃ st1, workerStep uct rand iterations st = some st1 ∧ P st1 ∧ f st1 = f st + 1 := by
    rintro ⟨nodes, k⟩ ⟨nd, h1, h2, h3, h4⟩
    simp only at h1
    subst h1
    refine ⟨_, workerStep_terminal uct rand iterations hit nd k (by rw [h2]; exact hs) h4,
      ⟨_, rfl, h2, h3, h4⟩, rfl⟩
  have hworker : ∀ st, P st →
      ∃ st1, repeatStep (workerStep uct rand iterations) (iterations / numThreads) st = some st1 ∧
        P st1 ∧ f st1 = f st + ((iterations / numThreads : Nat) : Int) := by
    intro st h
    obtain ⟨st1, g1, g2, g3⟩ := repeatStep_count _ P f 1 hstep (iterations / numThreads) st h
    exact ⟨st1, g1, g2, by rw [g3]; ring⟩
  obtain ⟨⟨nodes, k⟩, g1, ⟨nd, g2, g3, g4, _⟩, g6⟩ :=
    repeatStep_count _ P f _ hworker numThreads ([Node.new s none], 0)
      ⟨_, rfl, rfl, rfl, rfl⟩
  simp only at g2
  subst g2
  have hbest : bestChild uct [nd] 0 = none := by
    have hd : deref [nd] 0 = nd := rfl
    unfold bestChild
    rw [hd, g4]
    rfl
  have hrun : runWorkers uct rand iterations numThreads ([Node.new s none], 0) =
      some ([nd], k) := g1
  refine ⟨nd, k, hrun, g3, g4, ?_, hbest, ?_⟩
  · have hv : (deref [nd] 0).visits = nd.visits := rfl
    have h0 : (deref [Node.new s none] 0).visits = 0 := rfl
    simp only [f, hv, h0] at g6
    rw [g6]
    ring
  · unfold MCTS.run
    rw [hrun]
    simp only [hbest]

/-! ### The claims about `protype3.cpp` -/

/-- C2: `getWinner` returns `NONE` exactly when neither player has five equal
stones along one of the four lines; when it returns a player, that player has
such a five, and it is the owner of the first cell in row-major scan order that
starts a five of its own stone. -/
theorem C2_getWinner_five_in_row (s : GameState) :
    (s.getWinner = NONE ↔ ¬HasFive s.board PLAYER1 ∧ ¬HasFive s.board PLAYER2) ∧
    (s.getWinner ≠ NONE → HasFive s.board s.getWinner) ∧
    (s.getWinner ≠ NONE → ∃ i j, i < BOARD_SIZE ∧ j < BOARD_SIZE ∧
      rd s.board i j = s.getWinner ∧ FiveFrom s.board s.getWinner i j ∧
      ∀ x y, x < BOARD_SIZE → y < BOARD_SIZE → cellLt (x, y) (i, j) →
        rd s.board x y = NONE ∨ ¬FiveFrom s.board (rd s.board x y) x y) :=
  getWinner_spec s

/-- Witness of C2 on a position where PLAYER1 has the row `(7,3)..(7,7)`. -/
theorem C2_getWinner_five_in_row_witness :
    fiveRowState.getWinner ≠ NONE ∧ HasFive fiveRowState.board fiveRowState.getWinner :=
  ⟨by decide, (C2_getWinner_five_in_row fiveRowState).2.1 (by decide)⟩

/-- C7 at the failing input: on the full board without five in a row, which is
terminal, `run` with 1000 iterations and one worker builds the root, passes
through it 1000 times, finds no best child and so has no state to return. -/
theorem C7_run_on_full_board :
    fullState.isTerminal = true ∧
    ∀ (uct : Int → Int → Int → Rat) (rand : Nat → Nat),
      (∃ root k, runWorkers uct rand 1000 1 ([Node.new fullState none], 0) = some ([root], k) ∧
        root.visits = 1000 ∧ root.children = [] ∧ bestChild uct [root] 0 = none) ∧
      MCTS.run uct rand fullState 1000 1 = none := by
  have hterm : fullState.isTerminal = true := by decide
  refine ⟨hterm, fun uct rand => ?_⟩
  obtain ⟨root, k, h1, _, h3, h4, h5, h6⟩ :=
    runWorkers_terminal uct rand fullState 1000 1 hterm (by decide)
  exact ⟨⟨root, k, h1, by simpa using h4, h3, h5⟩, h6⟩

theorem backpropagateIntLoop_some (fuel : Nat) (nodes : Nodes) (n : Nat) (result : Player)
    (hv : (deref nodes n).visits < INT_MAX)
    (hw : (deref nodes n).state.currentPlayer ≠ result → (deref nodes n).wins < INT_MAX) :
    backpropagateIntLoop (fuel + 1) nodes (some n) result =
      backpropagateIntLoop fuel (nodes.set n (credited (deref nodes n) result))
        (deref nodes n).parent result := by
  rw [backpropagateIntLoop]
  unfold credited
  by_cases h : (deref nodes n).state.currentPlayer ≠ result
  · simp [increment, hv, hw h, h]
  · simp [increment, hv, h]

theorem backpropagateIntLoop_none (fuel : Nat) (nodes : Nodes) (result : Player) :
    backpropagateIntLoop fuel nodes none result = backpropagateLoop fuel nodes none result := by
  cases fuel with
  | zero => rw [backpropagateIntLoop, backpropagateLoop]
  | succ f => rw [backpropagateIntLoop, backpropagateLoop]

theorem backpropagateIntLoop_eq : ∀ (fuel : Nat) (nodes : Nodes) (n : Nat) (result : Player),
    ParentsFirst nodes → n < nodes.length → NoOverflow nodes n result →
    backpropagateIntLoop fuel nodes (some n) result = backpropagateLoop fuel nodes (some n) result
  | 0, _, _, _, _, _, _ => by rw [backpropagateIntLoop, backpropagateLoop]
  | fuel + 1, nodes, n, result, hpf, hn, hb => by
    rw [backpropagateIntLoop_some fuel nodes n result (hb n (OnChain.self n)).1
      (hb n (OnChain.self n)).2, backpropagateLoop_some]
    have hparents : ∀ k, (deref (nodes.set n (credited (deref nodes n) result)) k).parent =
        (deref nodes k).parent := by
      intro k
      rw [deref_set]
      split_ifs with h
      · rw [h.1]
        rfl
      · rfl
    cases hp : (deref nodes n).parent with
    | none => exact backpropagateIntLoop_none _ _ _
    | some p =>
      have hlt := hpf n hn p hp
      have hpf1 : ParentsFirst (nodes.set n (credited (deref nodes n) result)) := by
        intro k hk q hq
        rw [hparents] at hq
        exact hpf k (by simpa using hk) q hq
      apply backpropagateIntLoop_eq fuel _ p result hpf1 (by simp; omega)
      intro m hm
      have hm1 : OnChain nodes p m :=
        (onChain_congr nodes (nodes.set n (credited (deref nodes n) result)) hparents p m).1 hm
      have hle := onChain_le nodes hpf p m hm1 (by omega)
      rw [deref_set_ne nodes n m _ (by omega)]
      exact hb m (OnChain.up n p m hp hm1)

theorem backpropagateInt_eq (nodes : Nodes) (n : Nat) (result : Player)
    (hpf : ParentsFirst nodes) (hn : n < nodes.length) (hb : NoOverflow nodes n result) :
    backpropagateInt nodes (some n) result = backpropagate nodes (some n) result :=
  backpropagateIntLoop_eq (nodes.length + 1) nodes n result hpf hn hb

/-- The loop with `int` counters refines the loop with unbounded counters: a
result of the first is the result of the second. -/
theorem backpropagateIntLoop_refines : ∀ (fuel : Nat) (nodes : Nodes) (node : Option Nat)
    (result : Player) (nodes1 : Nodes),
    backpropagateIntLoop fuel nodes node result = some nodes1 →
    backpropagateLoop fuel nodes node result = some nodes1
  | 0, _, _, _, _, h => by rw [backpropagateIntLoop] at h; cases h
  | fuel + 1, nodes, none, result, nodes1, h => by
    rw [backpropagateIntLoop] at h
    rw [backpropagateLoop]
    exact h
  | fuel + 1, nodes, some n, result, nodes1, h => by
    by_cases hv : (deref nodes n).visits < INT_MAX
    · by_cases hw : (deref nodes n).state.currentPlayer ≠ result → (deref nodes n).wins < INT_MAX
      · rw [backpropagateIntLoop_some fuel nodes n result hv hw] at h
        rw [backpropagateLoop_some]
        exact backpropagateIntLoop_refines fuel _ _ result nodes1 h
      · have hne : (deref nodes n).state.currentPlayer ≠ result := fun e => hw (fun k => absurd e k)
        have hw2 : ¬(deref nodes n).wins < INT_MAX := fun k => hw (fun _ => k)
        rw [backpropagateIntLoop] at h
        simp [increment, hv, hw2, hne] at h
    · rw [backpropagateIntLoop] at h
      simp [increment, hv] at h

theorem backpropagateInt_refines (nodes : Nodes) (node : Option Nat) (result : Player)
    (nodes1 : Nodes) (h : backpropagateInt nodes node result = some nodes1) :
    backpropagate nodes node result = some nodes1 :=
  backpropagateIntLoop_refines (nodes.length + 1) nodes node result nodes1 h

/-- C9 as amended: on nodes whose parents were allocated first and on which no
increment overflows (`NoOverflow`), `backpropagate(n, r)` returns; it adds 1 to
`visits` of exactly the nodes on the parent chain of `n`, which ends in a node
without parent, adds 1 to `wins` of those among them whose state has a
`currentPlayer` other than `r`, and changes nothing else. -/
theorem C9_backpropagate_credits_chain (nodes : Nodes) (n : Nat) (result : Player)
    (hpf : ParentsFirst nodes) (hn : n < nodes.length) (hb : NoOverflow nodes n result) :
    ∃ nodes1, backpropagateInt nodes (some n) result = some nodes1 ∧
      nodes1.length = nodes.length ∧
      (∃ root, OnChain nodes n root ∧ (deref nodes root).parent = none) ∧
      ∀ m, (deref nodes1 m).state = (deref nodes m).state ∧
        (deref nodes1 m).children = (deref nodes m).children ∧
        (deref nodes1 m).parent = (deref nodes m).parent ∧
        (OnChain nodes n m →
          (deref nodes1 m).visits = (deref nodes m).visits + 1 ∧
          (deref nodes1 m).visits ≤ INT_MAX ∧
          (deref nodes1 m).wins =
            (deref nodes m).wins + if (deref nodes m).state.currentPlayer ≠ result then 1 else 0) ∧
        (¬OnChain nodes n m →
          (deref nodes1 m).visits = (deref nodes m).visits ∧
          (deref nodes1 m).wins = (deref nodes m).wins) := by
  obtain ⟨nodes1, h1, h2, h3⟩ := backpropagate_spec nodes n result hpf hn
  rw [← backpropagateInt_eq nodes n result hpf hn hb] at h1
  refine ⟨nodes1, h1, h2, onChain_root nodes hpf n hn, ?_⟩
  intro m
  by_cases hc : OnChain nodes n m
  · have h := (h3 m).1 hc
    have hv := (hb m hc).1
    refine ⟨by rw [h]; rfl, by rw [h]; rfl, by rw [h]; rfl, fun _ => ⟨by rw [h]; rfl, ?_, ?_⟩,
      fun hnc => absurd hc hnc⟩
    · rw [h]
      simp only [credited]
      omega
    · rw [h]
      simp only [credited]
      split_ifs <;> simp
  · have h := (h3 m).2 hc
    exact ⟨by rw [h], by rw [h], by rw [h], fun hc2 => absurd hc2 hc, fun _ => ⟨by rw [h], by rw [h]⟩⟩

theorem chainNodes_parentsFirst : ParentsFirst chainNodes := by
  intro n hn p hp
  have h3 : n < 3 := hn
  interval_cases n
  · simp [deref, chainNodes] at hp
  · simp [deref, chainNodes] at hp
    omega
  · simp [deref, chainNodes] at hp
    omega

theorem chainNodes_noOverflow (result : Player) : NoOverflow chainNodes 2 result := by
  intro m _
  have h : ∀ k, (deref chainNodes k).visits < INT_MAX ∧ (deref chainNodes k).wins < INT_MAX := by
    intro k
    match k with
    | 0 => decide
    | 1 => decide
    | 2 => decide
    | k + 3 => simp [deref, chainNodes, Node.new, INT_MAX]
  exact ⟨(h m).1, fun _ => (h m).2⟩

/-- Witness of C9: a draw propagated from the grandchild of a three-node
chain. -/
theorem C9_backpropagate_credits_chain_witness :
    ParentsFirst chainNodes ∧ 2 < chainNodes.length ∧ NoOverflow chainNodes 2 NONE ∧
    ∃ nodes1, backpropagateInt chainNodes (some 2) NONE = some nodes1 ∧
      nodes1.length = chainNodes.length ∧
      (∃ root, OnChain chainNodes 2 root ∧ (deref chainNodes root).parent = none) ∧
      ∀ m, (deref nodes1 m).state = (deref chainNodes m).state ∧
        (deref nodes1 m).children = (deref chainNodes m).children ∧
        (deref nodes1 m).parent = (deref chainNodes m).parent ∧
        (OnChain chainNodes 2 m →
          (deref nodes1 m).visits = (deref chainNodes m).visits + 1 ∧
          (deref nodes1 m).visits ≤ INT_MAX ∧
          (deref nodes1 m).wins =
            (deref chainNodes m).wins +
              if (deref chainNodes m).state.currentPlayer ≠ NONE then 1 else 0) ∧
        (¬OnChain chainNodes 2 m →
          (deref nodes1 m).visits = (deref chainNodes m).visits ∧
          (deref nodes1 m).wins = (deref chainNodes m).wins) :=
  ⟨chainNodes_parentsFirst, by decide, chainNodes_noOverflow NONE,
    C9_backpropagate_credits_chain chainNodes 2 NONE chainNodes_parentsFirst (by decide)
      (chainNodes_noOverflow NONE)⟩

/-- C9 as stated fails: on the single root of `overflowNodes`, whose `visits`
holds `INT_MAX`, `node->visits++` overflows and `backpropagate` has no result;
counted without bound, `visits` would become `INT_MAX + 1`, which no `int`
holds. -/
theorem C9_counterexample :
    ParentsFirst overflowNodes ∧ 0 < overflowNodes.length ∧
    (deref overflowNodes 0).visits = INT_MAX ∧
    (backpropagateInt overflowNodes (some 0) PLAYER1).isNone = true ∧
    (backpropagate overflowNodes (some 0) PLAYER1).map (fun nodes1 => (deref nodes1 0).visits) =
      some (INT_MAX + 1) := by
  refine ⟨?_, by decide, by decide, by decide, by decide⟩
  intro n hn p hp
  have h1 : n < 1 := hn
  interval_cases n
  simp [deref, overflowNodes] at hp

/-- C10: with PLAYER1 or PLAYER2 to move, `getPossibleMoves` returns the
successors of the empty cells in row-major order, one each, with pairwise
different boards; the successor for a cell holds the mover's stone there, has
every other cell unchanged, and has the other player to move. -/
theorem C10_getPossibleMoves_successors (s : GameState)
    (hp : s.currentPlayer = PLAYER1 ∨ s.currentPlayer = PLAYER2) :
    s.getPossibleMoves = (emptyCells s.board).map (successorAt s) ∧
    (emptyCells s.board).Pairwise cellLt ∧
    (∀ c : Nat × Nat, c ∈ emptyCells s.board ↔
      c.1 < BOARD_SIZE ∧ c.2 < BOARD_SIZE ∧ rd s.board c.1 c.2 = NONE) ∧
    s.getPossibleMoves.length = (emptyCells s.board).length ∧
    s.getPossibleMoves.Pairwise (fun a b => a.board ≠ b.board) ∧
    (∀ c ∈ emptyCells s.board,
      (successorAt s c).currentPlayer = otherPlayer s.currentPlayer ∧
      (successorAt s c).currentPlayer ≠ s.currentPlayer ∧
      rd (successorAt s c).board c.1 c.2 = s.currentPlayer ∧
      ∀ x y : Nat, (x, y) ≠ c → rd (successorAt s c).board x y = rd s.board x y) :=
  getPossibleMoves_spec s hp

/-- Witness of C10 on a position with two empty cells. -/
theorem C10_getPossibleMoves_successors_witness :
    (twoHoleState.currentPlayer = PLAYER1 ∨ twoHoleState.currentPlayer = PLAYER2) ∧
    twoHoleState.getPossibleMoves.length = (emptyCells twoHoleState.board).length :=
  ⟨Or.inl rfl, (C10_getPossibleMoves_successors twoHoleState (Or.inl rfl)).2.2.2.1⟩

/-! ### Terminal states, reads and the game loop -/

theorem rd_of_lt3 (board : Board) {i j : Nat} (hi : i < BOARD_SIZE) (hj : j < BOARD_SIZE) :
    rd board i j = board ⟨i, hi⟩ ⟨j, hj⟩ := by
  simp [rd, hi, hj]

theorem emptyCells_eq_nil3 (board : Board) :
    emptyCells board = [] ↔ ∀ x y : Fin BOARD_SIZE, board x y ≠ NONE := by
  rw [List.eq_nil_iff_forall_not_mem]
  constructor
  · intro h x y hxy
    refine h (x.val, y.val) ((mem_emptyCells3 board _).2 ⟨x.isLt, y.isLt, ?_⟩)
    rw [rd_of_lt3 board x.isLt y.isLt]
    exact hxy
  · intro h c hc
    obtain ⟨h1, h2, h3⟩ := (mem_emptyCells3 board c).1 hc
    rw [rd_of_lt3 board h1 h2] at h3
    exact h _ _ h3

theorem isTerminal_iff (s : GameState) :
    s.isTerminal = true ↔ s.getWinner ≠ NONE ∨ ∀ x y : Fin BOARD_SIZE, s.board x y ≠ NONE := by
  unfold GameState.isTerminal GameState.getWinner
  rw [Bool.or_eq_true, ← emptyCells_eq_nil3, getPossibleMoves_eq]
  simp only [bne_iff_ne, ne_eq, List.isEmpty_eq_true, List.map_eq_nil_iff]

theorem checkDirectionSteps_inBoard (board : Board) (start : Player) (x y : Nat) (dx dy : Int) :
    ∀ steps : List Nat,
      ∀ rc ∈ (checkDirectionSteps board start x y dx dy steps).2, InBoard rc
  | [], rc, h => by simp [checkDirectionSteps] at h
  | step :: steps, rc, h => by
    unfold checkDirectionSteps at h
    simp only at h
    split_ifs at h with h1 h2
    · simp at h
    · simp only [List.mem_singleton] at h
      rw [h]
      simp only [InBoard]
      omega
    · rcases List.mem_cons.1 h with rfl | h
      · simp only [InBoard]
        omega
      · exact checkDirectionSteps_inBoard board start x y dx dy steps rc h

theorem checkDirectionReads_inBoard (board : Board) (x y : Nat) (dx dy : Int)
    (hx : x < BOARD_SIZE) (hy : y < BOARD_SIZE) :
    ∀ rc ∈ (checkDirectionReads board x y dx dy).2, InBoard rc := by
  have hx2 : x < 15 := hx
  have hy2 : y < 15 := hy
  intro rc h
  unfold checkDirectionReads at h
  rcases List.mem_cons.1 h with rfl | h
  · simp only [InBoard, BOARD_SIZE]
    push_cast
    omega
  · exact checkDirectionSteps_inBoard board _ x y dx dy _ rc h

theorem checkDirectionSteps_value (board : Board) (start : Player) (x y : Nat) (dx dy : Int) :
    ∀ steps : List Nat,
      (checkDirectionSteps board start x y dx dy steps).1 =
        steps.all fun (step : Nat) =>
          !(decide ((x : Int) + (step : Int) * dx < 0) || decide ((y : Int) + (step : Int) * dy < 0) ||
            decide ((x : Int) + (step : Int) * dx ≥ (BOARD_SIZE : Int)) ||
            decide ((y : Int) + (step : Int) * dy ≥ (BOARD_SIZE : Int)) ||
            rd board ((x : Int) + (step : Int) * dx).toNat ((y : Int) + (step : Int) * dy).toNat !=
              start)
  | [] => rfl
  | step :: steps => by
    unfold checkDirectionSteps
    rw [List.all_cons]
    simp only
    by_cases h1 : (x : Int) + (step : Int) * dx < 0 ∨ (y : Int) + (step : Int) * dy < 0 ∨
        (x : Int) + (step : Int) * dx ≥ (BOARD_SIZE : Int) ∨
        (y : Int) + (step : Int) * dy ≥ (BOARD_SIZE : Int)
    · have hg : (decide ((x : Int) + (step : Int) * dx < 0) ||
          decide ((y : Int) + (step : Int) * dy < 0) ||
          decide ((x : Int) + (step : Int) * dx ≥ (BOARD_SIZE : Int)) ||
          decide ((y : Int) + (step : Int) * dy ≥ (BOARD_SIZE : Int))) = true := by
        simpa [Bool.or_eq_true, or_assoc] using h1
      rw [if_pos h1, hg]
      rfl
    · have hg : (decide ((x : Int) + (step : Int) * dx < 0) ||
          decide ((y : Int) + (step : Int) * dy < 0) ||
          decide ((x : Int) + (step : Int) * dx ≥ (BOARD_SIZE : Int)) ||
          decide ((y : Int) + (step : Int) * dy ≥ (BOARD_SIZE : Int))) = false := by
        rw [Bool.eq_false_iff]
        intro hc
        apply h1
        simpa [Bool.or_eq_true, or_assoc] using hc
      rw [if_neg h1, hg]
      by_cases h2 : rd board ((x : Int) + (step : Int) * dx).toNat
          ((y : Int) + (step : Int) * dy).toNat ≠ start
      · have hb : (rd board ((x : Int) + (step : Int) * dx).toNat
            ((y : Int) + (step : Int) * dy).toNat != start) = true := by
          simpa using h2
        rw [if_pos h2, hb]
        rfl
      · have hb : (rd board ((x : Int) + (step : Int) * dx).toNat
            ((y : Int) + (step : Int) * dy).toNat != start) = false := by
          simpa using h2
        rw [if_neg h2, hb, checkDirectionSteps_value board start x y dx dy steps]
        rfl

theorem checkDirectionReads_value (board : Board) (x y : Nat) (dx dy : Int) :
    (checkDirectionReads board x y dx dy).1 = checkDirection board x y dx dy := by
  unfold checkDirectionReads checkDirection
  simp only
  rw [checkDirectionSteps_value]

theorem playerMove_out_of_range (g : GameState) (x y : Int)
    (h : ¬(0 ≤ x ∧ x < (BOARD_SIZE : Int) ∧ 0 ≤ y ∧ y < (BOARD_SIZE : Int))) :
    Gomoku.playerMove g x y = none := by
  unfold Gomoku.playerMove readCell
  rw [if_neg h]

theorem playerMove_occupied (g : GameState) (x y : Nat) (hx : x < BOARD_SIZE)
    (hy : y < BOARD_SIZE) (h : rd g.board x y ≠ NONE) :
    Gomoku.playerMove g x y = some (g, true) := by
  have hx2 : x < 15 := hx
  have hy2 : y < 15 := hy
  have hr : (0 : Int) ≤ x ∧ (x : Int) < (BOARD_SIZE : Int) ∧ (0 : Int) ≤ y ∧
      (y : Int) < (BOARD_SIZE : Int) := by
    simp only [BOARD_SIZE]
    push_cast
    omega
  unfold Gomoku.playerMove readCell
  rw [if_pos hr]
  simp only [Int.toNat_ofNat, h, if_false]

theorem playerMove_empty (g : GameState) (x y : Nat) (hx : x < BOARD_SIZE)
    (hy : y < BOARD_SIZE) (h : rd g.board x y = NONE) :
    Gomoku.playerMove g x y =
      some ({ board := wr g.board x y PLAYER1, currentPlayer := PLAYER2 }, false) := by
  have hx2 : x < 15 := hx
  have hy2 : y < 15 := hy
  have hr : (0 : Int) ≤ x ∧ (x : Int) < (BOARD_SIZE : Int) ∧ (0 : Int) ≤ y ∧
      (y : Int) < (BOARD_SIZE : Int) := by
    simp only [BOARD_SIZE]
    push_cast
    omega
  unfold Gomoku.playerMove readCell
  rw [if_pos hr]
  simp only [Int.toNat_ofNat, h, if_true]

/-- After an input that targets an occupied cell the pass still runs the search
and places a stone of the player to move. -/
theorem mainPass_occupied (uct : Int → Int → Int → Rat) (rand : Nat → Nat) (numThreads : Nat)
    (g : GameState) (x y : Nat) (hx : x < BOARD_SIZE) (hy : y < BOARD_SIZE)
    (hocc : rd g.board x y ≠ NONE) (hterm : g.isTerminal = false)
    (hp : g.currentPlayer = PLAYER1 ∨ g.currentPlayer = PLAYER2)
    (h1 : 1 ≤ numThreads) (h2 : numThreads ≤ 1000) :
    ∃ ending after, mainPass uct rand numThreads g x y = some (ending, after) ∧
      ∃ i j, i < BOARD_SIZE ∧ j < BOARD_SIZE ∧ rd g.board i j = NONE ∧
        rd after.board i j = g.currentPlayer := by
  have hne : g.currentPlayer ≠ NONE := by
    rcases hp with h | h <;> simp [h]
  have hwin : g.getWinner = NONE := by
    by_contra hw
    have := (isTerminal_iff g).2 (Or.inl hw)
    rw [hterm] at this
    cases this
  obtain ⟨next, hrun, hmem⟩ := run_spec uct rand g 1000 numThreads hterm hne h1
    (max_le (by omega) h2)
  obtain ⟨heq, _, hcells, _, _, hcell⟩ := getPossibleMoves_spec g hp
  rw [heq] at hmem
  obtain ⟨c, hc, rfl⟩ := List.mem_map.1 hmem
  obtain ⟨hc1, hc2, hc3⟩ := (hcells c).1 hc
  obtain ⟨_, _, g3, _⟩ := hcell c hc
  have hai : Gomoku.aiMove uct rand g numThreads =
      some { successorAt g c with currentPlayer := PLAYER1 } := by
    unfold Gomoku.aiMove
    rw [hrun]
  unfold mainPass
  rw [playerMove_occupied g x y hx hy hocc]
  simp only [hwin, ne_eq, not_true_eq_false, if_false, hai]
  split_ifs
  · exact ⟨_, _, rfl, c.1, c.2, hc1, hc2, hc3, g3⟩
  · exact ⟨_, _, rfl, c.1, c.2, hc1, hc2, hc3, g3⟩

/-! ### One call of `expand` -/

theorem expand_next (nodes : Nodes) (n : Nat) (hn : n < nodes.length)
    (hp : (deref nodes n).state.currentPlayer ≠ NONE)
    (hcs : (deref nodes n).children.map (fun c => (deref nodes c).state) =
      (deref nodes n).state.getPossibleMoves.take (deref nodes n).children.length)
    (hk : (deref nodes n).children.length < (deref nodes n).state.getPossibleMoves.length) :
    expand nodes n =
      (grow nodes n ((deref nodes n).state.getPossibleMoves[(deref nodes n).children.length]),
        some nodes.length) := by
  have hpred : (fun move : GameState =>
      !((deref nodes n).children.any fun child =>
        boardEq (deref nodes child).state.board move.board)) =
      fun move => !(((deref nodes n).state.getPossibleMoves.take
        (deref nodes n).children.length).any fun s => boardEq s.board move.board) := by
    funext move
    rw [← hcs, any_map_state]
  have hfind := find_first_new (deref nodes n).state.getPossibleMoves
    (getPossibleMoves_pairwise _ hp) _ hk
  unfold expand
  simp only [hpred, hfind]
  unfold grow
  rw [deref_append, if_neg (by omega)]

theorem expand_none_of_all (nodes : Nodes) (n : Nat)
    (hall : (deref nodes n).children.map (fun c => (deref nodes c).state) =
      (deref nodes n).state.getPossibleMoves) :
    expand nodes n = (nodes, none) := by
  have hfind : (deref nodes n).state.getPossibleMoves.find? (fun move =>
      !((deref nodes n).children.any fun child =>
        boardEq (deref nodes child).state.board move.board)) = none := by
    rw [List.find?_eq_none]
    intro move hmove
    rw [← hall] at hmove
    obtain ⟨c, hc, rfl⟩ := List.mem_map.1 hmove
    have hany : ((deref nodes n).children.any fun child =>
        boardEq (deref nodes child).state.board (deref nodes c).state.board) = true :=
      List.any_eq_true.2 ⟨c, hc, (boardEq_iff _ _).2 rfl⟩
    simp [hany]
  unfold expand
  simp only [hfind]

theorem twoHole_cells : emptyCells (patternBoard [(0, 0), (0, 1)]) = [(0, 0), (0, 1)] := by
  decide

/-! ### The playout -/

theorem emptyCount_newState (s : GameState) (hp : s.currentPlayer ≠ NONE) (c : Nat × Nat)
    (hc : c ∈ emptyCells s.board) :
    emptyCount (newState s c.1 c.2).board + 1 = emptyCount s.board := by
  obtain ⟨hc1, hc2, hc3⟩ := (mem_emptyCells3 s.board c).1 hc
  have hnot : c ∉ emptyCells (newState s c.1 c.2).board := by
    intro h
    have := ((mem_emptyCells3 _ c).1 h).2.2
    simp only [newState, rd_wr3, hc1, hc2, and_self, if_true] at this
    exact hp this
  have hnd : (c :: emptyCells (newState s c.1 c.2).board).Nodup :=
    List.nodup_cons.2 ⟨hnot, emptyCells_nodup _⟩
  have hperm : (c :: emptyCells (newState s c.1 c.2).board).Perm (emptyCells s.board) := by
    rw [List.perm_ext_iff_of_nodup hnd (emptyCells_nodup _)]
    intro d
    constructor
    · intro hd
      rcases List.mem_cons.1 hd with rfl | hd
      · exact hc
      · obtain ⟨h1, h2, h3⟩ := (mem_emptyCells3 _ d).1 hd
        refine (mem_emptyCells3 _ d).2 ⟨h1, h2, ?_⟩
        simp only [newState, rd_wr3] at h3
        split_ifs at h3 with h4
        · exact absurd h3 hp
        · exact h3
    · intro hd
      by_cases hdc : d = c
      · rw [hdc]
        exact List.mem_cons_self _ _
      · refine List.mem_cons_of_mem _ ((mem_emptyCells3 _ d).2 ?_)
        obtain ⟨h1, h2, h3⟩ := (mem_emptyCells3 _ d).1 hd
        refine ⟨h1, h2, ?_⟩
        have hne : ¬(d.1 = c.1 ∧ d.2 = c.2 ∧ d.1 < BOARD_SIZE ∧ d.2 < BOARD_SIZE) := by
          rintro ⟨e1, e2, _⟩
          exact hdc (Prod.ext e1 e2)
        simp only [newState, rd_wr3, if_neg hne]
        exact h3
  have := hperm.length_eq
  simp only [List.length_cons] at this
  unfold emptyCount
  omega

theorem getPossibleMoves_length (s : GameState) :
    s.getPossibleMoves.length = emptyCount s.board := by
  rw [getPossibleMoves_eq, List.length_map]
  rfl

theorem newState_keeps_stones (s : GameState) (c : Nat × Nat) (hc : c ∈ emptyCells s.board)
    (x y : Nat) (h : rd s.board x y ≠ NONE) :
    rd (newState s c.1 c.2).board x y = rd s.board x y := by
  obtain ⟨_, _, hc3⟩ := (mem_emptyCells3 s.board c).1 hc
  have hne : ¬(x = c.1 ∧ y = c.2 ∧ x < BOARD_SIZE ∧ y < BOARD_SIZE) := by
    rintro ⟨e1, e2, _⟩
    subst e1 e2
    exact h hc3
  simp only [newState, rd_wr3, if_neg hne]

theorem mem_getPossibleMoves (s m : GameState) (hm : m ∈ s.getPossibleMoves) :
    ∃ c ∈ emptyCells s.board, newState s c.1 c.2 = m := by
  rw [getPossibleMoves_eq] at hm
  exact List.mem_map.1 hm

theorem defaultPolicyLoop_spec (rand : Nat → Nat) :
    ∀ (fuel : Nat) (state : GameState) (k : Nat), state.currentPlayer ≠ NONE →
      emptyCount state.board < fuel →
      ∃ (final : GameState) (k1 : Nat), defaultPolicyLoop rand fuel state k = some (final.getWinner, k1) ∧
        Playout rand state k final k1 ∧ final.isTerminal = true ∧ k ≤ k1 ∧
        emptyCount final.board + (k1 - k) = emptyCount state.board ∧
        (∀ x y, rd state.board x y ≠ NONE → rd final.board x y = rd state.board x y) ∧
        (state.isTerminal = true → final = state ∧ k1 = k)
  | 0, _, _, _, hf => by omega
  | fuel + 1, state, k, hp, hf => by
    rw [defaultPolicyLoop]
    by_cases hterm : state.isTerminal = true
    · simp only [hterm, Bool.not_true, Bool.false_eq_true, if_false]
      exact ⟨state, k, rfl, Playout.done state k, hterm, le_refl _, by simp,
        fun _ _ _ => rfl, fun _ => ⟨rfl, rfl⟩⟩
    · have hterm2 : state.isTerminal = false := by simpa using hterm
      simp only [hterm2, Bool.not_false, if_true]
      have hmoves := not_terminal_moves _ hterm2
      have hpos : 0 < state.getPossibleMoves.length := List.length_pos.2 hmoves
      have hidx : rand k % state.getPossibleMoves.length < state.getPossibleMoves.length :=
        Nat.mod_lt _ hpos
      have hget : state.getPossibleMoves[rand k % state.getPossibleMoves.length]? =
          some (state.getPossibleMoves[rand k % state.getPossibleMoves.length]) :=
        List.getElem?_eq_getElem hidx
      have hmem : state.getPossibleMoves[rand k % state.getPossibleMoves.length] ∈
          state.getPossibleMoves := List.getElem_mem _
      obtain ⟨c, hc, hce⟩ := mem_getPossibleMoves state _ hmem
      have hcount := emptyCount_newState state hp c hc
      rw [hce] at hcount
      obtain ⟨final, k1, g1, g2, g3, g4, g5, g6, _⟩ :=
        defaultPolicyLoop_spec rand fuel _ (k + 1) (getPossibleMoves_mover _ _ hmem) (by omega)
      rw [hget]
      simp only
      refine ⟨final, k1, g1, Playout.step state k _ final k1 hterm2 hget g2, g3, by omega,
        by omega, ?_, fun h => by cases h⟩
      intro x y hxy
      have hkeep := newState_keeps_stones state c hc x y hxy
      rw [hce] at hkeep
      rw [g6 x y (by rw [hkeep]; exact hxy), hkeep]

theorem defaultPolicy_spec (rand : Nat → Nat) (state : GameState) (k : Nat)
    (hp : state.currentPlayer ≠ NONE) :
    ∃ (final : GameState) (k1 : Nat), defaultPolicy rand state k = some (final.getWinner, k1) ∧
      Playout rand state k final k1 ∧ final.isTerminal = true ∧ k ≤ k1 ∧
      emptyCount final.board + (k1 - k) = emptyCount state.board ∧
      (∀ x y, rd state.board x y ≠ NONE → rd final.board x y = rd state.board x y) ∧
      (state.isTerminal = true → final = state ∧ k1 = k) :=
  defaultPolicyLoop_spec rand _ state k hp (by rw [getPossibleMoves_length]; omega)

theorem wr_same3 (b : Board) (i j : Nat) (h : rd b i j = NONE) : wr b i j NONE = b := by
  funext x y
  simp only [wr]
  by_cases hxy : x.val = i ∧ y.val = j
  · simp only [hxy, and_self, if_true]
    obtain ⟨rfl, rfl⟩ := hxy
    rw [← h]
    simp [rd]
  · simp [hxy]

/-- The rounds given to `defaultPolicy` are enough for every state. -/
theorem defaultPolicy_total (rand : Nat → Nat) (state : GameState) (k : Nat) :
    ∃ result k1, defaultPolicy rand state k = some (result, k1) := by
  by_cases hp : state.currentPlayer = NONE
  · unfold defaultPolicy
    rw [defaultPolicyLoop]
    by_cases hterm : state.isTerminal = true
    · simp only [hterm, Bool.not_true, Bool.false_eq_true, if_false]
      exact ⟨_, _, rfl⟩
    · have hterm2 : state.isTerminal = false := by simpa using hterm
      simp only [hterm2, Bool.not_false, if_true]
      have hmoves := not_terminal_moves _ hterm2
      have hidx : rand k % state.getPossibleMoves.length < state.getPossibleMoves.length :=
        Nat.mod_lt _ (List.length_pos.2 hmoves)
      have hmem : state.getPossibleMoves[rand k % state.getPossibleMoves.length] ∈
          state.getPossibleMoves := List.getElem_mem _
      obtain ⟨c, hc, hce⟩ := mem_getPossibleMoves state _ hmem
      have hboard : (newState state c.1 c.2).board = state.board := by
        simp only [newState, hp]
        exact wr_same3 _ _ _ ((mem_emptyCells3 _ c).1 hc).2.2
      rw [hce] at hboard
      rw [List.getElem?_eq_getElem hidx]
      simp only
      obtain ⟨final, k1, g1, _⟩ := defaultPolicyLoop_spec rand
        (state.getPossibleMoves.length + 1) _ (k + 1) (getPossibleMoves_mover _ _ hmem)
        (by rw [hboard, getPossibleMoves_length]; omega)
      exact ⟨_, _, g1⟩
  · obtain ⟨final, k1, g1, _⟩ := defaultPolicy_spec rand state k hp
    exact ⟨_, _, g1⟩

/-! ### The invariant of the tree -/

/-- C11 at the failing inputs: on the initial game `playerMove(15, 0)` and
`playerMove(0, -1)` read `board[x][y]` outside the vector and so have no defined
result, while `playerMove(7, 7)` places a PLAYER1 stone and passes the turn. -/
theorem C11_playerMove_reads_outside :
    Gomoku.playerMove GameState.new 15 0 = none ∧
    Gomoku.playerMove GameState.new 0 (-1) = none ∧
    Gomoku.playerMove GameState.new 7 7 =
      some ({ board := wr GameState.new.board 7 7 PLAYER1, currentPlayer := PLAYER2 }, false) :=
  ⟨playerMove_out_of_range _ _ _ (by decide), playerMove_out_of_range _ _ _ (by decide),
    playerMove_empty GameState.new 7 7 (by decide) (by decide) (by decide)⟩

/-- C12 at the failing input: in `replayState` the input `7 7` targets an
occupied cell; `playerMove` reports it and changes nothing, yet the pass goes on
to `aiMove`, which runs the search and puts a stone of PLAYER1, the player still
to move, on a cell that was empty. -/
theorem C12_occupied_input_runs_search :
    replayState.isTerminal = false ∧
    Gomoku.playerMove replayState 7 7 = some (replayState, true) ∧
    ∀ (uct : Int → Int → Int → Rat) (rand : Nat → Nat),
      ∃ ending after, mainPass uct rand 4 replayState 7 7 = some (ending, after) ∧
        ∃ i j, i < BOARD_SIZE ∧ j < BOARD_SIZE ∧ rd replayState.board i j = NONE ∧
          rd after.board i j = PLAYER1 := by
  have hterm : replayState.isTerminal = false := by decide
  refine ⟨hterm, playerMove_occupied replayState 7 7 (by decide) (by decide) (by decide), ?_⟩
  intro uct rand
  exact mainPass_occupied uct rand 4 replayState 7 7 (by decide) (by decide) (by decide) hterm
    (Or.inl rfl) (by decide) (by decide)

/-- C13: `isBoardFull` is true exactly when no cell is EMPTY, so it is false on
a board with exactly one empty cell; `isTerminal` is true exactly when
`getWinner` is not `NONE` or no cell is `NONE`. -/
theorem C13_full_and_terminal :
    (∀ board : Protype.Board,
      Protype.isBoardFull board = true ↔ ∀ x y : Fin Protype.SIZE, board x y ≠ Protype.EMPTY) ∧
    (∀ (board : Protype.Board) (x0 y0 : Fin Protype.SIZE), board x0 y0 = Protype.EMPTY →
      (∀ x y : Fin Protype.SIZE, (x, y) ≠ (x0, y0) → board x y ≠ Protype.EMPTY) →
      Protype.isBoardFull board = false) ∧
    (∀ s : GameState,
      s.isTerminal = true ↔ s.getWinner ≠ NONE ∨ ∀ x y : Fin BOARD_SIZE, s.board x y ≠ NONE) := by
  refine ⟨Protype.isBoardFull_iff, ?_, isTerminal_iff⟩
  intro board x0 y0 h0 _
  cases h : Protype.isBoardFull board with
  | false => rfl
  | true => exact absurd h0 ((Protype.isBoardFull_iff board).1 h x0 y0)

/-- Witness of C13 on the board whose only empty cell is `(0, 0)`. -/
theorem C13_full_and_terminal_witness :
    Protype.lastCellBoard 0 0 = Protype.EMPTY ∧
    (∀ x y : Fin Protype.SIZE, (x, y) ≠ (0, 0) → Protype.lastCellBoard x y ≠ Protype.EMPTY) ∧
    Protype.isBoardFull Protype.lastCellBoard = false :=
  ⟨by decide, by decide,
    C13_full_and_terminal.2.1 Protype.lastCellBoard 0 0 (by decide) (by decide)⟩

/-- C16 as amended: when the children of a node hold the first `k` successors of
its state, a player is to move there, and `k` is less than the number of
successors, `expand` returns a new node holding successor number `k`, with the
node as parent, no children and `wins = visits = 0`, appended to the children of
the node, and leaves every other node as it was; when `k` is the number of
successors, `expand` returns `nullptr` and creates nothing. -/
theorem C16_expand_adds_next_successor (nodes : Nodes) (n : Nat) (hn : n < nodes.length)
    (hp : (deref nodes n).state.currentPlayer = PLAYER1 ∨
      (deref nodes n).state.currentPlayer = PLAYER2)
    (hcs : (deref nodes n).children.map (fun c => (deref nodes c).state) =
      (deref nodes n).state.getPossibleMoves.take (deref nodes n).children.length) :
    (∀ hk : (deref nodes n).children.length < (deref nodes n).state.getPossibleMoves.length,
      (expand nodes n).2 = some nodes.length ∧
      (expand nodes n).1.length = nodes.length + 1 ∧
      deref (expand nodes n).1 nodes.length =
        { state := (deref nodes n).state.getPossibleMoves[(deref nodes n).children.length],
          parent := some n, children := [], wins := 0, visits := 0 } ∧
      deref (expand nodes n).1 n =
        { deref nodes n with children := (deref nodes n).children ++ [nodes.length] } ∧
      ∀ m, m < nodes.length → m ≠ n → deref (expand nodes n).1 m = deref nodes m) ∧
    ((deref nodes n).children.length = (deref nodes n).state.getPossibleMoves.length →
      expand nodes n = (nodes, none)) := by
  have hne : (deref nodes n).state.currentPlayer ≠ NONE := by
    rcases hp with h | h <;> simp [h]
  constructor
  · intro hk
    rw [expand_next nodes n hn hne hcs hk]
    refine ⟨rfl, length_grow _ _ _, ?_, ?_, ?_⟩
    · rw [deref_grow nodes n hn, if_neg (by omega), if_pos rfl]
      rfl
    · rw [deref_grow nodes n hn, if_pos rfl]
    · intro m hm hmn
      rw [deref_grow nodes n hn, if_neg hmn, if_neg (by omega)]
  · intro hk
    apply expand_none_of_all
    rw [hcs, hk, List.take_length]

theorem growingNodes_children :
    (deref growingNodes 0).children.map (fun c => (deref growingNodes c).state) =
      (deref growingNodes 0).state.getPossibleMoves.take (deref growingNodes 0).children.length := by
  have h0 : deref growingNodes 0 =
      { state := twoHoleState, parent := none, children := [1], wins := 0, visits := 0 } := rfl
  have h1 : deref growingNodes 1 = Node.new (newState twoHoleState 0 0) (some 0) := rfl
  rw [h0]
  simp only [List.map_cons, List.map_nil, List.length_singleton, h1, Node.new]
  rw [getPossibleMoves_eq]
  have hc : emptyCells twoHoleState.board = [(0, 0), (0, 1)] := twoHole_cells
  rw [hc]
  rfl

/-- Witness of C16: the root of `growingNodes` has the first of its two
successors as child, and `expand` adds the second. -/
theorem C16_expand_adds_next_successor_witness :
    0 < growingNodes.length ∧
    ((deref growingNodes 0).state.currentPlayer = PLAYER1 ∨
      (deref growingNodes 0).state.currentPlayer = PLAYER2) ∧
    (expand growingNodes 0).2 = some growingNodes.length :=
  ⟨by decide, Or.inl rfl,
    ((C16_expand_adds_next_successor growingNodes 0 (by decide) (Or.inl rfl)
      growingNodes_children).1 (by decide)).1⟩

/-- C16 as stated fails: the root of `stuckNodes` has `NONE` to move and the
first of its two successors as child; both successors carry the unchanged
board, so `expand` finds each already expanded and returns `nullptr`. -/
theorem C16_counterexample :
    0 < stuckNodes.length ∧
    (deref stuckNodes 0).children.map (fun c => (deref stuckNodes c).state) =
      (deref stuckNodes 0).state.getPossibleMoves.take (deref stuckNodes 0).children.length ∧
    (deref stuckNodes 0).children.length < (deref stuckNodes 0).state.getPossibleMoves.length ∧
    (expand stuckNodes 0).2 = none := by
  refine ⟨by decide, ?_, by decide, by decide⟩
  have h0 : deref stuckNodes 0 =
      { state := noMoverState, parent := none, children := [1], wins := 0, visits := 0 } := rfl
  have h1 : deref stuckNodes 1 = Node.new (newState noMoverState 0 0) (some 0) := rfl
  rw [h0]
  simp only [List.map_cons, List.map_nil, List.length_singleton, h1, Node.new]
  rw [getPossibleMoves_eq]
  have hc : emptyCells noMoverState.board = [(0, 0), (0, 1)] := twoHole_cells
  rw [hc]
  rfl

/-- C17 as amended: from a state with PLAYER1 or PLAYER2 to move, `defaultPolicy`
returns after at most as many steps as there are empty cells, each step filling
one of them and keeping every stone; the state reached is terminal and the
result is its winner, who has five in a row there, or `NONE` on a full board
without five; from a terminal state no step is made. -/
theorem C17_playout_terminates (rand : Nat → Nat) (state : GameState) (k : Nat)
    (hp : state.currentPlayer = PLAYER1 ∨ state.currentPlayer = PLAYER2) :
    ∃ (final : GameState) (k1 : Nat), defaultPolicy rand state k = some (final.getWinner, k1) ∧
      Playout rand state k final k1 ∧ final.isTerminal = true ∧ k ≤ k1 ∧
      k1 - k ≤ emptyCount state.board ∧
      emptyCount final.board + (k1 - k) = emptyCount state.board ∧
      (∀ x y, rd state.board x y ≠ NONE → rd final.board x y = rd state.board x y) ∧
      (final.getWinner ≠ NONE → HasFive final.board final.getWinner) ∧
      (final.getWinner = NONE →
        (∀ x y : Fin BOARD_SIZE, final.board x y ≠ NONE) ∧
        ¬HasFive final.board PLAYER1 ∧ ¬HasFive final.board PLAYER2) ∧
      (state.isTerminal = true → final = state ∧ k1 = k) := by
  have hne : state.currentPlayer ≠ NONE := by
    rcases hp with h | h <;> simp [h]
  obtain ⟨final, k1, g1, g2, g3, g4, g5, g6, g7⟩ := defaultPolicy_spec rand state k hne
  obtain ⟨w1, w2, _⟩ := getWinner_spec final
  refine ⟨final, k1, g1, g2, g3, g4, by omega, g5, g6, w2, ?_, g7⟩
  intro hw
  refine ⟨?_, w1.1 hw⟩
  rcases (isTerminal_iff final).1 g3 with h | h
  · exact absurd hw h
  · exact h

/-- Witness of C17 on a position with two empty cells. -/
theorem C17_playout_terminates_witness :
    (twoHoleState.currentPlayer = PLAYER1 ∨ twoHoleState.currentPlayer = PLAYER2) ∧
    ∃ (final : GameState) (k1 : Nat), defaultPolicy zeroRand twoHoleState 0 = some (final.getWinner, k1) ∧
      final.isTerminal = true ∧ k1 - 0 ≤ emptyCount twoHoleState.board := by
  refine ⟨Or.inl rfl, ?_⟩
  obtain ⟨final, k1, g1, _, g3, _, g5, _⟩ :=
    C17_playout_terminates zeroRand twoHoleState 0 (Or.inl rfl)
  exact ⟨final, k1, g1, g3, g5⟩

/-- C17 as stated fails: from the non-terminal state `oneHoleNoMover`, which has
one empty cell and `NONE` to move, the playout makes two steps, the first of
which fills no cell. -/
theorem C17_counterexample :
    oneHoleNoMover.isTerminal = false ∧ emptyCount oneHoleNoMover.board = 1 ∧
    defaultPolicy zeroRand oneHoleNoMover 0 = some (NONE, 2) := by
  refine ⟨by decide, by decide, by decide⟩

/-- C18: every cell `checkWin` of the minimax program reads is inside the board,
and so is every cell `checkDirection` of the MCTS program reads when called, as
`checkWin` calls it, on a cell of the board, in any direction; both records
belong to the functions they trace. -/
theorem C18_reads_inside_board :
    (∀ (board : Protype.Board) (player : Int),
      (Protype.checkWinReads board player).1 = Protype.checkWin board player ∧
      ∀ rc ∈ (Protype.checkWinReads board player).2, Protype.InBoard rc) ∧
    (∀ (board : Board) (x y : Nat) (dx dy : Int), x < BOARD_SIZE → y < BOARD_SIZE →
      (checkDirectionReads board x y dx dy).1 = checkDirection board x y dx dy ∧
      ∀ rc ∈ (checkDirectionReads board x y dx dy).2, InBoard rc) :=
  ⟨fun board player => ⟨Protype.checkWinReads_value board player,
      Protype.checkWinReads_inBoard board player⟩,
    fun board x y dx dy hx hy => ⟨checkDirectionReads_value board x y dx dy,
      checkDirectionReads_inBoard board x y dx dy hx hy⟩⟩

/-- Witness of C18: `checkDirection` from the corner `(14, 0)` towards
`(1, -1)`. -/
theorem C18_reads_inside_board_witness :
    14 < BOARD_SIZE ∧ 0 < BOARD_SIZE ∧
    ∀ rc ∈ (checkDirectionReads fiveRowState.board 14 0 1 (-1)).2, InBoard rc :=
  ⟨by decide, by decide,
    (C18_reads_inside_board.2 fiveRowState.board 14 0 1 (-1) (by decide) (by decide)).2⟩

end Protype3
